import Mathlib

/-!
Lexical analyzer: shallow embedding of `lex.cpp`.

The scanner `getNextToken(istream& in, int& linenum)`, the classifier
`id_or_kw` and the renderer `operator<<` of `src/lex.cpp` are embedded as Lean
functions.

* `std::string` is a `List Char`; the characters stand for the bytes of a 7-bit
  ASCII text read in the "C" locale (the `<cctype>` predicates are false on
  everything outside ASCII).
* `std::istream` is `IStream`: the characters already read (most recent first,
  the putback area), the characters not yet read, and the `eofbit` and
  `failbit` flags.  `get`, `peek`, `putback` and `ignore` follow the C++11
  stream rules (a failed `get` sets both flags and leaves its argument
  unchanged, `peek` at the end sets `eofbit` only, `putback` first clears
  `eofbit` and does nothing on a failed stream).
* `int& linenum` is threaded through as an `Int`; the counter is an `int` of 32
  bits, so `linenum++` is `incrLine`, which wraps around from 2147483647 to
  -2147483648 (two's complement).
* Every `while` loop of the source is a function with a fuel argument that
  returns `none` when the fuel runs out; `getNextToken` supplies more fuel than
  the stream has characters and the theorems show that a result is returned.
* The local `char nextCh;` of the character-literal path is declared without
  an initial value in the source; its indeterminate value is the explicit
  argument `uninit` of `getNextToken`.
-/

namespace LexicalAnalyzer

/-- Modelled from the spec: the enumeration `Token` of `lex.h` (absent from the
sources), with the members the spec lists in its data model. -/
inductive Token where
  | ICONST | FCONST | SCONST | CCONST | BCONST
  | IDENT
  | GET | PUT | PUTLN | IF | ELSE | ELSIF | THEN | BEGIN | END | IS
  | PROCEDURE | CONST | INT | FLOAT | CHAR | STRING | BOOL | TRUE | FALSE
  | AND | OR | NOT | MOD
  | PLUS | MINUS | MULT | DIV | EXP | ASSOP | EQ | NEQ | LTHAN | GTHAN
  | LTE | GTE | CONCAT
  | COMMA | SEMICOL | COLON | LPAREN | RPAREN | DOT
  | DONE | ERR
  deriving DecidableEq, Repr

/-- Modelled from the spec: the record `LexItem` of `lex.h` (absent from the
sources): token kind, lexeme text and line number, built by
`LexItem(kind, lexeme, line)`. -/
structure LexItem where
  token : Token
  lexeme : List Char
  linenum : Int
  deriving DecidableEq, Repr

/-! ## `<cctype>` in the "C" locale -/

/-- The C function `isspace`: space, `\t`, `\n`, `\v`, `\f`, `\r`. -/
def isspace (c : Char) : Bool := c == ' ' || (decide (9 ≤ c.toNat) && decide (c.toNat ≤ 13))

/-- The C function `isdigit`. -/
def isdigit (c : Char) : Bool := decide (48 ≤ c.toNat) && decide (c.toNat ≤ 57)

/-- The C function `isalpha`. -/
def isalpha (c : Char) : Bool :=
  (decide (65 ≤ c.toNat) && decide (c.toNat ≤ 90)) || (decide (97 ≤ c.toNat) && decide (c.toNat ≤ 122))

/-- The C function `isalnum`. -/
def isalnum (c : Char) : Bool := isalpha c || isdigit c

/-- The C function `toupper`. -/
def toupper (c : Char) : Char :=
  if decide (97 ≤ c.toNat) && decide (c.toNat ≤ 122) then Char.ofNat (c.toNat - 32) else c

/-! ## The input stream -/

/-- A `std::istream` over a finite text. `pre` holds the characters already
extracted, most recent first; `post` the characters still to come. `fail`
stands for `failbit` or `badbit`. -/
structure IStream where
  pre : List Char
  post : List Char
  eof : Bool
  fail : Bool
  deriving DecidableEq, Repr

namespace IStream

/-- A freshly opened stream over `text`. -/
def ofList (text : List Char) : IStream := ⟨[], text, false, false⟩

/-- `in.good()`. -/
def good (s : IStream) : Bool := !s.eof && !s.fail

/-- `in.get(ch)` and `in.get()`: the character extracted, if any, and the
stream afterwards. -/
def get (s : IStream) : Option Char × IStream :=
  if s.good then
    match s.post with
    | [] => (none, { s with eof := true, fail := true })
    | c :: rest => (some c, { s with pre := c :: s.pre, post := rest })
  else (none, { s with fail := true })

/-- `in.peek()`: the next character without extracting it (`none` for `EOF`). -/
def peek (s : IStream) : Option Char × IStream :=
  if s.good then
    match s.post with
    | [] => (none, { s with eof := true })
    | c :: _ => (some c, s)
  else (none, { s with fail := true })

/-- `in.putback(c)`. -/
def putback (s : IStream) (c : Char) : IStream :=
  if s.fail then { s with eof := false }
  else
    match s.pre with
    | [] => { s with eof := false, fail := true }
    | _ :: before => { pre := before, post := c :: s.post, eof := false, fail := false }

/-- The characters left after discarding up to and including the first `delim`,
and whether the end of the text was reached without finding one. -/
def dropThrough (delim : Char) : List Char → List Char → List Char × List Char × Bool
  | pre, [] => (pre, [], true)
  | pre, c :: rest => if c == delim then (c :: pre, rest, false) else dropThrough delim (c :: pre) rest

/-- `in.ignore(numeric_limits<streamsize>::max(), delim)`. -/
def ignore (s : IStream) (delim : Char) : IStream :=
  if s.good then
    match dropThrough delim s.pre s.post with
    | (pre, post, hitEnd) => { pre := pre, post := post, eof := hitEnd, fail := false }
  else { s with fail := true }

end IStream

/-! ## The keyword table and `id_or_kw` -/

/-- The map `keywords`, in the iteration order of `std::map` (sorted by key). -/
def keywords : List (List Char × Token) :=
  [ ("AND".data, Token.AND), ("BEGIN".data, Token.BEGIN), ("BOOLEAN".data, Token.BOOL),
    ("CHARACTER".data, Token.CHAR), ("CONST".data, Token.CONST), ("ELSE".data, Token.ELSE),
    ("ELSIF".data, Token.ELSIF), ("END".data, Token.END), ("FALSE".data, Token.FALSE),
    ("FLOAT".data, Token.FLOAT), ("GET".data, Token.GET), ("IF".data, Token.IF),
    ("INTEGER".data, Token.INT), ("IS".data, Token.IS), ("MOD".data, Token.MOD),
    ("NOT".data, Token.NOT), ("OR".data, Token.OR), ("PROCEDURE".data, Token.PROCEDURE),
    ("PUT".data, Token.PUT), ("PUTLINE".data, Token.PUTLN), ("PUTLN".data, Token.PUTLN),
    ("STRING".data, Token.STRING), ("THEN".data, Token.THEN), ("TRUE".data, Token.TRUE) ]

/-- `keywords.find(key)`: the mapped kind, `none` for `keywords.end()`. -/
def keywordsFind (key : List Char) : Option Token := keywords.lookup key

/-- The function `id_or_kw`. -/
def id_or_kw (lexeme : List Char) (linenum : Int) : LexItem :=
  let upperLexeme := lexeme.map toupper
  if upperLexeme = "CONSTANT".data then ⟨Token.CONST, lexeme, linenum⟩
  else
    match keywordsFind upperLexeme with
    | some kind =>
      if kind = Token.TRUE ∨ kind = Token.FALSE then ⟨Token.BCONST, lexeme, linenum⟩
      else ⟨kind, lexeme, linenum⟩
    | none => ⟨Token.IDENT, lexeme, linenum⟩

/-! ## The scanner -/

/-- The `while` loop of the identifier path (source lines 50 to 58): the stream,
the last value of `ch` and the lexeme when the loop is left. A failed
`in.get(ch)` leaves `ch` as it was. -/
def identLoop : Nat → IStream → Char → Bool → List Char → Option (IStream × Char × List Char)
  | 0, _, _, _, _ => none
  | fuel + 1, s, ch, prevUnderscore, lexeme =>
    match s.get with
    | (none, s1) => some (s1, ch, lexeme)
    | (some c, s1) =>
      if isalnum c || c == '_' then
        if prevUnderscore && c == '_' then
          some (s1.putback c, c, lexeme)
        else identLoop fuel s1 c (c == '_') (lexeme ++ [c])
      else some (s1, c, lexeme)

/-- The identifier and keyword path (source lines 45 to 69), entered with the
first character `ch` already extracted. -/
def scanIdent (ch : Char) (s : IStream) (linenum : Int) : Option (LexItem × IStream) :=
  match identLoop (s.post.length + 1) s ch (ch == '_') [ch] with
  | none => none
  | some (s1, ch1, lexeme) =>
    let s2 := s1.putback ch1
    if lexeme.head? = some '_' then some (⟨Token.ERR, lexeme, linenum⟩, s2)
    else some (id_or_kw lexeme linenum, s2)

/-- The token returned after the numeric loop (source lines 126 to 130). -/
def numberToken (hasDot : Bool) (lexeme : List Char) (linenum : Int) : LexItem :=
  if hasDot then ⟨Token.FCONST, lexeme, linenum⟩ else ⟨Token.ICONST, lexeme, linenum⟩

/-- The C call `isdigit(c)` on the result of `in.peek()`; false for `EOF`. -/
def isdigitPeek : Option Char → Bool
  | some c => isdigit c
  | none => false

/-- How one turn of the numeric loop ends: with a `break` or `return` (the
token that the call returns and the stream), or with the state for the next
turn (stream, lexeme, `hasDot`, `hasExponent`). -/
inductive NumberStep where
  | leave (result : LexItem × IStream)
  | next (s : IStream) (lexeme : List Char) (hasDot hasExponent : Bool)

/-- The body of the `while` loop of the numeric path (source lines 78 to 122)
for the character `ch` just extracted. A `break` leaves with the
classification of source lines 126 to 130, the `return` with the `ERR` token. -/
def numberBody (ch : Char) (s1 : IStream) (lexeme : List Char) (hasDot hasExponent : Bool)
    (linenum : Int) : NumberStep :=
  let pk := if ch == '.' then s1.peek else (none, s1)
  if ch == '.' && pk.1 == some '.' then
    .leave (numberToken hasDot lexeme linenum, pk.2.putback ch)
  else
    let s2 := pk.2
    if ch == '.' && hasDot then
      .leave (⟨Token.ERR, lexeme ++ ['.'], linenum⟩, s2)
    else if ch == '.' && !hasDot && !hasExponent then
      .next s2 (lexeme ++ [ch]) true hasExponent
    else if (ch == 'E' || ch == 'e') && !hasExponent then
      let nx := s2.peek
      let nextCh := nx.1
      let look : Bool × IStream :=
        match nextCh with
        | some sign =>
          if !isdigit sign && (sign == '+' || sign == '-') then
            let afterSign := nx.2.get.2.peek
            (isdigitPeek afterSign.1, afterSign.2.putback sign)
          else (isdigit sign, nx.2)
        | none => (false, nx.2)
      let validExponent := look.1
      if !validExponent then
        .leave (numberToken hasDot lexeme linenum, look.2.putback ch)
      else
        let p1 := look.2.peek
        let p2 := if p1.1 == some '+' then p1 else p1.2.peek
        if p1.1 == some '+' || p2.1 == some '-' then
          match p2.2.get with
          | (some sign, s3) => .next s3 (lexeme ++ [ch] ++ [sign]) hasDot true
          | (none, s3) => .next s3 (lexeme ++ [ch] ++ [ch]) hasDot true
        else .next p2.2 (lexeme ++ [ch]) hasDot true
    else if isdigit ch then
      .next s2 (lexeme ++ [ch]) hasDot hasExponent
    else .leave (numberToken hasDot lexeme linenum, s2.putback ch)

/-- The `while (in.get(ch))` loop of the numeric path (source lines 77 to 123)
followed by the classification (source lines 126 to 130). -/
def numberLoop : Nat → IStream → List Char → Bool → Bool → Int → Option (LexItem × IStream)
  | 0, _, _, _, _, _ => none
  | fuel + 1, s, lexeme, hasDot, hasExponent, linenum =>
    match s.get with
    | (none, s1) => some (numberToken hasDot lexeme linenum, s1)
    | (some ch, s1) =>
      match numberBody ch s1 lexeme hasDot hasExponent linenum with
      | .leave result => some result
      | .next s2 lexeme2 hasDot2 hasExponent2 =>
        numberLoop fuel s2 lexeme2 hasDot2 hasExponent2 linenum

/-- The diagnostic text of an unterminated string literal. -/
def invalidString : List Char := " Invalid string constant \"".data

/-- The `while` loop of the string path (source lines 139 to 153); the flag
`unterminated` is still true whenever the loop is left at the end of input. -/
def stringLoop : Nat → IStream → List Char → Int → Option (LexItem × IStream)
  | 0, _, _, _ => none
  | fuel + 1, s, lexeme, linenum =>
    match s.get with
    | (none, s1) => some (⟨Token.ERR, invalidString ++ lexeme, linenum⟩, s1)
    | (some ch, s1) =>
      if ch == '"' then some (⟨Token.SCONST, lexeme, linenum⟩, s1)
      else if ch == '\n' then some (⟨Token.ERR, invalidString ++ lexeme, linenum⟩, s1)
      else stringLoop fuel s1 (lexeme ++ [ch]) linenum

/-- The `while` loop of the character path (source lines 173 to 178): the
stream, the last value of `nextCh` and `errorContent` when the loop is left. -/
def charLoop : Nat → IStream → Char → List Char → Option (IStream × Char × List Char)
  | 0, _, _, _ => none
  | fuel + 1, s, nextCh, errorContent =>
    match s.get with
    | (none, s1) => some (s1, nextCh, errorContent)
    | (some c, s1) =>
      if c != '\'' && c != '\n' then
        let e1 := errorContent ++ [c]
        let e2 := if e1.length < 2 then e1 ++ [c] else e1
        charLoop fuel s1 c e2
      else some (s1, c, errorContent)

/-- The character-literal path (source lines 159 to 194), entered after the
opening quote; `uninit` is the indeterminate initial value of `nextCh`. -/
def scanChar (uninit : Char) (s : IStream) (linenum : Int) : Option (LexItem × IStream) :=
  match s.get with
  | (some ch, s1) =>
    if ch == '\n' then
      some (⟨Token.ERR, "New line is an invalid character constant.".data, linenum⟩, s1)
    else if ch == '\'' then
      some (⟨Token.ERR, "Empty character constant.".data, linenum⟩, s1)
    else
      match charLoop (s1.post.length + 1) s1 uninit [ch] with
      | none => none
      | some (s2, nextCh, errorContent) =>
        if nextCh == '\'' && errorContent.length == 1 then
          some (⟨Token.CCONST, [ch], linenum⟩, s2)
        else if nextCh == '\n' then
          some (⟨Token.ERR, "Unterminated character constant.".data, linenum⟩, s2)
        else
          let shown := if errorContent.length > 2 then errorContent.take 2 else errorContent
          some (⟨Token.ERR, " Invalid character constant '".data ++ shown ++ "'".data, linenum⟩, s2)
  | (none, s1) =>
    some (⟨Token.ERR, "Unterminated character constant.".data, linenum⟩, s1)

/-- A two-character operator: when `in.peek()` is `second`, extract it and
return `(both, lexeme2)`, otherwise return `(single, [first])`. -/
def twoCharOp (s : IStream) (first second : Char) (both single : Token) (linenum : Int) :
    LexItem × IStream :=
  let p := s.peek
  if p.1 == some second then (⟨both, [first, second], linenum⟩, p.2.get.2)
  else (⟨single, [first], linenum⟩, p.2)

/-- The `switch` on operators and special characters (source lines 197 to 262). -/
def scanOperator (ch : Char) (s : IStream) (linenum : Int) : LexItem × IStream :=
  if ch == '-' then (⟨Token.MINUS, ['-'], linenum⟩, s)
  else if ch == '+' then (⟨Token.PLUS, ['+'], linenum⟩, s)
  else if ch == '*' then twoCharOp s '*' '*' Token.EXP Token.MULT linenum
  else if ch == '|' then twoCharOp s '|' '|' Token.OR Token.ERR linenum
  else if ch == '/' then twoCharOp s '/' '=' Token.NEQ Token.DIV linenum
  else if ch == '=' then (⟨Token.EQ, ['='], linenum⟩, s)
  else if ch == '!' then twoCharOp s '!' '=' Token.NEQ Token.ERR linenum
  else if ch == '>' then twoCharOp s '>' '=' Token.GTE Token.GTHAN linenum
  else if ch == '<' then twoCharOp s '<' '=' Token.LTE Token.LTHAN linenum
  else if ch == '&' then twoCharOp s '&' '&' Token.AND Token.CONCAT linenum
  else if ch == '%' then (⟨Token.MOD, ['%'], linenum⟩, s)
  else if ch == ':' then twoCharOp s ':' '=' Token.ASSOP Token.COLON linenum
  else if ch == ',' then (⟨Token.COMMA, [','], linenum⟩, s)
  else if ch == ';' then (⟨Token.SEMICOL, [';'], linenum⟩, s)
  else if ch == '(' then (⟨Token.LPAREN, ['('], linenum⟩, s)
  else if ch == ')' then (⟨Token.RPAREN, [')'], linenum⟩, s)
  else if ch == '.' then twoCharOp s '.' '.' Token.CONCAT Token.DOT linenum
  else (⟨Token.ERR, [ch], linenum⟩, s)

/-- The part of the loop body of `getNextToken` after the comment and
whitespace tests (source lines 44 to 262): `ch` is the character that starts
the token. -/
def scanToken (uninit ch : Char) (s : IStream) (linenum : Int) : Option (LexItem × IStream) :=
  if isalpha ch || ch == '_' then scanIdent ch s linenum
  else if isdigit ch then numberLoop (s.post.length + 1) s [ch] false false linenum
  else if ch == '"' then stringLoop (s.post.length + 1) s [] linenum
  else if ch == '\'' then scanChar uninit s linenum
  else some (scanOperator ch s linenum)

/-- The value that an `int` of 32 bits holds when an arithmetic operation gives
the integer `n`: `n` itself inside the range from -2147483648 to 2147483647,
and `n` wrapped around into that range outside of it (two's complement). -/
def wrapInt (n : Int) : Int := (n + 2147483648) % 4294967296 - 2147483648

/-- The statement `linenum++` on the `int` line counter (source lines 28
and 35): the value of `linenum` afterwards. -/
def incrLine (linenum : Int) : Int := wrapInt (linenum + 1)

/-- The outer `while (in.get(ch))` loop of `getNextToken` (source lines 23 to
266): the token, the stream afterwards and the line counter afterwards. -/
def getNextTokenLoop (uninit : Char) : Nat → IStream → Int → Option (LexItem × IStream × Int)
  | 0, _, _ => none
  | fuel + 1, s, linenum =>
    match s.get with
    | (none, s1) => some (⟨Token.DONE, [], linenum⟩, s1, linenum)
    | (some ch, s1) =>
      let pk := if ch == '-' then s1.peek else (none, s1)
      if ch == '-' && pk.1 == some '-' then
        getNextTokenLoop uninit fuel (pk.2.get.2.ignore '\n') (incrLine linenum)
      else if ch == '\n' then getNextTokenLoop uninit fuel pk.2 (incrLine linenum)
      else if isspace ch then getNextTokenLoop uninit fuel pk.2 linenum
      else
        match scanToken uninit ch pk.2 linenum with
        | none => none
        | some (tok, s2) => some (tok, s2, linenum)

/-- The function `getNextToken(in, linenum)`: the returned `LexItem`, the
stream afterwards and the value of `linenum` afterwards. -/
def getNextToken (uninit : Char) (s : IStream) (linenum : Int) : Option (LexItem × IStream × Int) :=
  getNextTokenLoop uninit (s.post.length + 1) s linenum

/-! ## The token renderer -/

/-- The manipulator `endl`, as the characters it writes. -/
def endl : List Char := ['\n']

/-- The characters that `out << n` writes for an `int`. -/
def showInt (n : Int) : List Char := (toString n).data

/-- The inner `switch` of `operator<<` (source lines 314 to 340), without the
`out << endl` that follows it. The last case writes the integer value of the
enumerator, which `lex.h` (absent from the sources) fixes: `code` gives it. -/
def renderOther (code : Token → Int) (kind : Token) : List Char :=
  match kind with
  | .NEQ => "NEQ".data
  | .EXP => "EXP".data
  | .CONCAT => "CONCAT".data
  | .GTHAN => "GTHAN".data
  | .LTE => "LTE".data
  | .LTHAN => "LTHAN".data
  | .GTE => "GTE".data
  | .AND => "AND".data
  | .OR => "OR".data
  | .EQ => "EQ".data
  | .NOT => "NOT".data
  | .MOD => "MOD".data
  | .MINUS => "MINUS".data
  | .MULT => "MULT".data
  | .DIV => "DIV".data
  | .ASSOP => "ASSOP".data
  | .COMMA => "COMMA".data
  | .RPAREN => "RPAREN".data
  | .DOT => "DOT".data
  | .PLUS => "PLUS".data
  | .COLON => "COLON".data
  | .INT => "INT".data ++ endl
  | .SEMICOL => "SEMICOL".data
  | .LPAREN => "LPAREN".data
  | other => "Token: ".data ++ showInt (code other)

/-- The function `operator<<(ostream&, const LexItem&)`: the characters written
to `out`. The loop over `keywords` visits the entries in key order and stops
at the first one mapped to the kind of the token. -/
def render (code : Token → Int) (tok : LexItem) : List Char :=
  match tok.token with
  | .ERR =>
    "ERR: In line ".data ++ showInt tok.linenum ++ ", Error Message \x7b".data ++ tok.lexeme ++
      "\x7d".data ++ endl
  | .FCONST => "FCONST: (".data ++ tok.lexeme ++ ")".data ++ endl
  | .SCONST => "SCONST: \"".data ++ tok.lexeme ++ "\"".data ++ endl
  | .CCONST => "CCONST: '".data ++ tok.lexeme ++ "'".data ++ endl
  | .BCONST => "BCONST: (".data ++ tok.lexeme ++ ")".data ++ endl
  | .IDENT => "IDENT: <".data ++ tok.lexeme ++ ">".data ++ endl
  | .ICONST => "ICONST: (".data ++ tok.lexeme ++ ")".data ++ endl
  | kind =>
    if kind = Token.BOOL then "BOOL".data ++ endl
    else if kind = Token.CHAR then "CHAR".data ++ endl
    else if kind = Token.INT then "INT".data ++ endl
    else
      match keywords.find? (fun kw => kw.2 == kind) with
      | some kw => kw.1 ++ endl
      | none => renderOther code kind ++ endl

/-! ## Sequences of calls and notions about the stream -/

/-- Successive calls of `getNextToken` on one stream and one line counter, as
the driver makes them: the result of call number `n` (counted from 0), made on
the stream and the counter left by the calls before it. -/
def nthCall (uninit : Char) : Nat → IStream → Int → Option (LexItem × IStream × Int)
  | 0, s, linenum => getNextToken uninit s linenum
  | n + 1, s, linenum =>
    match nthCall uninit n s linenum with
    | some (_, s', linenum') => getNextToken uninit s' linenum'
    | none => none

/-- The stream and the line counter on which call number `n` of a sequence is
made: those of the start for the first call, those left by call `n - 1`
afterwards. -/
def stateBefore (uninit : Char) : Nat → IStream → Int → Option (IStream × Int)
  | 0, s, linenum => some (s, linenum)
  | n + 1, s, linenum => (nthCall uninit n s linenum).map (fun r => (r.2.1, r.2.2))

/-- The whole text that a stream reads: what was extracted followed by what is
still to come. -/
def IStream.text (s : IStream) : List Char := s.pre.reverse ++ s.post

/-- The state of a stream that reads a finite text: when `eofbit` or `failbit`
is set, nothing is left to read. -/
def IStream.sound (s : IStream) : Bool := s.good || s.post.isEmpty

/-- The condition under which the identifier loop keeps reading all of a text:
every character is a letter, a digit or an underscore, and no underscore
follows an underscore (`prev` tells whether the character before the text is
one). -/
def identRun : Bool → List Char → Bool
  | _, [] => true
  | prev, c :: rest => (isalnum c || c == '_') && !(prev && c == '_') && identRun (c == '_') rest

/-! ## The words of the specification, for comparison with the code -/

/-- The table of section 4.1.5 of the specification: the kind and spelling
emitted for a first character `c` and the character `next` that follows it
(`none` at the end of the input). -/
def specOperatorTable (c : Char) (next : Option Char) : Token × List Char :=
  if c = '+' then (Token.PLUS, "+".data)
  else if c = '-' then (Token.MINUS, "-".data)
  else if c = '*' then (if next = some '*' then (Token.EXP, "**".data) else (Token.MULT, "*".data))
  else if c = '/' then (if next = some '=' then (Token.NEQ, "/=".data) else (Token.DIV, "/".data))
  else if c = '!' then (if next = some '=' then (Token.NEQ, "!=".data) else (Token.ERR, "!".data))
  else if c = '=' then (Token.EQ, "=".data)
  else if c = '<' then (if next = some '=' then (Token.LTE, "<=".data) else (Token.LTHAN, "<".data))
  else if c = '>' then (if next = some '=' then (Token.GTE, ">=".data) else (Token.GTHAN, ">".data))
  else if c = '&' then (if next = some '&' then (Token.AND, "&&".data) else (Token.CONCAT, "&".data))
  else if c = '|' then (if next = some '|' then (Token.OR, "||".data) else (Token.ERR, "|".data))
  else if c = '%' then (Token.MOD, "%".data)
  else if c = ':' then (if next = some '=' then (Token.ASSOP, ":=".data) else (Token.COLON, ":".data))
  else if c = '.' then (if next = some '.' then (Token.CONCAT, "..".data) else (Token.DOT, ".".data))
  else if c = ',' then (Token.COMMA, ",".data)
  else if c = ';' then (Token.SEMICOL, ";".data)
  else if c = '(' then (Token.LPAREN, "(".data)
  else if c = ')' then (Token.RPAREN, ")".data)
  else (Token.ERR, [c])

/-- The classification of section 3 and 4.1.1 of the specification, on the
upper-case fold of a lexeme: `TRUE` and `FALSE` resolve to `BCONST`, the
aliases `PUTLINE` and `CONSTANT` to `PUTLN` and `CONST`, any other key of the
keyword table to its entry, everything else to `IDENT`. -/
def specKeywordKind (fold : List Char) : Token :=
  if fold = "TRUE".data ∨ fold = "FALSE".data then Token.BCONST
  else if fold = "PUTLINE".data then Token.PUTLN
  else if fold = "CONSTANT".data then Token.CONST
  else
    match keywords.lookup fold with
    | some kind => kind
    | none => Token.IDENT

/-- The words of the specification for a valid exponent: what follows the
`E` or `e` is a digit, or a sign that is itself followed by a digit. -/
def exponentFollows : List Char → Bool
  | [] => false
  | [x] => isdigit x
  | x :: y :: _ => isdigit x || ((x == '+' || x == '-') && isdigit y)

/-- The specification's words for the text of an exponent after the letter: the
sign if present, then the following digits. -/
def exponentText : List Char → List Char
  | [] => []
  | x :: rest =>
    if x == '+' || x == '-' then x :: rest.takeWhile isdigit else (x :: rest).takeWhile isdigit

/-- The words of the specification for an input that "consists solely of
whitespace characters and `--` line comments"; `inComment` tells whether the
text starts inside a comment, which runs up to and including the next newline
or to the end of the input. -/
def blankOnly : Bool → List Char → Bool
  | _, [] => true
  | true, c :: rest => blankOnly (c != '\n') rest
  | false, [c] => isspace c
  | false, c :: d :: rest =>
    if c == '-' && d == '-' then blankOnly true rest else isspace c && blankOnly false (d :: rest)

/-- The operator and punctuation kinds with the mnemonic that the
specification gives each of them: the name of the kind. -/
def specMnemonics : List (Token × List Char) :=
  [ (Token.PLUS, "PLUS".data), (Token.MINUS, "MINUS".data), (Token.MULT, "MULT".data),
    (Token.DIV, "DIV".data), (Token.EXP, "EXP".data), (Token.ASSOP, "ASSOP".data),
    (Token.EQ, "EQ".data), (Token.NEQ, "NEQ".data), (Token.LTHAN, "LTHAN".data),
    (Token.GTHAN, "GTHAN".data), (Token.LTE, "LTE".data), (Token.GTE, "GTE".data),
    (Token.CONCAT, "CONCAT".data), (Token.COMMA, "COMMA".data), (Token.SEMICOL, "SEMICOL".data),
    (Token.COLON, "COLON".data), (Token.LPAREN, "LPAREN".data), (Token.RPAREN, "RPAREN".data),
    (Token.DOT, "DOT".data) ]

/-- The words "white space and complete `--` comments": like `blankOnly`, but a
comment must be closed by its newline (`inComment` tells whether the text
starts inside a comment). -/
def closedBlank : Bool → List Char → Bool
  | inComment, [] => !inComment
  | true, c :: rest => closedBlank (c != '\n') rest
  | false, [c] => isspace c
  | false, c :: d :: rest =>
    if c == '-' && d == '-' then closedBlank true rest else isspace c && closedBlank false (d :: rest)

/-- The words "a non-empty lexeme that starts with a letter, consists only of
letters, digits and underscores, and contains no two consecutive
underscores". -/
@[reducible]
def identifierShape (lexeme : List Char) : Prop :=
  lexeme ≠ [] ∧ (∀ c ∈ lexeme.head?, isalpha c = true) ∧
  (∀ x ∈ lexeme, isalnum x = true ∨ x = '_') ∧ ¬ ['_', '_'] <:+: lexeme

/-- The kinds that only the identifier path gives: `IDENT`, `BCONST` and the
keyword kinds, apart from `AND`, `OR` and `MOD`, which the operators `&&`,
`||` and `%` give too. -/
def identifierKinds : List Token :=
  [Token.IDENT, Token.BCONST, Token.GET, Token.PUT, Token.PUTLN, Token.IF, Token.ELSE,
    Token.ELSIF, Token.THEN, Token.BEGIN, Token.END, Token.IS, Token.PROCEDURE, Token.CONST,
    Token.INT, Token.FLOAT, Token.CHAR, Token.STRING, Token.BOOL, Token.TRUE, Token.FALSE,
    Token.NOT]

/-- The words "the kind is `AND`, `OR` or `MOD`", the keyword kinds that an
operator gives too. -/
@[reducible]
def sharedKind (kind : Token) : Prop := kind = Token.AND ∨ kind = Token.OR ∨ kind = Token.MOD

/-- The words "the lexeme is the operator `&&`, `||` or `%`". -/
@[reducible]
def operatorSpelling (lexeme : List Char) : Prop :=
  lexeme = "&&".data ∨ lexeme = "||".data ∨ lexeme = "%".data

/-! # Theorems -/

/-! ## Stream lemmas -/

theorem get_good_cons (pre rest : List Char) (c : Char) :
    IStream.get ⟨pre, c :: rest, false, false⟩ = (some c, ⟨c :: pre, rest, false, false⟩) := by
  simp [IStream.get, IStream.good]

theorem get_good_nil (pre : List Char) :
    IStream.get ⟨pre, [], false, false⟩ = (none, ⟨pre, [], true, true⟩) := by
  simp [IStream.get, IStream.good]

theorem peek_good_cons (pre rest : List Char) (c : Char) :
    IStream.peek ⟨pre, c :: rest, false, false⟩ = (some c, ⟨pre, c :: rest, false, false⟩) := by
  simp [IStream.peek, IStream.good]

theorem peek_good_nil (pre : List Char) :
    IStream.peek ⟨pre, [], false, false⟩ = (none, ⟨pre, [], true, false⟩) := by
  simp [IStream.peek, IStream.good]

theorem putback_good (pre post : List Char) (c d : Char) (e : Bool) :
    IStream.putback ⟨c :: pre, post, e, false⟩ d = ⟨pre, d :: post, false, false⟩ := by
  simp [IStream.putback]

theorem isspace_newline_false {c : Char} (h : isspace c = false) : c ≠ '\n' := by
  rintro rfl
  revert h
  decide

/-- A call on a good stream whose first character is neither white space nor a
minus sign is the token scan started at that character. -/
theorem getNextToken_start (uninit c : Char) (pre rest : List Char) (linenum : Int)
    (hsp : isspace c = false) (hminus : c ≠ '-') :
    getNextToken uninit ⟨pre, c :: rest, false, false⟩ linenum =
      (scanToken uninit c ⟨c :: pre, rest, false, false⟩ linenum).map
        (fun r => (r.1, r.2, linenum)) := by
  have hnl := isspace_newline_false hsp
  simp only [getNextToken, getNextTokenLoop, get_good_cons]
  simp [hminus, hnl, hsp]
  cases scanToken uninit c ⟨c :: pre, rest, false, false⟩ linenum <;> rfl

theorem twoCharOp_cons (pre rest : List Char) (x first second : Char) (both single : Token)
    (linenum : Int) :
    twoCharOp ⟨pre, x :: rest, false, false⟩ first second both single linenum =
      if x = second then (⟨both, [first, second], linenum⟩, ⟨x :: pre, rest, false, false⟩)
      else (⟨single, [first], linenum⟩, ⟨pre, x :: rest, false, false⟩) := by
  simp only [twoCharOp, peek_good_cons, get_good_cons]
  by_cases h : x = second <;> simp [h]

theorem twoCharOp_nil (pre : List Char) (first second : Char) (both single : Token)
    (linenum : Int) :
    twoCharOp ⟨pre, [], false, false⟩ first second both single linenum =
      (⟨single, [first], linenum⟩, ⟨pre, [], true, false⟩) := by
  simp [twoCharOp, peek_good_nil]

/-- The `switch` agrees with the operator table of the specification and
consumes one character more exactly when the spelling has two characters. -/
theorem scanOperator_table (c : Char) (pre rest : List Char) (linenum : Int) :
    ∃ e : Bool, scanOperator c ⟨c :: pre, rest, false, false⟩ linenum =
      (⟨(specOperatorTable c rest.head?).1, (specOperatorTable c rest.head?).2, linenum⟩,
        ⟨((c :: rest).take (specOperatorTable c rest.head?).2.length).reverse ++ pre,
          (c :: rest).drop (specOperatorTable c rest.head?).2.length, e, false⟩) := by
  by_cases h1 : c = '-'
  · subst h1; exact ⟨false, by simp [scanOperator, specOperatorTable]⟩
  by_cases h2 : c = '+'
  · subst h2; exact ⟨false, by simp [scanOperator, specOperatorTable]⟩
  by_cases h3 : c = '='
  · subst h3; exact ⟨false, by simp [scanOperator, specOperatorTable]⟩
  by_cases h4 : c = '%'
  · subst h4; exact ⟨false, by simp [scanOperator, specOperatorTable]⟩
  by_cases h5 : c = ','
  · subst h5; exact ⟨false, by simp [scanOperator, specOperatorTable]⟩
  by_cases h6 : c = ';'
  · subst h6; exact ⟨false, by simp [scanOperator, specOperatorTable]⟩
  by_cases h7 : c = '('
  · subst h7; exact ⟨false, by simp [scanOperator, specOperatorTable]⟩
  by_cases h8 : c = ')'
  · subst h8; exact ⟨false, by simp [scanOperator, specOperatorTable]⟩
  by_cases h9 : c = '*'
  · subst h9
    cases rest with
    | nil => exact ⟨true, by simp [scanOperator, specOperatorTable, twoCharOp_nil]⟩
    | cons x rest =>
      refine ⟨false, ?_⟩
      by_cases hx : x = '*' <;> simp [scanOperator, specOperatorTable, twoCharOp_cons, hx]
  by_cases h10 : c = '|'
  · subst h10
    cases rest with
    | nil => exact ⟨true, by simp [scanOperator, specOperatorTable, twoCharOp_nil]⟩
    | cons x rest =>
      refine ⟨false, ?_⟩
      by_cases hx : x = '|' <;> simp [scanOperator, specOperatorTable, twoCharOp_cons, hx]
  by_cases h11 : c = '/'
  · subst h11
    cases rest with
    | nil => exact ⟨true, by simp [scanOperator, specOperatorTable, twoCharOp_nil]⟩
    | cons x rest =>
      refine ⟨false, ?_⟩
      by_cases hx : x = '=' <;> simp [scanOperator, specOperatorTable, twoCharOp_cons, hx]
  by_cases h12 : c = '!'
  · subst h12
    cases rest with
    | nil => exact ⟨true, by simp [scanOperator, specOperatorTable, twoCharOp_nil]⟩
    | cons x rest =>
      refine ⟨false, ?_⟩
      by_cases hx : x = '=' <;> simp [scanOperator, specOperatorTable, twoCharOp_cons, hx]
  by_cases h13 : c = '>'
  · subst h13
    cases rest with
    | nil => exact ⟨true, by simp [scanOperator, specOperatorTable, twoCharOp_nil]⟩
    | cons x rest =>
      refine ⟨false, ?_⟩
      by_cases hx : x = '=' <;> simp [scanOperator, specOperatorTable, twoCharOp_cons, hx]
  by_cases h14 : c = '<'
  · subst h14
    cases rest with
    | nil => exact ⟨true, by simp [scanOperator, specOperatorTable, twoCharOp_nil]⟩
    | cons x rest =>
      refine ⟨false, ?_⟩
      by_cases hx : x = '=' <;> simp [scanOperator, specOperatorTable, twoCharOp_cons, hx]
  by_cases h15 : c = '&'
  · subst h15
    cases rest with
    | nil => exact ⟨true, by simp [scanOperator, specOperatorTable, twoCharOp_nil]⟩
    | cons x rest =>
      refine ⟨false, ?_⟩
      by_cases hx : x = '&' <;> simp [scanOperator, specOperatorTable, twoCharOp_cons, hx]
  by_cases h16 : c = ':'
  · subst h16
    cases rest with
    | nil => exact ⟨true, by simp [scanOperator, specOperatorTable, twoCharOp_nil]⟩
    | cons x rest =>
      refine ⟨false, ?_⟩
      by_cases hx : x = '=' <;> simp [scanOperator, specOperatorTable, twoCharOp_cons, hx]
  by_cases h17 : c = '.'
  · subst h17
    cases rest with
    | nil => exact ⟨true, by simp [scanOperator, specOperatorTable, twoCharOp_nil]⟩
    | cons x rest =>
      refine ⟨false, ?_⟩
      by_cases hx : x = '.' <;> simp [scanOperator, specOperatorTable, twoCharOp_cons, hx]
  exact ⟨false, by simp [scanOperator, specOperatorTable, h1, h2, h3, h4, h5, h6, h7, h8, h9, h10, h11, h12, h13, h14, h15, h16, h17]⟩

theorem scanToken_operator (uninit c : Char) (s : IStream) (linenum : Int)
    (hal : isalpha c = false) (hdg : isdigit c = false)
    (hus : c ≠ '_') (hdq : c ≠ '"') (hsq : c ≠ '\'') :
    scanToken uninit c s linenum = some (scanOperator c s linenum) := by
  simp [scanToken, hal, hdg, hus, hdq, hsq]

/-! ## C1: operator and punctuation dispatch -/

/-- C1: on a good stream whose next character `c` is not white space, a letter,
a digit, an underscore or a quote, and does not open a `--` comment,
`getNextToken` returns the kind and spelling that the operator table of the
specification gives for `c` and the character after it, consumes exactly as
many characters as the spelling has (two for a two-character token, one
otherwise) and leaves the line counter unchanged. -/
theorem getNextToken_operator_dispatch (uninit c : Char) (pre rest : List Char) (linenum : Int)
    (hsp : isspace c = false) (hal : isalpha c = false) (hdg : isdigit c = false)
    (hus : c ≠ '_') (hdq : c ≠ '"') (hsq : c ≠ '\'')
    (hcomment : ¬ (c = '-' ∧ rest.head? = some '-')) :
    ∃ s' : IStream,
      getNextToken uninit ⟨pre, c :: rest, false, false⟩ linenum =
        some (⟨(specOperatorTable c rest.head?).1, (specOperatorTable c rest.head?).2, linenum⟩,
          s', linenum) ∧
      s'.pre = ((c :: rest).take (specOperatorTable c rest.head?).2.length).reverse ++ pre ∧
      s'.post = (c :: rest).drop (specOperatorTable c rest.head?).2.length ∧
      s'.fail = false := by
  by_cases hm : c = '-'
  · subst hm
    cases rest with
    | nil =>
      refine ⟨⟨'-' :: pre, [], true, false⟩, ?_, ?_, ?_, rfl⟩
      · simp [getNextToken, getNextTokenLoop, get_good_cons, peek_good_nil, isspace, scanToken,
          isalpha, isdigit, scanOperator, specOperatorTable]
      · simp [specOperatorTable]
      · simp [specOperatorTable]
    | cons x rest =>
      have hx : x ≠ '-' := by
        intro h; exact hcomment ⟨rfl, by simp [h]⟩
      refine ⟨⟨'-' :: pre, x :: rest, false, false⟩, ?_, ?_, ?_, rfl⟩
      · simp [getNextToken, getNextTokenLoop, get_good_cons, peek_good_cons, isspace, scanToken,
          isalpha, isdigit, scanOperator, specOperatorTable, hx]
      · simp [specOperatorTable]
      · simp [specOperatorTable]
  · obtain ⟨e, he⟩ := scanOperator_table c pre rest linenum
    refine ⟨⟨((c :: rest).take (specOperatorTable c rest.head?).2.length).reverse ++ pre,
      (c :: rest).drop (specOperatorTable c rest.head?).2.length, e, false⟩, ?_, rfl, rfl, rfl⟩
    rw [getNextToken_start uninit c pre rest linenum hsp hm,
      scanToken_operator uninit c _ linenum hal hdg hus hdq hsq, he]
    rfl

theorem getNextToken_operator_dispatch_witness :
    (isspace ':' = false ∧ isalpha ':' = false ∧ isdigit ':' = false ∧ ':' ≠ '_' ∧
      ':' ≠ '"' ∧ ':' ≠ '\'' ∧ ¬ (':' = '-' ∧ "= 1".data.head? = some '-')) ∧
    ∃ s' : IStream,
      getNextToken 'x' ⟨[], ':' :: "= 1".data, false, false⟩ 1 =
        some (⟨(specOperatorTable ':' "= 1".data.head?).1,
          (specOperatorTable ':' "= 1".data.head?).2, 1⟩, s', 1) ∧
      s'.pre = ((':' :: "= 1".data).take (specOperatorTable ':' "= 1".data.head?).2.length).reverse
        ++ [] ∧
      s'.post = (':' :: "= 1".data).drop (specOperatorTable ':' "= 1".data.head?).2.length ∧
      s'.fail = false :=
  ⟨by decide,
    getNextToken_operator_dispatch 'x' ':' [] "= 1".data 1 (by decide) (by decide) (by decide)
      (by decide) (by decide) (by decide) (by decide)⟩

/-! ## The keyword table -/

theorem lookup_some_mem {α β : Type} [BEq α] [LawfulBEq α] (l : List (α × β)) (k : α) (v : β)
    (h : l.lookup k = some v) : (k, v) ∈ l := by
  induction l with
  | nil => simp at h
  | cons p l ih =>
    obtain ⟨a, b⟩ := p
    by_cases hk : k = a
    · subst hk
      simp [List.lookup] at h
      simp [h]
    · have hb : (k == a) = false := by simpa using hk
      simp only [List.lookup, hb] at h
      exact List.mem_cons_of_mem _ (ih h)

theorem keywords_TRUE (key : List Char) (h : keywords.lookup key = some Token.TRUE) :
    key = "TRUE".data := by
  have := lookup_some_mem _ _ _ h
  simpa [keywords] using this

theorem keywords_FALSE (key : List Char) (h : keywords.lookup key = some Token.FALSE) :
    key = "FALSE".data := by
  have := lookup_some_mem _ _ _ h
  simpa [keywords] using this

/-! ## C2: classification by `id_or_kw` -/

/-- C2: `id_or_kw` returns the kind that the specification gives for the
upper-case fold of the lexeme, together with the unmodified lexeme and the line
passed in; the kind is never `TRUE` or `FALSE`, and the aliases `PUTLINE` and
`CONSTANT` get the kinds that `PUTLN` and `CONST` get. -/
theorem id_or_kw_classification (lexeme : List Char) (linenum : Int) :
    id_or_kw lexeme linenum = ⟨specKeywordKind (lexeme.map toupper), lexeme, linenum⟩ ∧
    (id_or_kw lexeme linenum).token ≠ Token.TRUE ∧
    (id_or_kw lexeme linenum).token ≠ Token.FALSE ∧
    specKeywordKind "PUTLINE".data = specKeywordKind "PUTLN".data ∧
    specKeywordKind "CONSTANT".data = specKeywordKind "CONST".data := by
  have key : id_or_kw lexeme linenum = ⟨specKeywordKind (lexeme.map toupper), lexeme, linenum⟩ ∧
      specKeywordKind (lexeme.map toupper) ≠ Token.TRUE ∧
      specKeywordKind (lexeme.map toupper) ≠ Token.FALSE := by
    unfold id_or_kw keywordsFind
    generalize lexeme.map toupper = fold
    by_cases hc : fold = "CONSTANT".data
    · subst hc
      have hk : specKeywordKind "CONSTANT".data = Token.CONST := by decide
      simp [hk]
    · simp only [hc, if_false]
      cases hk : keywords.lookup fold with
      | none =>
        have ht : fold ≠ "TRUE".data := by rintro rfl; revert hk; decide
        have hf : fold ≠ "FALSE".data := by rintro rfl; revert hk; decide
        have hp : fold ≠ "PUTLINE".data := by rintro rfl; revert hk; decide
        simp [specKeywordKind, ht, hf, hp, hc, hk]
      | some kind =>
        by_cases hb : kind = Token.TRUE ∨ kind = Token.FALSE
        · have hfold : fold = "TRUE".data ∨ fold = "FALSE".data := by
            rcases hb with hb | hb
            · exact Or.inl (keywords_TRUE fold (hb ▸ hk))
            · exact Or.inr (keywords_FALSE fold (hb ▸ hk))
          simp [specKeywordKind, hb, hfold]
        · have ht : fold ≠ "TRUE".data := by
            rintro rfl
            apply hb
            left
            have : keywords.lookup "TRUE".data = some Token.TRUE := by decide
            rw [this] at hk
            exact (Option.some.inj hk).symm
          have hf : fold ≠ "FALSE".data := by
            rintro rfl
            apply hb
            right
            have : keywords.lookup "FALSE".data = some Token.FALSE := by decide
            rw [this] at hk
            exact (Option.some.inj hk).symm
          have hnt : kind ≠ Token.TRUE := fun h => hb (Or.inl h)
          have hnf : kind ≠ Token.FALSE := fun h => hb (Or.inr h)
          by_cases hp : fold = "PUTLINE".data
          · subst hp
            have : keywords.lookup "PUTLINE".data = some Token.PUTLN := by decide
            rw [this] at hk
            cases hk
            refine ⟨?_, ?_, ?_⟩ <;> simp [specKeywordKind]
          · simp [specKeywordKind, hb, ht, hf, hp, hc, hk, hnt, hnf]
  refine ⟨key.1, ?_, ?_, by decide, by decide⟩
  · rw [key.1]; exact key.2.1
  · rw [key.1]; exact key.2.2

/-! ## The identifier path -/

theorem isalnum_ne_underscore {x : Char} (h : isalnum x = true) : x ≠ '_' := by
  rintro rfl
  revert h
  decide

theorem isalpha_not_space {c : Char} (h : isalpha c = true) : isspace c = false := by
  simp only [isalpha, isspace, Bool.or_eq_true, Bool.and_eq_true, decide_eq_true_eq] at h
  have hne : c ≠ ' ' := by
    rintro rfl
    revert h
    decide
  simp only [isspace, Bool.or_eq_false_iff, Bool.and_eq_false_iff, beq_eq_false_iff_ne, ne_eq,
    decide_eq_false_iff_not]
  refine ⟨hne, ?_⟩
  omega

theorem isalpha_ne_minus {c : Char} (h : isalpha c = true) : c ≠ '-' := by
  rintro rfl
  revert h
  decide

theorem isalpha_ne_underscore {c : Char} (h : isalpha c = true) : c ≠ '_' := by
  rintro rfl
  revert h
  decide

/-- The identifier loop over a run of letters and digits that reaches the end
of the input: the run is appended to the lexeme and the stream has failed. -/
theorem identLoop_alnum_eof (t : List Char) :
    ∀ (fuel : Nat) (pre : List Char) (ch : Char) (prev : Bool) (lexeme : List Char),
      (∀ x ∈ t, isalnum x = true) → t.length < fuel →
      ∃ ch' : Char, identLoop fuel ⟨pre, t, false, false⟩ ch prev lexeme =
        some (⟨t.reverse ++ pre, [], true, true⟩, ch', lexeme ++ t) := by
  induction t with
  | nil =>
    intro fuel pre ch prev lexeme _ hfuel
    obtain ⟨n, rfl⟩ : ∃ n, fuel = n + 1 := ⟨fuel - 1, by simp at hfuel; omega⟩
    exact ⟨ch, by simp [identLoop, get_good_nil]⟩
  | cons x t ih =>
    intro fuel pre ch prev lexeme hall hfuel
    obtain ⟨n, rfl⟩ : ∃ n, fuel = n + 1 := ⟨fuel - 1, by simp at hfuel; omega⟩
    have hx : isalnum x = true := hall x (List.mem_cons_self _ _)
    have hxu : x ≠ '_' := isalnum_ne_underscore hx
    obtain ⟨ch', h⟩ := ih n (x :: pre) x (x == '_') (lexeme ++ [x])
      (fun y hy => hall y (List.mem_cons_of_mem _ hy)) (by simp at hfuel; omega)
    refine ⟨ch', ?_⟩
    simp [identLoop, get_good_cons, hx, hxu, h]

/-- Scanning an input that consists of exactly one word of letters and digits
starting with a letter: the word is classified by `id_or_kw`, and the stream is
left exhausted. -/
theorem getNextToken_word (uninit c : Char) (t : List Char) (linenum : Int)
    (hc : isalpha c = true) (ht : ∀ x ∈ t, isalnum x = true) :
    getNextToken uninit (IStream.ofList (c :: t)) linenum =
      some (id_or_kw (c :: t) linenum, ⟨t.reverse ++ [c], [], false, true⟩, linenum) := by
  obtain ⟨ch', h⟩ := identLoop_alnum_eof t (t.length + 1) [c] c (c == '_') [c] ht (by omega)
  have hcu := isalpha_ne_underscore hc
  rw [IStream.ofList, getNextToken_start uninit c [] t linenum (isalpha_not_space hc)
    (isalpha_ne_minus hc)]
  simp [scanToken, hc, scanIdent, h, IStream.putback, hcu]

/-- On a failed stream `getNextToken` returns `DONE` and changes nothing. -/
theorem getNextToken_failed (uninit : Char) (pre post : List Char) (e : Bool) (linenum : Int) :
    getNextToken uninit ⟨pre, post, e, true⟩ linenum =
      some (⟨Token.DONE, [], linenum⟩, ⟨pre, post, e, true⟩, linenum) := by
  simp [getNextToken, getNextTokenLoop, IStream.get, IStream.good]

theorem isalpha_of_toupper {c : Char} (h : isalpha (toupper c) = true) : isalpha c = true := by
  unfold toupper at h
  split at h
  · rename_i hl
    simp only [Bool.and_eq_true, decide_eq_true_eq] at hl
    simp [isalpha, hl]
  · exact h

/-- The kind that `id_or_kw` gives depends on the upper-case fold only, and the
lexeme and the line are handed back unchanged. -/
theorem id_or_kw_fold (a b : List Char) (linenum : Int)
    (h : a.map toupper = b.map toupper) :
    id_or_kw a linenum = ⟨(id_or_kw b linenum).token, a, linenum⟩ := by
  simp only [id_or_kw, h]
  split_ifs
  · rfl
  · cases keywordsFind (b.map toupper) with
    | none => rfl
    | some kind => simp only []; split_ifs <;> rfl

/-- Every key of the keyword table, and `CONSTANT`, is a non-empty word of letters. -/
theorem keyword_letters (K : List Char)
    (hK : K ∈ keywords.map Prod.fst ∨ K = "CONSTANT".data) :
    K ≠ [] ∧ ∀ x ∈ K, isalpha x = true := by
  have hall : ∀ K ∈ "CONSTANT".data :: keywords.map Prod.fst,
      K ≠ [] ∧ ∀ x ∈ K, isalpha x = true := by decide
  apply hall
  rcases hK with h | h
  · exact List.mem_cons_of_mem _ h
  · rw [h]; exact List.mem_cons_self _ _

theorem letters_of_fold_eq (K K' : List Char) (hfold : K'.map toupper = K.map toupper)
    (hK : ∀ x ∈ K, isalpha x = true) (hup : K.map toupper = K) :
    ∀ x ∈ K', isalpha x = true := by
  intro x hx
  apply isalpha_of_toupper
  apply hK
  rw [← hup, ← hfold]
  exact List.mem_map_of_mem _ hx

/-! ## C3: keyword case-insensitivity -/

/-- C3: for every keyword spelling `K` (a key of the keyword table, or
`CONSTANT`) and every `K'` that differs from `K` only in letter case (same
upper-case fold), scanning the input `K'` returns the kind that scanning `K`
returns, with lexeme `K'`, and the following call returns `DONE`. -/
theorem keyword_case_insensitive (uninit : Char) (K K' : List Char) (linenum : Int)
    (hK : K ∈ keywords.map Prod.fst ∨ K = "CONSTANT".data)
    (hfold : K'.map toupper = K.map toupper) :
    ∃ (tokK : LexItem) (sK s1 : IStream),
      getNextToken uninit (IStream.ofList K) linenum = some (tokK, sK, linenum) ∧
      getNextToken uninit (IStream.ofList K') linenum =
        some (⟨tokK.token, K', linenum⟩, s1, linenum) ∧
      getNextToken uninit s1 linenum = some (⟨Token.DONE, [], linenum⟩, s1, linenum) := by
  obtain ⟨hne, hal⟩ := keyword_letters K hK
  have hup : K.map toupper = K := by
    have hall : ∀ K ∈ "CONSTANT".data :: keywords.map Prod.fst, K.map toupper = K := by decide
    apply hall
    rcases hK with h | h
    · exact List.mem_cons_of_mem _ h
    · rw [h]; exact List.mem_cons_self _ _
  have hal' := letters_of_fold_eq K K' hfold hal hup
  have hne' : K' ≠ [] := by
    rintro rfl
    apply hne
    simpa using hfold.symm
  obtain ⟨c, t, rfl⟩ := List.exists_cons_of_ne_nil hne
  obtain ⟨c', t', rfl⟩ := List.exists_cons_of_ne_nil hne'
  have alnum_of : ∀ l : List Char, (∀ x ∈ l, isalpha x = true) → ∀ x ∈ l, isalnum x = true := by
    intro l hl x hx
    simp [isalnum, hl x hx]
  refine ⟨id_or_kw (c :: t) linenum, ⟨t.reverse ++ [c], [], false, true⟩,
    ⟨t'.reverse ++ [c'], [], false, true⟩,
    getNextToken_word uninit c t linenum (hal c (List.mem_cons_self _ _))
      (alnum_of t (fun x hx => hal x (List.mem_cons_of_mem _ hx))), ?_,
    getNextToken_failed uninit _ _ _ linenum⟩
  rw [getNextToken_word uninit c' t' linenum (hal' c' (List.mem_cons_self _ _))
      (alnum_of t' (fun x hx => hal' x (List.mem_cons_of_mem _ hx)))]
  rw [id_or_kw_fold (c' :: t') (c :: t) linenum hfold]

theorem keyword_case_insensitive_witness :
    ("PUTLINE".data ∈ keywords.map Prod.fst ∨ "PUTLINE".data = "CONSTANT".data) ∧
    "PutLine".data.map toupper = "PUTLINE".data.map toupper ∧
    ∃ (tokK : LexItem) (sK s1 : IStream),
      getNextToken 'x' (IStream.ofList "PUTLINE".data) 1 = some (tokK, sK, 1) ∧
      getNextToken 'x' (IStream.ofList "PutLine".data) 1 =
        some (⟨tokK.token, "PutLine".data, 1⟩, s1, 1) ∧
      getNextToken 'x' s1 1 = some (⟨Token.DONE, [], 1⟩, s1, 1) :=
  ⟨by decide, by decide,
    keyword_case_insensitive 'x' "PUTLINE".data "PutLine".data 1 (by decide) (by decide)⟩

/-! ## The numeric path: blocks of digits -/

theorem isdigit_not_space {c : Char} (h : isdigit c = true) : isspace c = false := by
  simp only [isdigit, Bool.and_eq_true, decide_eq_true_eq] at h
  have hne : c ≠ ' ' := by
    rintro rfl
    revert h
    decide
  simp only [isspace, Bool.or_eq_false_iff, Bool.and_eq_false_iff, beq_eq_false_iff_ne, ne_eq,
    decide_eq_false_iff_not]
  refine ⟨hne, ?_⟩
  omega

theorem isdigit_not_alpha {c : Char} (h : isdigit c = true) : isalpha c = false := by
  simp only [isdigit, Bool.and_eq_true, decide_eq_true_eq] at h
  simp only [isalpha, Bool.or_eq_false_iff, Bool.and_eq_false_iff, decide_eq_false_iff_not]
  omega

theorem isdigit_ne {c d : Char} (h : isdigit c = true) (hd : isdigit d = false) : c ≠ d := by
  rintro rfl
  rw [h] at hd
  exact Bool.noConfusion hd

/-- A call on a good stream whose first character is a digit enters the
numeric loop with that digit as the lexeme. -/
theorem getNextToken_digit (uninit c : Char) (pre rest : List Char) (linenum : Int)
    (hc : isdigit c = true) :
    getNextToken uninit ⟨pre, c :: rest, false, false⟩ linenum =
      (numberLoop (rest.length + 1) ⟨c :: pre, rest, false, false⟩ [c] false false linenum).map
        (fun r => (r.1, r.2, linenum)) := by
  have hm : c ≠ '-' := isdigit_ne hc (by decide)
  have hu : c ≠ '_' := isdigit_ne hc (by decide)
  rw [getNextToken_start uninit c pre rest linenum (isdigit_not_space hc) hm]
  simp [scanToken, isdigit_not_alpha hc, hu, hc]

/-- One turn of the numeric loop on a digit. -/
theorem numberLoop_digit_step (fuel : Nat) (pre rest lexeme : List Char) (x : Char)
    (hasDot hasExponent : Bool) (linenum : Int) (hx : isdigit x = true) :
    numberLoop (fuel + 1) ⟨pre, x :: rest, false, false⟩ lexeme hasDot hasExponent linenum =
      numberLoop fuel ⟨x :: pre, rest, false, false⟩ (lexeme ++ [x]) hasDot hasExponent
        linenum := by
  have h1 : x ≠ '.' := isdigit_ne hx (by decide)
  have h2 : x ≠ 'E' := isdigit_ne hx (by decide)
  have h3 : x ≠ 'e' := isdigit_ne hx (by decide)
  rw [numberLoop]
  simp only [get_good_cons]
  simp [numberBody, h1, h2, h3, hx]

/-- The numeric loop runs through a block of digits, appending them to the
lexeme, whatever the flags are. -/
theorem numberLoop_digits (t : List Char) :
    ∀ (fuel : Nat) (pre rest lexeme : List Char) (hasDot hasExponent : Bool) (linenum : Int),
      (∀ x ∈ t, isdigit x = true) →
      numberLoop (fuel + t.length) ⟨pre, t ++ rest, false, false⟩ lexeme hasDot hasExponent
          linenum =
        numberLoop fuel ⟨t.reverse ++ pre, rest, false, false⟩ (lexeme ++ t) hasDot hasExponent
          linenum := by
  induction t with
  | nil => intro fuel pre rest lexeme hasDot hasExponent linenum _; simp
  | cons x t ih =>
    intro fuel pre rest lexeme hasDot hasExponent linenum hall
    have hx : isdigit x = true := hall x (List.mem_cons_self _ _)
    show numberLoop (fuel + t.length + 1) ⟨pre, x :: (t ++ rest), false, false⟩ lexeme
        hasDot hasExponent linenum = _
    rw [numberLoop_digit_step _ _ _ _ _ _ _ _ hx,
      ih fuel (x :: pre) rest (lexeme ++ [x]) hasDot hasExponent linenum
        (fun y hy => hall y (List.mem_cons_of_mem _ hy))]
    simp

/-- The numeric loop never consumes a `.` that is followed by another `.`. -/
theorem numberLoop_dotdot (fuel : Nat) (pre r lexeme : List Char) (hasDot hasExponent : Bool)
    (linenum : Int) :
    numberLoop (fuel + 1) ⟨pre, '.' :: '.' :: r, false, false⟩ lexeme hasDot hasExponent linenum =
      some (numberToken hasDot lexeme linenum, ⟨pre, '.' :: '.' :: r, false, false⟩) := by
  rw [numberLoop]
  simp only [get_good_cons]
  simp [numberBody, peek_good_cons, putback_good]

/-- The numeric loop at the end of the input returns what was accumulated. -/
theorem numberLoop_eof (fuel : Nat) (pre lexeme : List Char) (hasDot hasExponent : Bool)
    (linenum : Int) :
    numberLoop (fuel + 1) ⟨pre, [], false, false⟩ lexeme hasDot hasExponent linenum =
      some (numberToken hasDot lexeme linenum, ⟨pre, [], true, true⟩) := by
  rw [numberLoop]
  simp only [get_good_nil]

/-- A call on a good stream that starts with a digit followed by a block of
digits: the numeric loop continues after the block with all of it in the
lexeme. -/
theorem getNextToken_digits (uninit c : Char) (t pre rest : List Char) (linenum : Int)
    (hc : isdigit c = true) (ht : ∀ x ∈ t, isdigit x = true) :
    getNextToken uninit ⟨pre, c :: (t ++ rest), false, false⟩ linenum =
      (numberLoop (rest.length + 1) ⟨t.reverse ++ c :: pre, rest, false, false⟩ (c :: t) false
        false linenum).map (fun r => (r.1, r.2, linenum)) := by
  have hf : (t ++ rest).length + 1 = (rest.length + 1) + t.length := by
    simp only [List.length_append]; omega
  rw [getNextToken_digit uninit c pre (t ++ rest) linenum hc, hf,
    numberLoop_digits t (rest.length + 1) (c :: pre) rest [c] false false linenum ht]
  rfl

/-! ## C4: the `..` operator after a number -/

/-- C4: for non-empty digit strings `d1` and `d2`, successive calls on
`d1 ++ ".." ++ d2` return `ICONST d1`, `CONCAT ".."`, `ICONST d2` and `DONE`,
all with the line counter unchanged (line 1 when started at 1); and the numeric
loop, in any state, puts back a `.` that is followed by another `.` and ends
the number with the text accumulated so far. -/
theorem dotdot_preserved (uninit : Char) (d1 d2 : List Char) (linenum : Int)
    (h1 : d1 ≠ []) (h2 : d2 ≠ [])
    (hd1 : ∀ x ∈ d1, isdigit x = true) (hd2 : ∀ x ∈ d2, isdigit x = true) :
    (∃ s1 s2 s3 s4 : IStream,
      getNextToken uninit (IStream.ofList (d1 ++ ['.', '.'] ++ d2)) linenum =
        some (⟨Token.ICONST, d1, linenum⟩, s1, linenum) ∧
      getNextToken uninit s1 linenum = some (⟨Token.CONCAT, ['.', '.'], linenum⟩, s2, linenum) ∧
      getNextToken uninit s2 linenum = some (⟨Token.ICONST, d2, linenum⟩, s3, linenum) ∧
      getNextToken uninit s3 linenum = some (⟨Token.DONE, [], linenum⟩, s4, linenum)) ∧
    (∀ (fuel : Nat) (pre r lexeme : List Char) (hasDot hasExponent : Bool),
      ∃ tok : LexItem,
        numberLoop (fuel + 1) ⟨pre, '.' :: '.' :: r, false, false⟩ lexeme hasDot hasExponent
          linenum = some (tok, ⟨pre, '.' :: '.' :: r, false, false⟩) ∧ tok.lexeme = lexeme) := by
  constructor
  · obtain ⟨c, t, rfl⟩ := List.exists_cons_of_ne_nil h1
    obtain ⟨c2, t2, rfl⟩ := List.exists_cons_of_ne_nil h2
    have hc := hd1 c (List.mem_cons_self _ _)
    have ht : ∀ x ∈ t, isdigit x = true := fun x hx => hd1 x (List.mem_cons_of_mem _ hx)
    have hc2 := hd2 c2 (List.mem_cons_self _ _)
    have ht2 : ∀ x ∈ t2, isdigit x = true := fun x hx => hd2 x (List.mem_cons_of_mem _ hx)
    refine ⟨⟨t.reverse ++ [c], '.' :: '.' :: c2 :: t2, false, false⟩,
      ⟨'.' :: '.' :: (t.reverse ++ [c]), c2 :: t2, false, false⟩,
      ⟨t2.reverse ++ c2 :: '.' :: '.' :: (t.reverse ++ [c]), [], true, true⟩,
      ⟨t2.reverse ++ c2 :: '.' :: '.' :: (t.reverse ++ [c]), [], true, true⟩, ?_, ?_, ?_, ?_⟩
    · have := getNextToken_digits uninit c t [] ('.' :: '.' :: c2 :: t2) linenum hc ht
      simp only [IStream.ofList, List.cons_append, List.append_assoc, List.nil_append,
        List.singleton_append]
      rw [this, List.length_cons, numberLoop_dotdot]
      rfl
    · rw [getNextToken_start uninit '.' _ _ linenum (by decide) (by decide)]
      simp [scanToken, scanOperator, twoCharOp_cons, isalpha, isdigit]
    · have := getNextToken_digits uninit c2 t2 ('.' :: '.' :: (t.reverse ++ [c])) [] linenum
        hc2 ht2
      rw [List.append_nil] at this
      rw [this, List.length_nil, numberLoop_eof]
      rfl
    · exact getNextToken_failed uninit _ _ _ linenum
  · intro fuel pre r lexeme hasDot hasExponent
    refine ⟨numberToken hasDot lexeme linenum, numberLoop_dotdot fuel pre r lexeme hasDot
      hasExponent linenum, ?_⟩
    cases hasDot <;> rfl

theorem dotdot_preserved_witness :
    ("1".data ≠ [] ∧ "10".data ≠ [] ∧ (∀ x ∈ "1".data, isdigit x = true) ∧
      (∀ x ∈ "10".data, isdigit x = true)) ∧
    (∃ s1 s2 s3 s4 : IStream,
      getNextToken 'x' (IStream.ofList ("1".data ++ ['.', '.'] ++ "10".data)) 1 =
        some (⟨Token.ICONST, "1".data, 1⟩, s1, 1) ∧
      getNextToken 'x' s1 1 = some (⟨Token.CONCAT, ['.', '.'], 1⟩, s2, 1) ∧
      getNextToken 'x' s2 1 = some (⟨Token.ICONST, "10".data, 1⟩, s3, 1) ∧
      getNextToken 'x' s3 1 = some (⟨Token.DONE, [], 1⟩, s4, 1)) ∧
    (∀ (fuel : Nat) (pre r lexeme : List Char) (hasDot hasExponent : Bool),
      ∃ tok : LexItem,
        numberLoop (fuel + 1) ⟨pre, '.' :: '.' :: r, false, false⟩ lexeme hasDot hasExponent
          1 = some (tok, ⟨pre, '.' :: '.' :: r, false, false⟩) ∧ tok.lexeme = lexeme) :=
  ⟨by decide, dotdot_preserved 'x' "1".data "10".data 1 (by decide) (by decide) (by decide)
    (by decide)⟩

/-! ## The numeric loop -/

/-- The body of the numeric loop on a digit: the digit joins the lexeme. -/
theorem numberBody_digit (ch : Char) (s : IStream) (lexeme : List Char) (hasDot hasExponent : Bool)
    (linenum : Int) (hx : isdigit ch = true) :
    numberBody ch s lexeme hasDot hasExponent linenum =
      .next s (lexeme ++ [ch]) hasDot hasExponent := by
  have h1 : ch ≠ '.' := isdigit_ne hx (by decide)
  have h2 : ch ≠ 'E' := isdigit_ne hx (by decide)
  have h3 : ch ≠ 'e' := isdigit_ne hx (by decide)
  simp [numberBody, h1, h2, h3, hx]

/-- The body of the numeric loop on a character that cannot continue the
number (not a dot, not a digit, and not an exponent letter unless an exponent
was already taken): the character is put back and the number ends. -/
theorem numberBody_stop (ch : Char) (s : IStream) (lexeme : List Char) (hasDot hasExponent : Bool)
    (linenum : Int) (hdot : ch ≠ '.') (hdig : isdigit ch = false)
    (hexp : (ch ≠ 'E' ∧ ch ≠ 'e') ∨ hasExponent = true) :
    numberBody ch s lexeme hasDot hasExponent linenum =
      .leave (numberToken hasDot lexeme linenum, s.putback ch) := by
  rcases hexp with ⟨h2, h3⟩ | h
  · simp [numberBody, hdot, h2, h3, hdig]
  · simp [numberBody, hdot, h, hdig]

/-- The body of the numeric loop on a dot followed by a dot. -/
theorem numberBody_dotdot (pre r lexeme : List Char) (hasDot hasExponent : Bool) (linenum : Int) :
    numberBody '.' ⟨'.' :: pre, '.' :: r, false, false⟩ lexeme hasDot hasExponent linenum =
      .leave (numberToken hasDot lexeme linenum, ⟨pre, '.' :: '.' :: r, false, false⟩) := by
  simp [numberBody, peek_good_cons, putback_good]

/-- The state of the stream after `in.peek()` on a good stream. -/
theorem peek_good (pre rest : List Char) :
    IStream.peek ⟨pre, rest, false, false⟩ = (rest.head?, ⟨pre, rest, rest.isEmpty, false⟩) := by
  cases rest <;> simp [IStream.peek, IStream.good]

/-- The body of the numeric loop on a dot that is not followed by a dot. -/
theorem numberBody_dot (pre rest lexeme : List Char) (hasDot hasExponent : Bool) (linenum : Int)
    (hr : rest.head? ≠ some '.') :
    numberBody '.' ⟨'.' :: pre, rest, false, false⟩ lexeme hasDot hasExponent linenum =
      if hasDot = true then
        .leave (⟨Token.ERR, lexeme ++ ['.'], linenum⟩, ⟨'.' :: pre, rest, rest.isEmpty, false⟩)
      else if hasExponent = true then
        .leave (numberToken false lexeme linenum, ⟨pre, '.' :: rest, false, false⟩)
      else .next ⟨'.' :: pre, rest, rest.isEmpty, false⟩ (lexeme ++ ['.']) true false := by
  cases hasDot <;> cases hasExponent <;>
    simp [numberBody, peek_good, hr, putback_good, isdigit]

/-- The body of the numeric loop on `E` or `e` when no exponent was seen and
what follows is not a valid exponent: the letter is put back. -/
theorem numberBody_exp_invalid (ch : Char) (pre rest lexeme : List Char) (hasDot : Bool)
    (linenum : Int) (he : ch = 'E' ∨ ch = 'e') (hr : exponentFollows rest = false) :
    numberBody ch ⟨ch :: pre, rest, false, false⟩ lexeme hasDot false linenum =
      .leave (numberToken hasDot lexeme linenum, ⟨pre, ch :: rest, false, false⟩) := by
  have hdot : ch ≠ '.' := by rcases he with rfl | rfl <;> decide
  have hE : (ch == 'E' || ch == 'e') = true := by rcases he with rfl | rfl <;> decide
  match rest, hr with
  | [], _ => simp [numberBody, hdot, hE, peek_good, putback_good]
  | [x], hr =>
    have hx : isdigit x = false := hr
    by_cases hsign : (x == '+' || x == '-') = true
    · simp [numberBody, hdot, hE, peek_good, get_good_cons, putback_good, hx, hsign,
        isdigitPeek]
    · have hsign2 : (x == '+' || x == '-') = false := by simpa using hsign
      simp [numberBody, hdot, hE, peek_good, putback_good, hx, hsign2]
  | x :: y :: r, hr =>
    simp only [exponentFollows, Bool.or_eq_false_iff, Bool.and_eq_false_iff] at hr
    obtain ⟨hx, hs⟩ := hr
    by_cases hsign : (x == '+' || x == '-') = true
    · have hy : isdigit y = false := by
        rcases hs with h | h
        · rw [h.1, h.2] at hsign; exact Bool.noConfusion hsign
        · exact h
      simp [numberBody, hdot, hE, peek_good, get_good_cons, putback_good, hx, hsign,
        isdigitPeek, hy]
    · have hsign2 : (x == '+' || x == '-') = false := by simpa using hsign
      simp [numberBody, hdot, hE, peek_good, putback_good, hx, hsign2]

/-- The body of the numeric loop on `E` or `e` followed by a digit, when no
exponent was seen: the letter joins the lexeme. -/
theorem numberBody_exp_digit (ch x : Char) (pre r lexeme : List Char) (hasDot : Bool)
    (linenum : Int) (he : ch = 'E' ∨ ch = 'e') (hx : isdigit x = true) :
    numberBody ch ⟨ch :: pre, x :: r, false, false⟩ lexeme hasDot false linenum =
      .next ⟨ch :: pre, x :: r, false, false⟩ (lexeme ++ [ch]) hasDot true := by
  have hdot : ch ≠ '.' := by rcases he with rfl | rfl <;> decide
  have hE : (ch == 'E' || ch == 'e') = true := by rcases he with rfl | rfl <;> decide
  have h1 : x ≠ '+' := isdigit_ne hx (by decide)
  have h2 : x ≠ '-' := isdigit_ne hx (by decide)
  simp [numberBody, hdot, hE, peek_good, hx, h1, h2]

/-- The body of the numeric loop on `E` or `e` followed by a sign and a digit,
when no exponent was seen: the letter and the sign join the lexeme. -/
theorem numberBody_exp_sign (ch x y : Char) (pre r lexeme : List Char) (hasDot : Bool)
    (linenum : Int) (he : ch = 'E' ∨ ch = 'e') (hx : x = '+' ∨ x = '-')
    (hy : isdigit y = true) :
    numberBody ch ⟨ch :: pre, x :: y :: r, false, false⟩ lexeme hasDot false linenum =
      .next ⟨x :: ch :: pre, y :: r, false, false⟩ (lexeme ++ [ch] ++ [x]) hasDot true := by
  have hdot : ch ≠ '.' := by rcases he with rfl | rfl <;> decide
  have hE : (ch == 'E' || ch == 'e') = true := by rcases he with rfl | rfl <;> decide
  have hp : isdigit '+' = false := by decide
  have hm : isdigit '-' = false := by decide
  rcases hx with rfl | rfl <;>
    simp [numberBody, hdot, hE, peek_good, get_good_cons, putback_good, isdigitPeek, hy, hp, hm]

theorem exponentFollows_true {rest : List Char} (h : exponentFollows rest = true) :
    (∃ x r, rest = x :: r ∧ isdigit x = true) ∨
    (∃ x y r, rest = x :: y :: r ∧ (x = '+' ∨ x = '-') ∧ isdigit y = true) := by
  match rest, h with
  | [x], h => exact Or.inl ⟨x, [], rfl, h⟩
  | x :: y :: r, h =>
    simp only [exponentFollows, Bool.or_eq_true, Bool.and_eq_true, beq_iff_eq] at h
    rcases h with h | ⟨hs, hy⟩
    · exact Or.inl ⟨x, y :: r, rfl, h⟩
    · exact Or.inr ⟨x, y, r, rfl, hs, hy⟩

theorem count_dot_nil {ch : Char} (h : ch ≠ '.') : List.count '.' [ch] = 0 :=
  List.count_eq_zero.mpr (by simp [Ne.symm h])

theorem count_dot_two {ch x : Char} (h : ch ≠ '.') (hx : x ≠ '.') : List.count '.' [ch, x] = 0 :=
  List.count_eq_zero.mpr (by simp [Ne.symm h, Ne.symm hx])

/-- Every way one turn of the numeric loop can end, on the stream left by a
successful `in.get(ch)`: it leaves with the classification and `ch` put back,
or with `ERR` and `ch` consumed, or it goes on having consumed `ch` and at most
one sign `k`; the dot flag counts the dots taken into the lexeme. -/
theorem numberBody_cases (ch : Char) (pre rest lexeme : List Char) (hasDot hasExponent : Bool)
    (linenum : Int) :
    numberBody ch ⟨ch :: pre, rest, false, false⟩ lexeme hasDot hasExponent linenum =
        .leave (numberToken hasDot lexeme linenum, ⟨pre, ch :: rest, false, false⟩) ∨
    (ch = '.' ∧ hasDot = true ∧
      numberBody ch ⟨ch :: pre, rest, false, false⟩ lexeme hasDot hasExponent linenum =
        .leave (⟨Token.ERR, lexeme ++ ['.'], linenum⟩, ⟨ch :: pre, rest, rest.isEmpty, false⟩)) ∨
    (∃ (k rest2 : List Char) (e hasDot2 hasExponent2 : Bool),
      numberBody ch ⟨ch :: pre, rest, false, false⟩ lexeme hasDot hasExponent linenum =
        .next ⟨k.reverse ++ ch :: pre, rest2, e, false⟩ (lexeme ++ ch :: k) hasDot2 hasExponent2 ∧
      rest = k ++ rest2 ∧ (e = true → rest2 = []) ∧
      (ch :: k).count '.' + hasDot.toNat = hasDot2.toNat) := by
  by_cases hdig : isdigit ch = true
  · right; right
    refine ⟨[], rest, false, hasDot, hasExponent, ?_, rfl, by simp, ?_⟩
    · rw [numberBody_digit ch _ lexeme hasDot hasExponent linenum hdig]; rfl
    · have h1 : ch ≠ '.' := isdigit_ne hdig (by decide)
      simp [count_dot_nil h1]
  have hdig : isdigit ch = false := by simpa using hdig
  by_cases hdot : ch = '.'
  · subst hdot
    by_cases hr : rest.head? = some '.'
    · left
      obtain ⟨r, rfl⟩ : ∃ r, rest = '.' :: r := by
        cases rest with
        | nil => simp at hr
        | cons x r => simp at hr; exact ⟨r, by rw [hr]⟩
      exact numberBody_dotdot pre r lexeme hasDot hasExponent linenum
    · rw [numberBody_dot pre rest lexeme hasDot hasExponent linenum hr]
      cases hasDot with
      | true => right; left; exact ⟨rfl, rfl, rfl⟩
      | false =>
        cases hasExponent with
        | true => left; rfl
        | false =>
          right; right
          refine ⟨[], rest, rest.isEmpty, true, false, rfl, rfl, ?_, by simp⟩
          intro h
          simpa using h
  by_cases hexp : (ch = 'E' ∨ ch = 'e') ∧ hasExponent = false
  · obtain ⟨he, hfalse⟩ := hexp
    subst hfalse
    by_cases hf : exponentFollows rest = true
    · right; right
      rcases exponentFollows_true hf with ⟨x, r, rfl, hx⟩ | ⟨x, y, r, rfl, hs, hy⟩
      · refine ⟨[], x :: r, false, hasDot, true, ?_, rfl, by simp, by simp [count_dot_nil hdot]⟩
        rw [numberBody_exp_digit ch x pre r lexeme hasDot linenum he hx]; rfl
      · have hxd : x ≠ '.' := by rcases hs with rfl | rfl <;> decide
        refine ⟨[x], y :: r, false, hasDot, true, ?_, rfl, by simp,
          by simp [count_dot_two hdot hxd]⟩
        rw [numberBody_exp_sign ch x y pre r lexeme hasDot linenum he hs hy]
        simp
    · left
      exact numberBody_exp_invalid ch pre rest lexeme hasDot linenum he (by simpa using hf)
  · left
    rw [numberBody_stop ch _ lexeme hasDot hasExponent linenum hdot hdig, putback_good]
    by_cases h : hasExponent = true
    · exact Or.inr h
    · left
      constructor
      · intro hE; exact hexp ⟨Or.inl hE, by simpa using h⟩
      · intro hE; exact hexp ⟨Or.inr hE, by simpa using h⟩

/-- The two outcomes of `in.get(ch)`: the stream is not good or at its end and
nothing is consumed, or the stream is good and its first character is
extracted. -/
theorem get_cases (s : IStream) :
    (∃ s1 : IStream, s.get = (none, s1) ∧ s1.pre = s.pre ∧ s1.post = s.post ∧ s1.fail = true) ∨
    (∃ (ch : Char) (rest : List Char), s = ⟨s.pre, ch :: rest, false, false⟩ ∧
      s.get = (some ch, ⟨ch :: s.pre, rest, false, false⟩)) := by
  obtain ⟨pre, post, e, f⟩ := s
  cases e <;> cases f <;> cases post <;> simp [IStream.get, IStream.good]

/-- The numeric loop returns, whatever the stream holds: with `mid` the text it
consumed, the lexeme is the lexeme on entry followed by `mid`, the stream has
moved past exactly `mid`, and the kind is `ICONST`, `FCONST` or `ERR` according
to whether zero, one or two dots were taken. -/
theorem numberLoop_spec (fuel : Nat) :
    ∀ (s : IStream) (lexeme : List Char) (hasDot hasExponent : Bool) (linenum : Int),
      s.post.length < fuel →
      ∃ (tok : LexItem) (s' : IStream) (mid : List Char),
        numberLoop fuel s lexeme hasDot hasExponent linenum = some (tok, s') ∧
        tok.lexeme = lexeme ++ mid ∧ tok.linenum = linenum ∧
        mid ++ s'.post = s.post ∧ s'.pre = mid.reverse ++ s.pre ∧
        ((tok.token = Token.ICONST ∧ mid.count '.' + hasDot.toNat = 0) ∨
          (tok.token = Token.FCONST ∧ mid.count '.' + hasDot.toNat = 1) ∨
          (tok.token = Token.ERR ∧ mid.count '.' + hasDot.toNat = 2 ∧ mid ≠ [] ∧
            s'.fail = false)) := by
  induction fuel with
  | zero => intro s lexeme hasDot hasExponent linenum h; omega
  | succ fuel ih =>
    intro s lexeme hasDot hasExponent linenum hlen
    have hleave : ∀ s1 : IStream, s1.pre = s.pre → s1.post = s.post →
        ∃ (tok : LexItem) (s' : IStream) (mid : List Char),
          some (numberToken hasDot lexeme linenum, s1) = some (tok, s') ∧
          tok.lexeme = lexeme ++ mid ∧ tok.linenum = linenum ∧
          mid ++ s'.post = s.post ∧ s'.pre = mid.reverse ++ s.pre ∧
          ((tok.token = Token.ICONST ∧ mid.count '.' + hasDot.toNat = 0) ∨
            (tok.token = Token.FCONST ∧ mid.count '.' + hasDot.toNat = 1) ∨
            (tok.token = Token.ERR ∧ mid.count '.' + hasDot.toNat = 2 ∧ mid ≠ [] ∧
              s'.fail = false)) := by
      intro s1 hpre hpost
      refine ⟨numberToken hasDot lexeme linenum, s1, [], rfl, ?_, ?_, ?_, ?_, ?_⟩
      · cases hasDot <;> simp [numberToken]
      · cases hasDot <;> simp [numberToken]
      · simpa using hpost
      · simpa using hpre
      · cases hasDot <;> simp [numberToken]
    rcases get_cases s with ⟨s1, hget, hpre, hpost, _⟩ | ⟨ch, rest, hs, hget⟩
    · rw [numberLoop]
      simp only [hget]
      exact hleave s1 hpre hpost
    · rw [numberLoop]
      simp only [hget]
      have hpostS : s.post = ch :: rest := by rw [hs]
      rcases numberBody_cases ch s.pre rest lexeme hasDot hasExponent linenum with
        h | ⟨hch, hd, h⟩ | ⟨k, rest2, e, hasDot2, hasExponent2, h, hrest, he, hcount⟩
      · rw [h]
        exact hleave _ rfl hpostS.symm
      · rw [h]
        subst hch hd
        refine ⟨_, _, ['.'], rfl, rfl, rfl, ?_, ?_, ?_⟩
        · simp [hpostS]
        · simp
        · right; right
          simp
      · rw [h]
        have hlen2 : (IStream.mk (k.reverse ++ ch :: s.pre) rest2 e false).post.length < fuel := by
          rw [hpostS, hrest] at hlen
          simp only [List.length_cons, List.length_append] at hlen
          simp only
          omega
        obtain ⟨tok, s', mid, hloop, hlex, hline, hpost', hpre', hkind⟩ :=
          ih ⟨k.reverse ++ ch :: s.pre, rest2, e, false⟩ (lexeme ++ ch :: k) hasDot2 hasExponent2
            linenum hlen2
        refine ⟨tok, s', ch :: k ++ mid, hloop, ?_, hline, ?_, ?_, ?_⟩
        · rw [hlex]; simp
        · rw [hpostS, hrest]
          simp only at hpost'
          simp [hpost']
        · rw [hpre']; simp
        · have hc : (ch :: k ++ mid).count '.' + hasDot.toNat = mid.count '.' + hasDot2.toNat := by
            rw [← hcount]
            simp only [List.cons_append, List.count_cons, List.count_append]
            omega
          rw [hc]
          rcases hkind with h1 | h1 | ⟨h1, h2, h3, h4⟩
          · exact Or.inl h1
          · exact Or.inr (Or.inl h1)
          · exact Or.inr (Or.inr ⟨h1, h2, by simp, h4⟩)

theorem numberLoop_next (fuel : Nat) (ch : Char) (pre rest lexeme : List Char)
    (hasDot hasExponent : Bool) (linenum : Int) (s2 : IStream) (lexeme2 : List Char)
    (hasDot2 hasExponent2 : Bool)
    (h : numberBody ch ⟨ch :: pre, rest, false, false⟩ lexeme hasDot hasExponent linenum =
      .next s2 lexeme2 hasDot2 hasExponent2) :
    numberLoop (fuel + 1) ⟨pre, ch :: rest, false, false⟩ lexeme hasDot hasExponent linenum =
      numberLoop fuel s2 lexeme2 hasDot2 hasExponent2 linenum := by
  rw [numberLoop]
  simp only [get_good_cons, h]

theorem numberLoop_leave (fuel : Nat) (ch : Char) (pre rest lexeme : List Char)
    (hasDot hasExponent : Bool) (linenum : Int) (result : LexItem × IStream)
    (h : numberBody ch ⟨ch :: pre, rest, false, false⟩ lexeme hasDot hasExponent linenum =
      .leave result) :
    numberLoop (fuel + 1) ⟨pre, ch :: rest, false, false⟩ lexeme hasDot hasExponent linenum =
      some result := by
  rw [numberLoop]
  simp only [get_good_cons, h]

/-- A call on a good stream that starts with digits, a dot and more digits,
where the dot is not followed by another dot nor by the end of the input: the
numeric loop continues after the fraction with the dot flag set. -/
theorem getNextToken_fraction (uninit c : Char) (t d2 pre rest : List Char) (linenum : Int)
    (hc : isdigit c = true) (ht : ∀ x ∈ t, isdigit x = true) (hd2 : ∀ x ∈ d2, isdigit x = true)
    (hne : d2 ++ rest ≠ []) (hdot : (d2 ++ rest).head? ≠ some '.') :
    getNextToken uninit ⟨pre, c :: (t ++ '.' :: (d2 ++ rest)), false, false⟩ linenum =
      (numberLoop (rest.length + 1) ⟨d2.reverse ++ '.' :: (t.reverse ++ c :: pre), rest, false,
        false⟩ (c :: t ++ '.' :: d2) true false linenum).map (fun r => (r.1, r.2, linenum)) := by
  have hf : ('.' :: (d2 ++ rest)).length + 1 = ((rest.length + 1) + d2.length) + 1 := by
    simp only [List.length_cons, List.length_append]; omega
  have hemp : (d2 ++ rest).isEmpty = false := by
    cases h : d2 ++ rest with
    | nil => exact absurd h hne
    | cons x r => rfl
  have hbody := numberBody_dot (t.reverse ++ c :: pre) (d2 ++ rest) (c :: t) false false linenum hdot
  simp only [Bool.false_eq_true, if_false, hemp] at hbody
  rw [getNextToken_digits uninit c t pre ('.' :: (d2 ++ rest)) linenum hc ht, hf,
    numberLoop_next _ _ _ _ _ _ _ _ _ _ _ _ hbody,
    numberLoop_digits d2 (rest.length + 1) _ rest _ true false linenum hd2]
  simp

/-- The numeric loop never takes an `E` or `e` once an exponent was accepted. -/
theorem numberLoop_second_exponent (fuel : Nat) (e : Char) (pre r lexeme : List Char)
    (hasDot : Bool) (linenum : Int) (he : e = 'E' ∨ e = 'e') :
    numberLoop (fuel + 1) ⟨pre, e :: r, false, false⟩ lexeme hasDot true linenum =
      some (numberToken hasDot lexeme linenum, ⟨pre, e :: r, false, false⟩) := by
  have hdot : e ≠ '.' := by rcases he with rfl | rfl <;> decide
  have hdig : isdigit e = false := by rcases he with rfl | rfl <;> decide
  apply numberLoop_leave
  rw [numberBody_stop e _ lexeme hasDot true linenum hdot hdig (Or.inr rfl), putback_good]

/-- The numeric loop entered at an `E` or `e` that is followed by a valid
exponent returns a token whose lexeme holds the letter, the sign if present
and the digits that follow. -/
theorem numberLoop_exponent (e : Char) (pre r lexeme : List Char) (hasDot : Bool)
    (linenum : Int) (he : e = 'E' ∨ e = 'e') (hr : exponentFollows r = true) :
    ∃ (tok : LexItem) (s' : IStream),
      numberLoop ((e :: r).length + 1) ⟨pre, e :: r, false, false⟩ lexeme hasDot false linenum =
        some (tok, s') ∧
      (lexeme ++ e :: exponentText r) <+: tok.lexeme := by
  rcases exponentFollows_true hr with ⟨x, r1, rfl, hx⟩ | ⟨x, y, r1, rfl, hs, hy⟩
  · have h1 : x ≠ '+' := isdigit_ne hx (by decide)
    have h2 : x ≠ '-' := isdigit_ne hx (by decide)
    have htext : exponentText (x :: r1) = (x :: r1).takeWhile isdigit := by
      simp [exponentText, h1, h2]
    have hsplit : (x :: r1).takeWhile isdigit ++ (x :: r1).dropWhile isdigit = x :: r1 :=
      List.takeWhile_append_dropWhile _ _
    have hdigs : ∀ z ∈ (x :: r1).takeWhile isdigit, isdigit z = true :=
      fun z hz => List.mem_takeWhile_imp hz
    rw [htext]
    generalize (x :: r1).takeWhile isdigit = ds at hsplit hdigs ⊢
    generalize (x :: r1).dropWhile isdigit = r2 at hsplit
    obtain ⟨tok, s', mid, hloop, hlex, -⟩ := numberLoop_spec (r2.length + 1)
      ⟨ds.reverse ++ e :: pre, r2, false, false⟩ (lexeme ++ [e] ++ ds) hasDot true linenum
      (by simp)
    refine ⟨tok, s', ?_, ?_⟩
    · have hf : (e :: x :: r1).length = (r2.length + 1) + ds.length := by
        rw [List.length_cons, ← hsplit, List.length_append]
        omega
      rw [numberLoop_next _ _ _ _ _ _ _ _ _ _ _ _
        (numberBody_exp_digit e x pre r1 lexeme hasDot linenum he hx), hf, ← hsplit,
        numberLoop_digits _ _ _ _ _ _ _ _ hdigs]
      exact hloop
    · rw [hlex]
      exact ⟨mid, by simp⟩
  · have htext : exponentText (x :: y :: r1) = x :: (y :: r1).takeWhile isdigit := by
      rcases hs with rfl | rfl <;> simp [exponentText]
    have hsplit : (y :: r1).takeWhile isdigit ++ (y :: r1).dropWhile isdigit = y :: r1 :=
      List.takeWhile_append_dropWhile _ _
    have hdigs : ∀ z ∈ (y :: r1).takeWhile isdigit, isdigit z = true :=
      fun z hz => List.mem_takeWhile_imp hz
    rw [htext]
    generalize (y :: r1).takeWhile isdigit = ds at hsplit hdigs ⊢
    generalize (y :: r1).dropWhile isdigit = r2 at hsplit
    obtain ⟨tok, s', mid, hloop, hlex, -⟩ := numberLoop_spec (r2.length + 2)
      ⟨ds.reverse ++ x :: e :: pre, r2, false, false⟩ (lexeme ++ [e] ++ [x] ++ ds) hasDot true
      linenum (by simp)
    refine ⟨tok, s', ?_, ?_⟩
    · have hf : (e :: x :: y :: r1).length = (r2.length + 2) + ds.length := by
        rw [List.length_cons, List.length_cons, ← hsplit, List.length_append]
        omega
      rw [numberLoop_next _ _ _ _ _ _ _ _ _ _ _ _
        (numberBody_exp_sign e x y pre r1 lexeme hasDot linenum he hs hy), hf, ← hsplit,
        numberLoop_digits _ _ _ _ _ _ _ _ hdigs]
      exact hloop
    · rw [hlex]
      exact ⟨mid, by simp⟩

/-- A call on a good stream that starts with a numeric prefix (digits,
optionally a dot and more digits) followed by a character that is not a dot:
the numeric loop continues after the prefix, the dot flag telling whether the
prefix has a dot. -/
theorem getNextToken_mantissa (uninit c : Char) (t frac pre : List Char) (x : Char)
    (rest : List Char) (linenum : Int)
    (hc : isdigit c = true) (ht : ∀ y ∈ t, isdigit y = true)
    (hfrac : frac = [] ∨ ∃ d2, frac = '.' :: d2 ∧ ∀ y ∈ d2, isdigit y = true)
    (hx : x ≠ '.') :
    getNextToken uninit ⟨pre, c :: t ++ frac ++ x :: rest, false, false⟩ linenum =
      (numberLoop ((x :: rest).length + 1)
        ⟨(c :: t ++ frac).reverse ++ pre, x :: rest, false, false⟩ (c :: t ++ frac)
        (!frac.isEmpty) false linenum).map (fun r => (r.1, r.2, linenum)) := by
  rcases hfrac with rfl | ⟨d2, rfl, hd2⟩
  · have := getNextToken_digits uninit c t pre (x :: rest) linenum hc ht
    simpa using this
  · have hne : d2 ++ x :: rest ≠ [] := by simp
    have hdot : (d2 ++ x :: rest).head? ≠ some '.' := by
      cases d2 with
      | nil => simpa using hx
      | cons y d =>
        have hy : isdigit y = true := hd2 y (List.mem_cons_self _ _)
        simpa using isdigit_ne hy (by decide)
    have := getNextToken_fraction uninit c t d2 pre (x :: rest) linenum hc ht hd2 hne hdot
    simpa using this

/-- The numeric loop entered at an `E` or `e` that is followed by a valid
exponent (an optional sign and the digits `ds`) and then by a character `x`
that is neither a digit nor a dot, in particular a second `E` or `e`: the
letter, the sign and the digits join the lexeme, and the stream is left at
`x`. -/
theorem numberLoop_exponent_exact (e x : Char) (pre sign ds r2 lexeme : List Char)
    (hasDot : Bool) (linenum : Int) (he : e = 'E' ∨ e = 'e')
    (hsign : sign = [] ∨ sign = ['+'] ∨ sign = ['-']) (hne : ds ≠ [])
    (hds : ∀ y ∈ ds, isdigit y = true) (hx : isdigit x = false) (hxd : x ≠ '.') :
    numberLoop ((e :: (sign ++ ds ++ x :: r2)).length + 1)
        ⟨pre, e :: (sign ++ ds ++ x :: r2), false, false⟩ lexeme hasDot false linenum =
      some (numberToken hasDot (lexeme ++ e :: (sign ++ ds)) linenum,
        ⟨(e :: (sign ++ ds)).reverse ++ pre, x :: r2, false, false⟩) := by
  obtain ⟨y, t, rfl⟩ := List.exists_cons_of_ne_nil hne
  have hy : isdigit y = true := hds y (List.mem_cons_self _ _)
  have hstop : ∀ (fuel : Nat) (before lex : List Char),
      numberLoop (fuel + 1) ⟨before, x :: r2, false, false⟩ lex hasDot true linenum =
        some (numberToken hasDot lex linenum, ⟨before, x :: r2, false, false⟩) := by
    intro fuel before lex
    apply numberLoop_leave
    rw [numberBody_stop x _ lex hasDot true linenum hxd hx (Or.inr rfl), putback_good]
  have hsg : sign = [] ∨ ∃ sg, sign = [sg] ∧ (sg = '+' ∨ sg = '-') := by
    rcases hsign with h | h | h
    · exact Or.inl h
    · exact Or.inr ⟨'+', h, Or.inl rfl⟩
    · exact Or.inr ⟨'-', h, Or.inr rfl⟩
  rcases hsg with rfl | ⟨sg, rfl, hs⟩
  · have hf : (e :: ([] ++ (y :: t) ++ x :: r2)).length = (r2.length + 1 + 1) + (y :: t).length := by
      simp only [List.nil_append, List.length_cons, List.length_append]
      omega
    rw [hf]
    simp only [List.nil_append, List.cons_append]
    rw [numberLoop_next _ _ _ _ _ _ _ _ _ _ _ _
      (numberBody_exp_digit e y pre (t ++ x :: r2) lexeme hasDot linenum he hy)]
    have hd := numberLoop_digits (y :: t) (r2.length + 1 + 1) (e :: pre) (x :: r2) (lexeme ++ [e])
      hasDot true linenum hds
    simp only [List.cons_append] at hd
    rw [hd, hstop]
    simp
  · have hf : (e :: ([sg] ++ (y :: t) ++ x :: r2)).length =
        (r2.length + 1 + 1 + 1) + (y :: t).length := by
      simp only [List.singleton_append, List.length_cons, List.length_append]
      omega
    rw [hf]
    simp only [List.singleton_append, List.cons_append, List.nil_append]
    rw [numberLoop_next _ _ _ _ _ _ _ _ _ _ _ _
      (numberBody_exp_sign e sg y pre (t ++ x :: r2) lexeme hasDot linenum he hs hy)]
    have hd := numberLoop_digits (y :: t) (r2.length + 1 + 1 + 1) (sg :: e :: pre) (x :: r2)
      (lexeme ++ [e] ++ [sg]) hasDot true linenum hds
    simp only [List.cons_append] at hd
    rw [hd, hstop]
    simp

/-! ## C5: the exponent rule -/

/-- C5: after a numeric prefix `d1 ++ frac` (digits, optionally a dot and more
digits) and an `E` or `e`: when a digit, or a sign and a digit, follows, the
returned lexeme starts with the prefix, the letter, the sign if present and the
digits that follow; otherwise the letter is put back, the token is the prefix
alone and the stream is left at the letter with all of the rest behind it. A
second `E` or `e` after an accepted exponent is put back: the numeric loop does
so whenever it holds the exponent flag, and a call on the prefix, the letter,
an optional sign `sign`, digits `ds` and then a character `x` that is neither
a digit nor a dot (in particular a second `E` or `e`) returns the token whose
lexeme is exactly the prefix, the letter, the sign and the digits, of kind
`FCONST` or `ICONST` as the prefix has a dot or not, with the stream left at
`x`. The input `3.14E-2` is one `FCONST` with lexeme `3.14E-2`, and `1e5e3` is
`ICONST` with lexeme `1e5` followed by `IDENT` with lexeme `e3`. -/
theorem exponent_rule (uninit e : Char) (d1 frac pre : List Char) (linenum : Int)
    (h1 : d1 ≠ []) (hd1 : ∀ y ∈ d1, isdigit y = true)
    (hfrac : frac = [] ∨ ∃ d2, frac = '.' :: d2 ∧ ∀ y ∈ d2, isdigit y = true)
    (he : e = 'E' ∨ e = 'e') :
    (∀ r : List Char, exponentFollows r = true →
      ∃ (tok : LexItem) (s' : IStream),
        getNextToken uninit ⟨pre, d1 ++ frac ++ e :: r, false, false⟩ linenum =
          some (tok, s', linenum) ∧
        (d1 ++ frac ++ e :: exponentText r) <+: tok.lexeme) ∧
    (∀ r : List Char, exponentFollows r = false →
      getNextToken uninit ⟨pre, d1 ++ frac ++ e :: r, false, false⟩ linenum =
        some (⟨if frac = [] then Token.ICONST else Token.FCONST, d1 ++ frac, linenum⟩,
          ⟨(d1 ++ frac).reverse ++ pre, e :: r, false, false⟩, linenum)) ∧
    (∀ (fuel : Nat) (before r lexeme : List Char) (hasDot : Bool),
      numberLoop (fuel + 1) ⟨before, e :: r, false, false⟩ lexeme hasDot true linenum =
        some (numberToken hasDot lexeme linenum, ⟨before, e :: r, false, false⟩)) ∧
    (∀ (sign ds r2 : List Char) (x : Char), (sign = [] ∨ sign = ['+'] ∨ sign = ['-']) →
      ds ≠ [] → (∀ y ∈ ds, isdigit y = true) → isdigit x = false → x ≠ '.' →
      getNextToken uninit ⟨pre, d1 ++ frac ++ e :: (sign ++ ds ++ x :: r2), false, false⟩ linenum =
        some (⟨if frac = [] then Token.ICONST else Token.FCONST,
            d1 ++ frac ++ e :: (sign ++ ds), linenum⟩,
          ⟨(d1 ++ frac ++ e :: (sign ++ ds)).reverse ++ pre, x :: r2, false, false⟩, linenum)) ∧
    (∀ (sign ds r2 : List Char) (e2 : Char), (sign = [] ∨ sign = ['+'] ∨ sign = ['-']) →
      ds ≠ [] → (∀ y ∈ ds, isdigit y = true) → (e2 = 'E' ∨ e2 = 'e') →
      getNextToken uninit ⟨pre, d1 ++ frac ++ e :: (sign ++ ds ++ e2 :: r2), false, false⟩
          linenum =
        some (⟨if frac = [] then Token.ICONST else Token.FCONST,
            d1 ++ frac ++ e :: (sign ++ ds), linenum⟩,
          ⟨(d1 ++ frac ++ e :: (sign ++ ds)).reverse ++ pre, e2 :: r2, false, false⟩, linenum)) ∧
    getNextToken uninit (IStream.ofList "3.14E-2".data) 1 =
      some (⟨Token.FCONST, "3.14E-2".data, 1⟩, ⟨"3.14E-2".data.reverse, [], true, true⟩, 1) ∧
    getNextToken uninit (IStream.ofList "1e5e3".data) 1 =
      some (⟨Token.ICONST, "1e5".data, 1⟩, ⟨"5e1".data, "e3".data, false, false⟩, 1) ∧
    getNextToken uninit ⟨"5e1".data, "e3".data, false, false⟩ 1 =
      some (⟨Token.IDENT, "e3".data, 1⟩, ⟨"3e5e1".data, [], false, true⟩, 1) := by
  obtain ⟨c, t, rfl⟩ := List.exists_cons_of_ne_nil h1
  have hc := hd1 c (List.mem_cons_self _ _)
  have ht : ∀ y ∈ t, isdigit y = true := fun y hy => hd1 y (List.mem_cons_of_mem _ hy)
  have hedot : e ≠ '.' := by rcases he with rfl | rfl <;> decide
  have hexact : ∀ (sign ds r2 : List Char) (x : Char), (sign = [] ∨ sign = ['+'] ∨ sign = ['-']) →
      ds ≠ [] → (∀ y ∈ ds, isdigit y = true) → isdigit x = false → x ≠ '.' →
      getNextToken uninit ⟨pre, c :: t ++ frac ++ e :: (sign ++ ds ++ x :: r2), false, false⟩
          linenum =
        some (⟨if frac = [] then Token.ICONST else Token.FCONST,
            c :: t ++ frac ++ e :: (sign ++ ds), linenum⟩,
          ⟨(c :: t ++ frac ++ e :: (sign ++ ds)).reverse ++ pre, x :: r2, false, false⟩,
          linenum) := by
    intro sign ds r2 x hsign hne hds hx hxd
    rw [getNextToken_mantissa uninit c t frac pre e (sign ++ ds ++ x :: r2) linenum hc ht hfrac
        hedot,
      numberLoop_exponent_exact e x _ sign ds r2 (c :: t ++ frac) (!frac.isEmpty) linenum he hsign
        hne hds hx hxd]
    rcases hfrac with rfl | ⟨d2, rfl, -⟩ <;> simp [numberToken]
  refine ⟨?_, ?_, ?_, hexact, ?_, rfl, rfl, rfl⟩
  · intro r hr
    obtain ⟨tok, s', hloop, hpre⟩ := numberLoop_exponent e ((c :: t ++ frac).reverse ++ pre) r
      (c :: t ++ frac) (!frac.isEmpty) linenum he hr
    refine ⟨tok, s', ?_, hpre⟩
    rw [getNextToken_mantissa uninit c t frac pre e r linenum hc ht hfrac hedot, hloop]
    rfl
  · intro r hr
    rw [getNextToken_mantissa uninit c t frac pre e r linenum hc ht hfrac hedot,
      List.length_cons,
      numberLoop_leave _ _ _ _ _ _ _ _ _
        (numberBody_exp_invalid e _ r (c :: t ++ frac) (!frac.isEmpty) linenum he hr)]
    rcases hfrac with rfl | ⟨d2, rfl, -⟩ <;> simp [numberToken]
  · intro fuel before r lexeme hasDot
    exact numberLoop_second_exponent fuel e before r lexeme hasDot linenum he
  · intro sign ds r2 e2 hsign hne hds he2
    exact hexact sign ds r2 e2 hsign hne hds (by rcases he2 with rfl | rfl <;> decide)
      (by rcases he2 with rfl | rfl <;> decide)

theorem exponent_rule_witness :
    ("3".data ≠ [] ∧ (∀ y ∈ "3".data, isdigit y = true) ∧
      (".14".data = [] ∨ ∃ d2, ".14".data = '.' :: d2 ∧ ∀ y ∈ d2, isdigit y = true) ∧
      ('E' = 'E' ∨ 'E' = 'e')) ∧
    ((∀ r : List Char, exponentFollows r = true →
      ∃ (tok : LexItem) (s' : IStream),
        getNextToken 'x' ⟨[], "3".data ++ ".14".data ++ 'E' :: r, false, false⟩ 1 =
          some (tok, s', 1) ∧
        ("3".data ++ ".14".data ++ 'E' :: exponentText r) <+: tok.lexeme) ∧
    (∀ r : List Char, exponentFollows r = false →
      getNextToken 'x' ⟨[], "3".data ++ ".14".data ++ 'E' :: r, false, false⟩ 1 =
        some (⟨if ".14".data = [] then Token.ICONST else Token.FCONST, "3".data ++ ".14".data, 1⟩,
          ⟨("3".data ++ ".14".data).reverse ++ [], 'E' :: r, false, false⟩, 1)) ∧
    (∀ (fuel : Nat) (before r lexeme : List Char) (hasDot : Bool),
      numberLoop (fuel + 1) ⟨before, 'E' :: r, false, false⟩ lexeme hasDot true 1 =
        some (numberToken hasDot lexeme 1, ⟨before, 'E' :: r, false, false⟩)) ∧
    (∀ (sign ds r2 : List Char) (x : Char), (sign = [] ∨ sign = ['+'] ∨ sign = ['-']) →
      ds ≠ [] → (∀ y ∈ ds, isdigit y = true) → isdigit x = false → x ≠ '.' →
      getNextToken 'x' ⟨[], "3".data ++ ".14".data ++ 'E' :: (sign ++ ds ++ x :: r2), false, false⟩
          1 =
        some (⟨if ".14".data = [] then Token.ICONST else Token.FCONST,
            "3".data ++ ".14".data ++ 'E' :: (sign ++ ds), 1⟩,
          ⟨("3".data ++ ".14".data ++ 'E' :: (sign ++ ds)).reverse ++ [], x :: r2, false, false⟩,
          1)) ∧
    (∀ (sign ds r2 : List Char) (e2 : Char), (sign = [] ∨ sign = ['+'] ∨ sign = ['-']) →
      ds ≠ [] → (∀ y ∈ ds, isdigit y = true) → (e2 = 'E' ∨ e2 = 'e') →
      getNextToken 'x' ⟨[], "3".data ++ ".14".data ++ 'E' :: (sign ++ ds ++ e2 :: r2), false, false⟩
          1 =
        some (⟨if ".14".data = [] then Token.ICONST else Token.FCONST,
            "3".data ++ ".14".data ++ 'E' :: (sign ++ ds), 1⟩,
          ⟨("3".data ++ ".14".data ++ 'E' :: (sign ++ ds)).reverse ++ [], e2 :: r2, false, false⟩,
          1)) ∧
    getNextToken 'x' (IStream.ofList "3.14E-2".data) 1 =
      some (⟨Token.FCONST, "3.14E-2".data, 1⟩, ⟨"3.14E-2".data.reverse, [], true, true⟩, 1) ∧
    getNextToken 'x' (IStream.ofList "1e5e3".data) 1 =
      some (⟨Token.ICONST, "1e5".data, 1⟩, ⟨"5e1".data, "e3".data, false, false⟩, 1) ∧
    getNextToken 'x' ⟨"5e1".data, "e3".data, false, false⟩ 1 =
      some (⟨Token.IDENT, "e3".data, 1⟩, ⟨"3e5e1".data, [], false, true⟩, 1)) :=
  ⟨⟨by decide, by decide, Or.inr ⟨"14".data, rfl, by decide⟩, Or.inl rfl⟩,
    exponent_rule 'x' 'E' "3".data ".14".data [] 1 (by decide) (by decide)
      (Or.inr ⟨"14".data, rfl, by decide⟩) (Or.inl rfl)⟩

/-! ## C6: numeric classification and exact lexeme -/

/-- C6: on a good stream that starts with a decimal digit `getNextToken`
returns a token, and when the token is not `ERR` its kind is `FCONST` or
`ICONST`, it is `FCONST` exactly when the lexeme contains a dot, the lexeme has
at most one dot, and the lexeme followed by the remaining stream is the input. -/
theorem number_classification (uninit c : Char) (pre rest : List Char) (linenum : Int)
    (hc : isdigit c = true) :
    ∃ (tok : LexItem) (s' : IStream),
      getNextToken uninit ⟨pre, c :: rest, false, false⟩ linenum = some (tok, s', linenum) ∧
      (tok.token ≠ Token.ERR →
        (tok.token = Token.FCONST ∨ tok.token = Token.ICONST) ∧
        (tok.token = Token.FCONST ↔ '.' ∈ tok.lexeme) ∧
        tok.lexeme.count '.' ≤ 1 ∧
        tok.lexeme ++ s'.post = c :: rest) := by
  obtain ⟨tok, s', mid, hloop, hlex, -, hpost, -, hkind⟩ :=
    numberLoop_spec (rest.length + 1) ⟨c :: pre, rest, false, false⟩ [c] false false linenum
      (by simp)
  have hcdot : c ≠ '.' := isdigit_ne hc (by decide)
  have hcount : tok.lexeme.count '.' = mid.count '.' := by
    rw [hlex, List.count_append, count_dot_nil hcdot]; omega
  have hmem : '.' ∈ tok.lexeme ↔ 0 < mid.count '.' := by
    rw [← hcount, List.count_pos_iff]
  refine ⟨tok, s', ?_, ?_⟩
  · rw [getNextToken_digit uninit c pre rest linenum hc, hloop]
    rfl
  · intro hne
    simp only [Bool.toNat_false, Nat.add_zero] at hkind
    have hexact : tok.lexeme ++ s'.post = c :: rest := by
      rw [hlex]
      simp only at hpost
      simp [hpost]
    rcases hkind with ⟨hk, h0⟩ | ⟨hk, h1⟩ | ⟨hk, -⟩
    · refine ⟨Or.inr hk, ?_, by omega, hexact⟩
      rw [hmem, hk]
      constructor
      · intro h; cases h
      · intro h; omega
    · refine ⟨Or.inl hk, ?_, by omega, hexact⟩
      rw [hmem]
      constructor
      · intro _; omega
      · intro _; exact hk
    · exact absurd hk hne

theorem number_classification_witness :
    isdigit '1' = true ∧
    ∃ (tok : LexItem) (s' : IStream),
      getNextToken 'x' ⟨[], '1' :: ".5e+ 2".data, false, false⟩ 1 = some (tok, s', 1) ∧
      (tok.token ≠ Token.ERR →
        (tok.token = Token.FCONST ∨ tok.token = Token.ICONST) ∧
        (tok.token = Token.FCONST ↔ '.' ∈ tok.lexeme) ∧
        tok.lexeme.count '.' ≤ 1 ∧
        tok.lexeme ++ s'.post = '1' :: ".5e+ 2".data) :=
  ⟨by decide, number_classification 'x' '1' [] ".5e+ 2".data 1 (by decide)⟩

/-! ## C7: a second decimal point -/

/-- C7: for non-empty digit strings `a` and `b` and a rest `r` that does not
start with a dot, `getNextToken` on `a.b.r` returns `ERR` with lexeme `a.b.`
and leaves the stream, not failed, at exactly `r`; scanning `1.2.3` yields
`ERR "1.2."`, then `ICONST "3"`, then `DONE`, all on line 1. -/
theorem second_dot_error (uninit : Char) (a b pre r : List Char) (linenum : Int)
    (ha : a ≠ []) (hb : b ≠ [])
    (hda : ∀ y ∈ a, isdigit y = true) (hdb : ∀ y ∈ b, isdigit y = true)
    (hr : r.head? ≠ some '.') :
    (∃ s' : IStream,
      getNextToken uninit ⟨pre, a ++ '.' :: (b ++ '.' :: r), false, false⟩ linenum =
        some (⟨Token.ERR, a ++ '.' :: (b ++ ['.']), linenum⟩, s', linenum) ∧
      s'.post = r ∧ s'.pre = (a ++ '.' :: (b ++ ['.'])).reverse ++ pre ∧ s'.fail = false) ∧
    (∃ s1 s2 s3 : IStream,
      getNextToken uninit (IStream.ofList "1.2.3".data) 1 =
        some (⟨Token.ERR, "1.2.".data, 1⟩, s1, 1) ∧
      getNextToken uninit s1 1 = some (⟨Token.ICONST, "3".data, 1⟩, s2, 1) ∧
      getNextToken uninit s2 1 = some (⟨Token.DONE, [], 1⟩, s3, 1)) := by
  constructor
  · obtain ⟨c, t, rfl⟩ := List.exists_cons_of_ne_nil ha
    have hc := hda c (List.mem_cons_self _ _)
    have ht : ∀ y ∈ t, isdigit y = true := fun y hy => hda y (List.mem_cons_of_mem _ hy)
    have hne : b ++ '.' :: r ≠ [] := by simp
    have hdot : (b ++ '.' :: r).head? ≠ some '.' := by
      obtain ⟨y, d, rfl⟩ := List.exists_cons_of_ne_nil hb
      have hy : isdigit y = true := hdb y (List.mem_cons_self _ _)
      simpa using isdigit_ne hy (by decide)
    have hbody := numberBody_dot (b.reverse ++ '.' :: (t.reverse ++ c :: pre)) r
      (c :: t ++ '.' :: b) true false linenum hr
    simp only [if_true] at hbody
    refine ⟨⟨'.' :: (b.reverse ++ '.' :: (t.reverse ++ c :: pre)), r, r.isEmpty, false⟩,
      ?_, rfl, by simp, rfl⟩
    rw [List.cons_append,
      getNextToken_fraction uninit c t b pre ('.' :: r) linenum hc ht hdb hne hdot,
      List.length_cons, numberLoop_leave _ _ _ _ _ _ _ _ _ hbody]
    simp
  · exact ⟨_, _, _, rfl, rfl, rfl⟩

theorem second_dot_error_witness :
    ("1".data ≠ [] ∧ "2".data ≠ [] ∧ (∀ y ∈ "1".data, isdigit y = true) ∧
      (∀ y ∈ "2".data, isdigit y = true) ∧ "3".data.head? ≠ some '.') ∧
    (∃ s' : IStream,
      getNextToken 'x' ⟨[], "1".data ++ '.' :: ("2".data ++ '.' :: "3".data), false, false⟩ 1 =
        some (⟨Token.ERR, "1".data ++ '.' :: ("2".data ++ ['.']), 1⟩, s', 1) ∧
      s'.post = "3".data ∧ s'.pre = ("1".data ++ '.' :: ("2".data ++ ['.'])).reverse ++ [] ∧
      s'.fail = false) ∧
    (∃ s1 s2 s3 : IStream,
      getNextToken 'x' (IStream.ofList "1.2.3".data) 1 =
        some (⟨Token.ERR, "1.2.".data, 1⟩, s1, 1) ∧
      getNextToken 'x' s1 1 = some (⟨Token.ICONST, "3".data, 1⟩, s2, 1) ∧
      getNextToken 'x' s2 1 = some (⟨Token.DONE, [], 1⟩, s3, 1)) :=
  ⟨by decide, second_dot_error 'x' "1".data "2".data [] "3".data 1 (by decide) (by decide)
    (by decide) (by decide) (by decide)⟩

/-! ## The string path -/

/-- The string loop runs through text without a double quote or newline,
appending it to the lexeme. -/
theorem stringLoop_run (t : List Char) :
    ∀ (fuel : Nat) (pre rest lexeme : List Char) (linenum : Int),
      (∀ x ∈ t, x ≠ '"' ∧ x ≠ '\n') →
      stringLoop (fuel + t.length) ⟨pre, t ++ rest, false, false⟩ lexeme linenum =
        stringLoop fuel ⟨t.reverse ++ pre, rest, false, false⟩ (lexeme ++ t) linenum := by
  induction t with
  | nil => intro fuel pre rest lexeme linenum _; simp
  | cons x t ih =>
    intro fuel pre rest lexeme linenum hall
    obtain ⟨hq, hn⟩ := hall x (List.mem_cons_self _ _)
    show stringLoop (fuel + t.length + 1) ⟨pre, x :: (t ++ rest), false, false⟩ lexeme linenum = _
    rw [stringLoop]
    simp only [get_good_cons]
    simp only [beq_iff_eq, hq, hn, if_false]
    rw [ih fuel (x :: pre) rest (lexeme ++ [x]) linenum
      (fun y hy => hall y (List.mem_cons_of_mem _ hy))]
    simp

/-- A call on a good stream that starts with a double quote enters the string
loop with an empty lexeme. -/
theorem getNextToken_quote (uninit : Char) (pre rest : List Char) (linenum : Int) :
    getNextToken uninit ⟨pre, '"' :: rest, false, false⟩ linenum =
      (stringLoop (rest.length + 1) ⟨'"' :: pre, rest, false, false⟩ [] linenum).map
        (fun r => (r.1, r.2, linenum)) := by
  rw [getNextToken_start uninit '"' pre rest linenum (by decide) (by decide)]
  simp [scanToken, isalpha, isdigit]

/-! ## C8: string literals -/

/-- C8: for a text `s` without double quote or newline, `getNextToken` on
`"s"` followed by `r` returns `SCONST` with lexeme exactly `s` and leaves the
stream at `r`; on `"s` followed by a newline, and on `"s` at the end of the
input, it returns `ERR` whose lexeme is ` Invalid string constant "` followed
by `s`. -/
theorem string_literal (uninit : Char) (s pre r : List Char) (linenum : Int)
    (hs : ∀ x ∈ s, x ≠ '"' ∧ x ≠ '\n') :
    getNextToken uninit ⟨pre, '"' :: (s ++ '"' :: r), false, false⟩ linenum =
      some (⟨Token.SCONST, s, linenum⟩, ⟨'"' :: (s.reverse ++ '"' :: pre), r, false, false⟩,
        linenum) ∧
    getNextToken uninit ⟨pre, '"' :: (s ++ '\n' :: r), false, false⟩ linenum =
      some (⟨Token.ERR, " Invalid string constant \"".data ++ s, linenum⟩,
        ⟨'\n' :: (s.reverse ++ '"' :: pre), r, false, false⟩, linenum) ∧
    getNextToken uninit ⟨pre, '"' :: s, false, false⟩ linenum =
      some (⟨Token.ERR, " Invalid string constant \"".data ++ s, linenum⟩,
        ⟨s.reverse ++ '"' :: pre, [], true, true⟩, linenum) := by
  refine ⟨?_, ?_, ?_⟩
  · have hf : (s ++ '"' :: r).length + 1 = (r.length + 2) + s.length := by
      simp only [List.length_append, List.length_cons]; omega
    rw [getNextToken_quote, hf, stringLoop_run s _ _ _ _ _ hs, stringLoop]
    simp [get_good_cons]
  · have hf : (s ++ '\n' :: r).length + 1 = (r.length + 2) + s.length := by
      simp only [List.length_append, List.length_cons]; omega
    rw [getNextToken_quote, hf, stringLoop_run s _ _ _ _ _ hs, stringLoop]
    simp [get_good_cons, invalidString]
  · have hf : s.length + 1 = 1 + s.length := by omega
    have := stringLoop_run s 1 ('"' :: pre) [] [] linenum hs
    rw [List.append_nil] at this
    rw [getNextToken_quote, hf, this, stringLoop]
    simp [get_good_nil, invalidString]

theorem string_literal_witness :
    (∀ x ∈ "hello".data, x ≠ '"' ∧ x ≠ '\n') ∧
    (getNextToken 'x' ⟨[], '"' :: ("hello".data ++ '"' :: " + 1".data), false, false⟩ 1 =
      some (⟨Token.SCONST, "hello".data, 1⟩,
        ⟨'"' :: ("hello".data.reverse ++ '"' :: []), " + 1".data, false, false⟩, 1) ∧
    getNextToken 'x' ⟨[], '"' :: ("hello".data ++ '\n' :: " + 1".data), false, false⟩ 1 =
      some (⟨Token.ERR, " Invalid string constant \"".data ++ "hello".data, 1⟩,
        ⟨'\n' :: ("hello".data.reverse ++ '"' :: []), " + 1".data, false, false⟩, 1) ∧
    getNextToken 'x' ⟨[], '"' :: "hello".data, false, false⟩ 1 =
      some (⟨Token.ERR, " Invalid string constant \"".data ++ "hello".data, 1⟩,
        ⟨"hello".data.reverse ++ '"' :: [], [], true, true⟩, 1)) :=
  ⟨by decide, string_literal 'x' "hello".data [] " + 1".data 1 (by decide)⟩

/-! ## The character path -/

/-- The character loop runs through content without a single quote or newline
and stops at a closing character `q` (a single quote or a newline), which it
consumes; the content is appended to `errorContent` once it is non-empty. -/
theorem charLoop_run (cs : List Char) :
    ∀ (fuel : Nat) (pre r : List Char) (q nextCh : Char) (errorContent : List Char),
      (∀ x ∈ cs, x ≠ '\'' ∧ x ≠ '\n') → (q = '\'' ∨ q = '\n') → errorContent ≠ [] →
      charLoop (fuel + cs.length + 1) ⟨pre, cs ++ q :: r, false, false⟩ nextCh errorContent =
        some (⟨q :: (cs.reverse ++ pre), r, false, false⟩, q, errorContent ++ cs) := by
  induction cs with
  | nil =>
    intro fuel pre r q nextCh errorContent _ hq _
    rw [List.length_nil, Nat.add_zero, List.nil_append, charLoop]
    simp only [get_good_cons]
    rcases hq with rfl | rfl <;> simp
  | cons x cs ih =>
    intro fuel pre r q nextCh errorContent hall hq hne
    obtain ⟨hx1, hx2⟩ := hall x (List.mem_cons_self _ _)
    have hlen : ¬ (errorContent ++ [x]).length < 2 := by
      cases errorContent with
      | nil => exact absurd rfl hne
      | cons a l => simp
    show charLoop (fuel + cs.length + 1 + 1) ⟨pre, x :: (cs ++ q :: r), false, false⟩ nextCh
      errorContent = _
    rw [charLoop]
    simp only [get_good_cons]
    have hcond : (x != '\'' && x != '\n') = true := by simp [hx1, hx2]
    simp only [hcond, if_true, hlen, if_false]
    rw [ih fuel (x :: pre) r q x (errorContent ++ [x])
      (fun y hy => hall y (List.mem_cons_of_mem _ hy)) hq (by simp)]
    simp

/-- A call on a good stream that starts with a single quote enters the
character-literal path. -/
theorem getNextToken_apostrophe (uninit : Char) (pre rest : List Char) (linenum : Int) :
    getNextToken uninit ⟨pre, '\'' :: rest, false, false⟩ linenum =
      (scanChar uninit ⟨'\'' :: pre, rest, false, false⟩ linenum).map
        (fun r => (r.1, r.2, linenum)) := by
  rw [getNextToken_start uninit '\'' pre rest linenum (by decide) (by decide)]
  simp [scanToken, isalpha, isdigit]

/-- The character-literal path after a first content character `c` and more
content `cs`, closed by `q` (a single quote or a newline): the state in which
the loop is left. -/
theorem scanChar_content (uninit c q : Char) (cs pre r : List Char) (linenum : Int)
    (hc : c ≠ '\'' ∧ c ≠ '\n') (hcs : ∀ x ∈ cs, x ≠ '\'' ∧ x ≠ '\n')
    (hq : q = '\'' ∨ q = '\n') :
    scanChar uninit ⟨pre, c :: (cs ++ q :: r), false, false⟩ linenum =
      if q == '\'' && (c :: cs).length == 1 then
        some (⟨Token.CCONST, [c], linenum⟩, ⟨q :: (cs.reverse ++ c :: pre), r, false, false⟩)
      else if q == '\n' then
        some (⟨Token.ERR, "Unterminated character constant.".data, linenum⟩,
          ⟨q :: (cs.reverse ++ c :: pre), r, false, false⟩)
      else
        some (⟨Token.ERR, " Invalid character constant '".data ++
          (if (c :: cs).length > 2 then (c :: cs).take 2 else c :: cs) ++ "'".data, linenum⟩,
          ⟨q :: (cs.reverse ++ c :: pre), r, false, false⟩) := by
  have hf : (cs ++ q :: r).length + 1 = (r.length + 1) + cs.length + 1 := by
    simp only [List.length_append, List.length_cons]; omega
  have hloop := charLoop_run cs (r.length + 1) (c :: pre) r q uninit [c] hcs hq (by simp)
  rw [scanChar]
  simp only [get_good_cons]
  simp only [beq_iff_eq, hc.1, hc.2, if_false]
  rw [hf, hloop]
  simp

/-! ## C9: character literals closed by a quote -/

/-- C9: on a good stream that starts with a single quote: `''` gives `ERR`
"Empty character constant."; `'c'` for a character `c` other than a single
quote and newline gives `CCONST` with lexeme `c`; content `c1 c2 cs` of two or
more characters (none a single quote or newline) followed by a closing quote
gives `ERR` with lexeme ` Invalid character constant 'c1c2'`, and the whole
literal with its closing quote is consumed. -/
theorem char_literal_closed (uninit c c1 c2 : Char) (cs pre r : List Char) (linenum : Int)
    (hc : c ≠ '\'' ∧ c ≠ '\n') (hc1 : c1 ≠ '\'' ∧ c1 ≠ '\n') (hc2 : c2 ≠ '\'' ∧ c2 ≠ '\n')
    (hcs : ∀ x ∈ cs, x ≠ '\'' ∧ x ≠ '\n') :
    getNextToken uninit ⟨pre, '\'' :: '\'' :: r, false, false⟩ linenum =
      some (⟨Token.ERR, "Empty character constant.".data, linenum⟩,
        ⟨'\'' :: '\'' :: pre, r, false, false⟩, linenum) ∧
    getNextToken uninit ⟨pre, '\'' :: c :: '\'' :: r, false, false⟩ linenum =
      some (⟨Token.CCONST, [c], linenum⟩, ⟨'\'' :: c :: '\'' :: pre, r, false, false⟩,
        linenum) ∧
    getNextToken uninit ⟨pre, '\'' :: c1 :: c2 :: (cs ++ '\'' :: r), false, false⟩ linenum =
      some (⟨Token.ERR, " Invalid character constant '".data ++ [c1, c2] ++ "'".data, linenum⟩,
        ⟨'\'' :: (cs.reverse ++ c2 :: c1 :: '\'' :: pre), r, false, false⟩, linenum) := by
  refine ⟨?_, ?_, ?_⟩
  · rw [getNextToken_apostrophe, scanChar]
    simp [get_good_cons]
  · have := scanChar_content uninit c '\'' [] ('\'' :: pre) r linenum hc (by simp) (Or.inl rfl)
    rw [getNextToken_apostrophe]
    rw [List.nil_append] at this
    rw [this]
    simp
  · have hall : ∀ x ∈ c2 :: cs, x ≠ '\'' ∧ x ≠ '\n' := by
      intro x hx
      rcases List.mem_cons.mp hx with rfl | h
      · exact hc2
      · exact hcs x h
    have := scanChar_content uninit c1 '\'' (c2 :: cs) ('\'' :: pre) r linenum hc1 hall
      (Or.inl rfl)
    rw [getNextToken_apostrophe]
    rw [List.cons_append] at this
    rw [this]
    cases cs <;> simp

theorem char_literal_closed_witness :
    (('z' ≠ '\'' ∧ 'z' ≠ '\n') ∧ ('a' ≠ '\'' ∧ 'a' ≠ '\n') ∧ ('b' ≠ '\'' ∧ 'b' ≠ '\n') ∧
      (∀ x ∈ ([] : List Char), x ≠ '\'' ∧ x ≠ '\n')) ∧
    (getNextToken 'x' ⟨[], '\'' :: '\'' :: [], false, false⟩ 1 =
      some (⟨Token.ERR, "Empty character constant.".data, 1⟩,
        ⟨'\'' :: '\'' :: [], [], false, false⟩, 1) ∧
    getNextToken 'x' ⟨[], '\'' :: 'z' :: '\'' :: [], false, false⟩ 1 =
      some (⟨Token.CCONST, ['z'], 1⟩, ⟨'\'' :: 'z' :: '\'' :: [], [], false, false⟩, 1) ∧
    getNextToken 'x' ⟨[], '\'' :: 'a' :: 'b' :: ([] ++ '\'' :: []), false, false⟩ 1 =
      some (⟨Token.ERR, " Invalid character constant '".data ++ ['a', 'b'] ++ "'".data, 1⟩,
        ⟨'\'' :: (([] : List Char).reverse ++ 'b' :: 'a' :: '\'' :: []), [], false, false⟩, 1)) :=
  ⟨by decide, char_literal_closed 'x' 'z' 'a' 'b' [] [] [] 1 (by decide) (by decide) (by decide)
    (by decide)⟩

/-! ## C10: character literals that are not closed -/

/-- C10 (the code at the failing input): on the input `'ab` that ends before
any closing quote, `getNextToken` returns `ERR` with the lexeme
` Invalid character constant 'ab'`, not "Unterminated character constant.",
whatever the indeterminate initial value of `nextCh` is. -/
theorem char_literal_unclosed_at_end (uninit : Char) :
    getNextToken uninit (IStream.ofList ['\'', 'a', 'b']) 1 =
      some (⟨Token.ERR, " Invalid character constant 'ab'".data, 1⟩,
        ⟨['b', 'a', '\''], [], true, true⟩, 1) := by
  rfl

/-! ## The line counter -/

/-- Below the largest `int`, `linenum++` adds one. -/
theorem incrLine_of_lt {n : Int} (hlo : -2147483648 ≤ n) (hhi : n < 2147483647) :
    incrLine n = n + 1 := by
  unfold incrLine wrapInt
  omega

/-- As long as the largest `int` is not passed, `k` increments add `k`. -/
theorem iterate_incrLine_of_le (k : Nat) :
    ∀ n : Int, -2147483648 ≤ n → n + k ≤ 2147483647 → Nat.iterate incrLine k n = n + k := by
  induction k with
  | zero => intro n _ _; simp
  | succ k ih =>
    intro n hlo hhi
    push_cast at hhi
    rw [Function.iterate_succ_apply, incrLine_of_lt hlo (by omega), ih (n + 1) (by omega) (by omega)]
    push_cast
    omega

/-- One or more increments of the counter, as one wrapped sum. -/
theorem iterate_incrLine_wrap (k : Nat) :
    ∀ n : Int, Nat.iterate incrLine (k + 1) n = wrapInt (n + (k + 1 : Nat)) := by
  induction k with
  | zero => intro n; simp [incrLine]
  | succ k ih =>
    intro n
    rw [Function.iterate_succ_apply, ih (incrLine n)]
    unfold incrLine wrapInt
    push_cast
    omega

/-! ## The outer loop -/

/-- One turn of the outer loop on a good stream with a character to read: a
`--` comment is ignored up to its newline and counted as one line, a newline
is counted, other white space is skipped, and anything else starts a token
(the lookahead for `--` has set `eofbit` when a lone `-` ends the input). -/
theorem getNextTokenLoop_step (uninit : Char) (fuel : Nat) (pre rest : List Char) (ch : Char)
    (linenum : Int) :
    getNextTokenLoop uninit (fuel + 1) ⟨pre, ch :: rest, false, false⟩ linenum =
      if ch = '-' ∧ rest.head? = some '-' then
        getNextTokenLoop uninit fuel
          (IStream.ignore ⟨'-' :: ch :: pre, rest.tail, false, false⟩ '\n') (incrLine linenum)
      else if ch = '\n' then
        getNextTokenLoop uninit fuel ⟨ch :: pre, rest, false, false⟩ (incrLine linenum)
      else if isspace ch = true then
        getNextTokenLoop uninit fuel ⟨ch :: pre, rest, false, false⟩ linenum
      else
        (scanToken uninit ch ⟨ch :: pre, rest, ch == '-' && rest.isEmpty, false⟩ linenum).map
          (fun r => (r.1, r.2, linenum)) := by
  rw [getNextTokenLoop]
  simp only [get_good_cons]
  by_cases hm : ch = '-'
  · subst hm
    have hn : ('-' : Char) ≠ '\n' := by decide
    have hs : isspace '-' = false := by decide
    cases rest with
    | nil =>
      simp only [beq_self_eq_true, if_true, peek_good, List.head?_nil, List.isEmpty_nil,
        Bool.and_true]
      simp only [hn, hs, beq_iff_eq, Bool.and_false, Bool.false_eq_true, if_false, and_false,
        reduceCtorEq]
      cases scanToken uninit '-' ⟨'-' :: pre, [], true, false⟩ linenum <;> rfl
    | cons x r =>
      simp only [beq_self_eq_true, if_true, peek_good, List.head?_cons, List.isEmpty_cons,
        Bool.and_false, List.tail_cons, Bool.true_and, true_and]
      by_cases hx : x = '-'
      · subst hx
        simp [get_good_cons]
      · have hx' : (some x == some '-') = false := by simpa using hx
        simp only [hx', Option.some.injEq, hx, hn, hs, beq_iff_eq, Bool.false_eq_true, if_false]
        cases scanToken uninit '-' ⟨'-' :: pre, x :: r, false, false⟩ linenum <;> rfl
  · have hb : (ch == '-') = false := by simpa using hm
    simp only [hb, Bool.false_and, Bool.false_eq_true, if_false, hm, false_and, beq_iff_eq]
    by_cases hn : ch = '\n'
    · simp [hn]
    · simp only [hn, if_false]
      by_cases hs : isspace ch = true
      · simp [hs]
      · simp only [hs, if_false]
        cases scanToken uninit ch ⟨ch :: pre, rest, false, false⟩ linenum <;> rfl

theorem dropThrough_length (delim : Char) (post : List Char) :
    ∀ pre : List Char, (IStream.dropThrough delim pre post).2.1.length ≤ post.length := by
  induction post with
  | nil => intro pre; simp [IStream.dropThrough]
  | cons c rest ih =>
    intro pre
    rw [IStream.dropThrough]
    split
    · simp
    · exact Nat.le_succ_of_le (ih (c :: pre))

/-- The stream after `in.ignore` has no more characters left than before. -/
theorem ignore_length (s : IStream) (delim : Char) :
    (s.ignore delim).post.length ≤ s.post.length := by
  unfold IStream.ignore
  split
  · exact dropThrough_length delim s.post s.pre
  · exact Nat.le_refl _

/-- One more unit of fuel changes nothing once the fuel exceeds the number of
characters left in the stream. -/
theorem getNextTokenLoop_fuel_succ (uninit : Char) (fuel : Nat) :
    ∀ (s : IStream) (linenum : Int), s.post.length < fuel →
      getNextTokenLoop uninit (fuel + 1) s linenum = getNextTokenLoop uninit fuel s linenum := by
  induction fuel with
  | zero => intro s linenum h; omega
  | succ n ih =>
    intro s linenum hlen
    rcases get_cases s with ⟨s1, hget, -, -, -⟩ | ⟨ch, rest, hs, -⟩
    · rw [getNextTokenLoop, getNextTokenLoop]
      simp only [hget]
    · rw [hs]
      have hpost : s.post = ch :: rest := by rw [hs]
      rw [hpost, List.length_cons] at hlen
      rw [getNextTokenLoop_step, getNextTokenLoop_step]
      split
      · apply ih
        have := ignore_length ⟨'-' :: ch :: s.pre, rest.tail, false, false⟩ '\n'
        simp only [List.length_tail] at this
        omega
      · split
        · exact ih _ _ (by simp only; omega)
        · split
          · exact ih _ _ (by simp only; omega)
          · rfl

/-- Any fuel above the number of characters left gives the result of
`getNextToken`. -/
theorem getNextTokenLoop_fuel (uninit : Char) (fuel : Nat) (s : IStream) (linenum : Int)
    (h : s.post.length < fuel) :
    getNextTokenLoop uninit fuel s linenum = getNextToken uninit s linenum := by
  obtain ⟨k, rfl⟩ : ∃ k, fuel = s.post.length + 1 + k := ⟨fuel - (s.post.length + 1), by omega⟩
  unfold getNextToken
  induction k with
  | zero => rfl
  | succ k ih =>
    rw [← Nat.add_assoc, getNextTokenLoop_fuel_succ uninit _ s linenum (by omega)]
    exact ih (by omega)

/-- A call on a good stream with a character to read, in terms of calls on the
rest of the stream. -/
theorem getNextToken_step (uninit : Char) (pre rest : List Char) (ch : Char) (linenum : Int) :
    getNextToken uninit ⟨pre, ch :: rest, false, false⟩ linenum =
      if ch = '-' ∧ rest.head? = some '-' then
        getNextToken uninit
          (IStream.ignore ⟨'-' :: ch :: pre, rest.tail, false, false⟩ '\n') (incrLine linenum)
      else if ch = '\n' then
        getNextToken uninit ⟨ch :: pre, rest, false, false⟩ (incrLine linenum)
      else if isspace ch = true then
        getNextToken uninit ⟨ch :: pre, rest, false, false⟩ linenum
      else
        (scanToken uninit ch ⟨ch :: pre, rest, ch == '-' && rest.isEmpty, false⟩ linenum).map
          (fun r => (r.1, r.2, linenum)) := by
  have hstep := getNextTokenLoop_step uninit (rest.length + 1) pre rest ch linenum
  have h1 := getNextTokenLoop_fuel uninit (rest.length + 1)
    (IStream.ignore ⟨'-' :: ch :: pre, rest.tail, false, false⟩ '\n') (incrLine linenum) (by
      have := ignore_length ⟨'-' :: ch :: pre, rest.tail, false, false⟩ '\n'
      simp only [List.length_tail] at this
      omega)
  have h2 := getNextTokenLoop_fuel uninit (rest.length + 1) ⟨ch :: pre, rest, false, false⟩
    (incrLine linenum) (by simp)
  have h3 := getNextTokenLoop_fuel uninit (rest.length + 1) ⟨ch :: pre, rest, false, false⟩
    linenum (by simp)
  rw [h1, h2, h3] at hstep
  exact hstep

/-! ## The identifier loop on a run of identifier characters -/

/-- The identifier loop reads a run of identifier characters without doubled
underscore into the lexeme. -/
theorem identLoop_run (u : List Char) :
    ∀ (fuel : Nat) (pre rest : List Char) (ch : Char) (prev : Bool) (lexeme : List Char),
      identRun prev u = true →
      ∃ (ch1 : Char) (prev1 : Bool),
        identLoop (fuel + u.length) ⟨pre, u ++ rest, false, false⟩ ch prev lexeme =
          identLoop fuel ⟨u.reverse ++ pre, rest, false, false⟩ ch1 prev1 (lexeme ++ u) := by
  induction u with
  | nil => intro fuel pre rest ch prev lexeme _; exact ⟨ch, prev, by simp⟩
  | cons x u ih =>
    intro fuel pre rest ch prev lexeme hrun
    simp only [identRun, Bool.and_eq_true, Bool.not_eq_true'] at hrun
    obtain ⟨⟨hx, hprev⟩, hrest⟩ := hrun
    obtain ⟨ch1, prev1, h⟩ := ih fuel (x :: pre) rest x (x == '_') (lexeme ++ [x]) hrest
    refine ⟨ch1, prev1, ?_⟩
    show identLoop (fuel + u.length + 1) ⟨pre, x :: (u ++ rest), false, false⟩ ch prev lexeme = _
    rw [identLoop]
    simp only [get_good_cons, hx, if_true, hprev, Bool.false_eq_true, if_false]
    rw [h]
    simp

/-- The identifier path on a first character `c` followed by a run of
identifier characters and then a character `x` that cannot continue an
identifier: the run is the lexeme and the stream is left at `x`. -/
theorem identLoop_stop (c x : Char) (u pre r : List Char)
    (hrun : identRun (c == '_') u = true) (hx : (isalnum x || x == '_') = false) :
    ∃ (s1 : IStream) (ch1 : Char),
      identLoop ((u ++ x :: r).length + 1) ⟨c :: pre, u ++ x :: r, false, false⟩ c (c == '_') [c] =
        some (s1, ch1, c :: u) ∧
      s1.putback ch1 = ⟨u.reverse ++ c :: pre, x :: r, false, false⟩ := by
  obtain ⟨ch1, prev1, h⟩ := identLoop_run u (r.length + 2) (c :: pre) (x :: r) c (c == '_') [c] hrun
  have hf : (u ++ x :: r).length + 1 = (r.length + 2) + u.length := by
    simp only [List.length_append, List.length_cons]; omega
  refine ⟨⟨x :: (u.reverse ++ c :: pre), r, false, false⟩, x, ?_, by simp [IStream.putback]⟩
  rw [hf, h, identLoop]
  simp only [get_good_cons, hx, Bool.false_eq_true, if_false]
  simp

/-- The identifier path on a first character `c` followed by a run of
identifier characters that ends the input: the run is the lexeme and the stream
has failed at its end. -/
theorem identLoop_end (c : Char) (u pre : List Char)
    (hrun : identRun (c == '_') u = true) :
    ∃ (s1 : IStream) (ch1 : Char),
      identLoop (u.length + 1) ⟨c :: pre, u, false, false⟩ c (c == '_') [c] =
        some (s1, ch1, c :: u) ∧
      s1.putback ch1 = ⟨u.reverse ++ c :: pre, [], false, true⟩ := by
  obtain ⟨ch1, prev1, h⟩ := identLoop_run u 1 (c :: pre) [] c (c == '_') [c] hrun
  have hf : u.length + 1 = 1 + u.length := by omega
  refine ⟨⟨u.reverse ++ c :: pre, [], true, true⟩, ch1, ?_, by simp [IStream.putback]⟩
  rw [List.append_nil] at h
  rw [hf, h, identLoop]
  simp [get_good_nil]

/-- A text of identifier characters in which no underscore follows an
underscore, and which does not start with one when `prev` is set, is a run. -/
theorem identRun_of_chars (u : List Char) :
    ∀ prev : Bool, (∀ x ∈ u, isalnum x = true ∨ x = '_') →
      (prev = true → u.head? ≠ some '_') → ¬ ['_', '_'] <:+: u → identRun prev u = true := by
  induction u with
  | nil => intro prev _ _ _; rfl
  | cons c u ih =>
    intro prev hchars hhead hinfix
    have hc : (isalnum c || c == '_') = true := by
      rcases hchars c (List.mem_cons_self _ _) with h | h <;> simp [h]
    have hp : (prev && c == '_') = false := by
      cases prev with
      | false => rfl
      | true =>
        have := hhead rfl
        simpa using this
    have hrest : identRun (c == '_') u = true := by
      apply ih
      · exact fun x hx => hchars x (List.mem_cons_of_mem _ hx)
      · intro hcu hu
        apply hinfix
        have hc' : c = '_' := by simpa using hcu
        cases u with
        | nil => simp at hu
        | cons y u' =>
          have hy : y = '_' := by simpa using hu
          subst hc' hy
          exact ⟨[], u', by simp⟩
      · intro h
        exact hinfix (List.IsInfix.trans h (List.infix_cons (List.infix_refl u)))
    simp [identRun, hc, hp, hrest]

/-! ## Comments and identifiers through a whole call -/

/-- The stream after `in.ignore` of a comment whose text `t` has no newline and
is ended by one: everything up to and including the newline is gone. -/
theorem ignore_line (t pre rest : List Char) (ht : ∀ x ∈ t, x ≠ '\n') :
    IStream.ignore ⟨pre, t ++ '\n' :: rest, false, false⟩ '\n' =
      ⟨'\n' :: (t.reverse ++ pre), rest, false, false⟩ := by
  have hdrop : ∀ (t pre : List Char), (∀ x ∈ t, x ≠ '\n') →
      IStream.dropThrough '\n' pre (t ++ '\n' :: rest) =
        ('\n' :: (t.reverse ++ pre), rest, false) := by
    intro t
    induction t with
    | nil => intro pre _; simp [IStream.dropThrough]
    | cons x t ih =>
      intro pre hx
      have hne : x ≠ '\n' := hx x (List.mem_cons_self _ _)
      rw [List.cons_append, IStream.dropThrough]
      simp only [beq_iff_eq, hne, if_false]
      rw [ih (x :: pre) (fun y hy => hx y (List.mem_cons_of_mem _ hy))]
      simp
  simp only [IStream.ignore, IStream.good, Bool.not_false, Bool.and_self, if_true, hdrop t pre ht]

/-- A call on a good stream at a first character `c` that is a letter or an
underscore, followed by a run of identifier characters and a character that
cannot continue an identifier. -/
theorem getNextToken_ident_stop (uninit c x : Char) (u pre r : List Char) (linenum : Int)
    (hc : (isalpha c || c == '_') = true)
    (hrun : identRun (c == '_') u = true) (hx : (isalnum x || x == '_') = false) :
    getNextToken uninit ⟨pre, c :: (u ++ x :: r), false, false⟩ linenum =
      some (if c = '_' then ⟨Token.ERR, c :: u, linenum⟩ else id_or_kw (c :: u) linenum,
        ⟨u.reverse ++ c :: pre, x :: r, false, false⟩, linenum) := by
  have hsp : isspace c = false := by
    rcases Bool.or_eq_true_iff.mp hc with h | h
    · exact isalpha_not_space h
    · have : c = '_' := by simpa using h
      subst this; decide
  have hm : c ≠ '-' := by
    rcases Bool.or_eq_true_iff.mp hc with h | h
    · exact isalpha_ne_minus h
    · have : c = '_' := by simpa using h
      subst this; decide
  obtain ⟨s1, ch1, hloop, hput⟩ := identLoop_stop c x u pre r hrun hx
  rw [getNextToken_start uninit c pre _ linenum hsp hm]
  simp only [scanToken, hc, if_true, scanIdent, hloop, hput, List.head?_cons, Option.some.injEq]
  split <;> rfl

/-- A call on a good stream at a first character `c` that is a letter or an
underscore, followed by a run of identifier characters that ends the input. -/
theorem getNextToken_ident_end (uninit c : Char) (u pre : List Char) (linenum : Int)
    (hc : (isalpha c || c == '_') = true) (hrun : identRun (c == '_') u = true) :
    getNextToken uninit ⟨pre, c :: u, false, false⟩ linenum =
      some (if c = '_' then ⟨Token.ERR, c :: u, linenum⟩ else id_or_kw (c :: u) linenum,
        ⟨u.reverse ++ c :: pre, [], false, true⟩, linenum) := by
  have hsp : isspace c = false := by
    rcases Bool.or_eq_true_iff.mp hc with h | h
    · exact isalpha_not_space h
    · have : c = '_' := by simpa using h
      subst this; decide
  have hm : c ≠ '-' := by
    rcases Bool.or_eq_true_iff.mp hc with h | h
    · exact isalpha_ne_minus h
    · have : c = '_' := by simpa using h
      subst this; decide
  obtain ⟨s1, ch1, hloop, hput⟩ := identLoop_end c u pre hrun
  rw [getNextToken_start uninit c pre _ linenum hsp hm]
  simp only [scanToken, hc, if_true, scanIdent, hloop, hput, List.head?_cons, Option.some.injEq]
  split <;> rfl

/-! ## C11: comment absorption -/

/-- C11: for a text `t` without newline, successive calls on the input
`x --` ++ `t` ++ newline ++ `y` return `IDENT "x"` on the starting line,
`IDENT "y"` on the next line and `DONE`: the comment is consumed up to and
including its newline, gives no token, and increments the line counter exactly
once, which adds one to every counter below the largest `int` (so lines 1, 2
and 2 when the counter starts at 1). -/
theorem comment_absorbed (uninit : Char) (t : List Char) (linenum : Int)
    (ht : ∀ x ∈ t, x ≠ '\n') :
    ∃ s1 s2 s3 : IStream,
      getNextToken uninit (IStream.ofList ("x --".data ++ t ++ '\n' :: "y".data)) linenum =
        some (⟨Token.IDENT, "x".data, linenum⟩, s1, linenum) ∧
      s1.post = " --".data ++ t ++ '\n' :: "y".data ∧
      getNextToken uninit s1 linenum =
        some (⟨Token.IDENT, "y".data, incrLine linenum⟩, s2, incrLine linenum) ∧
      getNextToken uninit s2 (incrLine linenum) =
        some (⟨Token.DONE, [], incrLine linenum⟩, s3, incrLine linenum) ∧
      (-2147483648 ≤ linenum → linenum < 2147483647 → incrLine linenum = linenum + 1) := by
  refine ⟨⟨['x'], ' ' :: '-' :: '-' :: (t ++ ['\n', 'y']), false, false⟩,
    ⟨['y', '\n'] ++ (t.reverse ++ ['-', '-', ' ', 'x']), [], false, true⟩,
    ⟨['y', '\n'] ++ (t.reverse ++ ['-', '-', ' ', 'x']), [], false, true⟩, ?_, ?_, ?_, ?_,
    fun hlo hhi => incrLine_of_lt hlo hhi⟩
  · have h := getNextToken_ident_stop uninit 'x' ' ' [] [] ('-' :: '-' :: (t ++ ['\n', 'y']))
      linenum (by decide) (by decide) (by decide)
    simp only [IStream.ofList]
    exact h
  · simp
  · rw [getNextToken_step]
    have h1 : ¬ ((' ' : Char) = '-' ∧ ('-' :: '-' :: (t ++ ['\n', 'y'])).head? = some '-') := by
      intro h; exact absurd h.1 (by decide)
    have h2 : (' ' : Char) ≠ '\n' := by decide
    have h3 : isspace ' ' = true := by decide
    simp only [h1, h2, h3, if_true, if_false]
    rw [getNextToken_step]
    simp only [List.head?_cons, and_self, if_true, List.tail_cons]
    rw [ignore_line t _ _ ht]
    have h := getNextToken_ident_end uninit 'y' [] ('\n' :: (t.reverse ++ ['-', '-', ' ', 'x']))
      (incrLine linenum) (by decide) (by decide)
    exact h
  · exact getNextToken_failed uninit _ _ _ _

theorem comment_absorbed_witness :
    (∀ x ∈ " anything".data, x ≠ '\n') ∧
    ∃ s1 s2 s3 : IStream,
      getNextToken 'x' (IStream.ofList ("x --".data ++ " anything".data ++ '\n' :: "y".data)) 1 =
        some (⟨Token.IDENT, "x".data, 1⟩, s1, 1) ∧
      s1.post = " --".data ++ " anything".data ++ '\n' :: "y".data ∧
      getNextToken 'x' s1 1 = some (⟨Token.IDENT, "y".data, 2⟩, s2, 2) ∧
      getNextToken 'x' s2 2 = some (⟨Token.DONE, [], 2⟩, s3, 2) ∧
      (-2147483648 ≤ (1 : Int) → (1 : Int) < 2147483647 → incrLine 1 = 1 + 1) :=
  ⟨by decide, comment_absorbed 'x' " anything".data 1 (by decide)⟩

/-! ## C17: a leading underscore -/

/-- C17: on `_` followed by a run `u` of letters, digits and underscores that
does not start with an underscore and has no two consecutive underscores, and
then by `r` that is empty or starts with a character that is not a letter,
digit or underscore, `getNextToken` returns `ERR` with lexeme `_` ++ `u`,
leaves the stream at `r` and does not change the line counter. -/
theorem leading_underscore (uninit : Char) (u pre r : List Char) (linenum : Int)
    (hchars : ∀ x ∈ u, isalnum x = true ∨ x = '_')
    (hstart : u.head? ≠ some '_') (hdouble : ¬ ['_', '_'] <:+: u)
    (hr : r = [] ∨ ∃ x r', r = x :: r' ∧ isalnum x = false ∧ x ≠ '_') :
    ∃ s' : IStream,
      getNextToken uninit ⟨pre, '_' :: (u ++ r), false, false⟩ linenum =
        some (⟨Token.ERR, '_' :: u, linenum⟩, s', linenum) ∧
      s'.post = r ∧ s'.pre = ('_' :: u).reverse ++ pre := by
  have hrun : identRun ('_' == '_') u = true :=
    identRun_of_chars u true hchars (fun _ => hstart) hdouble
  rcases hr with rfl | ⟨x, r', rfl, hx1, hx2⟩
  · refine ⟨⟨u.reverse ++ '_' :: pre, [], false, true⟩, ?_, rfl, by simp⟩
    rw [List.append_nil, getNextToken_ident_end uninit '_' u pre linenum (by decide) hrun]
    simp
  · refine ⟨⟨u.reverse ++ '_' :: pre, x :: r', false, false⟩, ?_, rfl, by simp⟩
    rw [getNextToken_ident_stop uninit '_' x u pre r' linenum (by decide) hrun
      (by simp [hx1, hx2])]
    simp

theorem leading_underscore_witness :
    ((∀ x ∈ "foo".data, isalnum x = true ∨ x = '_') ∧ "foo".data.head? ≠ some '_' ∧
      ¬ ['_', '_'] <:+: "foo".data ∧
      (([] : List Char) = [] ∨ ∃ x r', ([] : List Char) = x :: r' ∧ isalnum x = false ∧ x ≠ '_')) ∧
    ∃ s' : IStream,
      getNextToken 'x' ⟨[], '_' :: ("foo".data ++ []), false, false⟩ 1 =
        some (⟨Token.ERR, '_' :: "foo".data, 1⟩, s', 1) ∧
      s'.post = [] ∧ s'.pre = ('_' :: "foo".data).reverse ++ [] :=
  ⟨⟨by decide, by decide, by decide, Or.inl rfl⟩,
    leading_underscore 'x' "foo".data [] [] 1 (by decide) (by decide) (by decide) (Or.inl rfl)⟩

/-! ## What every call keeps: the text, a sound stream, the line order -/

theorem sound_good (pre post : List Char) : IStream.sound ⟨pre, post, false, false⟩ = true := by
  simp [IStream.sound, IStream.good]

theorem sound_end (pre : List Char) (e f : Bool) : IStream.sound ⟨pre, [], e, f⟩ = true := by
  simp [IStream.sound]

/-- On a sound stream a failed `in.get` means that nothing is left. -/
theorem get_none_sound (s : IStream) (hs : s.sound = true) (s1 : IStream)
    (h : s.get = (none, s1)) : s.post = [] ∧ s1.post = [] ∧ s1.pre = s.pre ∧ s1.fail = true := by
  obtain ⟨pre, post, e, f⟩ := s
  cases e <;> cases f <;> cases post <;>
    simp_all [IStream.get, IStream.good, IStream.sound] <;> (subst h; simp)

/-- The identifier loop followed by the `putback` after it (source lines 50 to
60), on the stream left by reading a first character `ch`: a result is
returned, the lexeme is extended, the stream stays sound and reads the same
text, and it is left behind `ch` unless `ch` and the next character are both
underscores. -/
theorem identLoop_frame (fuel : Nat) :
    ∀ (pre rest : List Char) (ch : Char) (lexeme : List Char), rest.length < fuel →
      ∃ (s1 : IStream) (ch1 : Char) (ext : List Char),
        identLoop fuel ⟨ch :: pre, rest, false, false⟩ ch (ch == '_') lexeme =
          some (s1, ch1, lexeme ++ ext) ∧
        (s1.putback ch1).sound = true ∧
        (s1.putback ch1).text = pre.reverse ++ ch :: rest ∧
        (s1.putback ch1).post.length ≤ rest.length + 1 ∧
        ((s1.putback ch1).post.length ≤ rest.length ∨ (ch = '_' ∧ rest.head? = some '_')) := by
  induction fuel with
  | zero => intro pre rest ch lexeme h; omega
  | succ n ih =>
    intro pre rest ch lexeme hlen
    cases rest with
    | nil =>
      refine ⟨⟨ch :: pre, [], true, true⟩, ch, [], ?_, ?_, ?_, ?_, ?_⟩
      · rw [identLoop]; simp only [get_good_nil, List.append_nil]
      · simp [IStream.putback, IStream.sound]
      · simp [IStream.putback, IStream.text]
      · simp [IStream.putback]
      · left; simp [IStream.putback]
    | cons c r =>
      rw [identLoop]
      simp only [get_good_cons]
      by_cases hc : (isalnum c || c == '_') = true
      · simp only [hc, if_true]
        by_cases hb : ((ch == '_') && c == '_') = true
        · simp only [hb, if_true]
          have hch : ch = '_' := by simp at hb; exact hb.1
          have hcc : c = '_' := by simp at hb; exact hb.2
          subst hch hcc
          refine ⟨_, _, [], by rw [List.append_nil], ?_, ?_, ?_, ?_⟩
          · simp [IStream.putback, IStream.sound, IStream.good]
          · simp [IStream.putback, IStream.text]
          · simp [IStream.putback]
          · right; simp
        · simp only [hb, Bool.false_eq_true, if_false]
          obtain ⟨s1, ch1, ext, hloop, hsound, htext, hle, -⟩ :=
            ih (ch :: pre) r c (lexeme ++ [c]) (by simp at hlen; omega)
          refine ⟨s1, ch1, c :: ext, ?_, hsound, ?_, ?_, ?_⟩
          · rw [hloop]; simp
          · rw [htext]; simp
          · simp only [List.length_cons]; omega
          · left; simp only [List.length_cons]; omega
      · simp only [hc, Bool.false_eq_true, if_false]
        refine ⟨_, _, [], by rw [List.append_nil], ?_, ?_, ?_, ?_⟩
        · simp [IStream.putback, IStream.sound, IStream.good]
        · simp [IStream.putback, IStream.text]
        · simp [IStream.putback]
        · left; simp [IStream.putback]

/-- The kind that `id_or_kw` returns is never `DONE` or `ERR`, and the line is
the line passed in. -/
theorem id_or_kw_kind (lexeme : List Char) (linenum : Int) :
    (id_or_kw lexeme linenum).linenum = linenum ∧
    (id_or_kw lexeme linenum).token ≠ Token.DONE ∧
    (id_or_kw lexeme linenum).token ≠ Token.ERR := by
  unfold id_or_kw keywordsFind
  simp only
  split_ifs
  · exact ⟨rfl, by simp, by simp⟩
  · cases hk : keywords.lookup (lexeme.map toupper) with
    | none => exact ⟨rfl, by simp, by simp⟩
    | some kind =>
      have hm := lookup_some_mem _ _ _ hk
      have h1 : kind ≠ Token.DONE := by
        rintro rfl
        simp [keywords] at hm
      have h2 : kind ≠ Token.ERR := by
        rintro rfl
        simp [keywords] at hm
      simp only
      split_ifs
      · exact ⟨rfl, by simp, by simp⟩
      · exact ⟨rfl, h1, h2⟩

/-- The identifier path on the stream left by reading its first character. -/
theorem scanIdent_frame (ch : Char) (pre rest : List Char) (linenum : Int) :
    ∃ (tok : LexItem) (s' : IStream),
      scanIdent ch ⟨ch :: pre, rest, false, false⟩ linenum = some (tok, s') ∧
      tok.linenum = linenum ∧ tok.token ≠ Token.DONE ∧
      s'.sound = true ∧ s'.text = pre.reverse ++ ch :: rest ∧
      s'.post.length ≤ rest.length + 1 ∧
      (s'.post.length ≤ rest.length ∨ (ch = '_' ∧ rest.head? = some '_')) := by
  obtain ⟨s1, ch1, ext, hloop, hsound, htext, hle, hstrict⟩ :=
    identLoop_frame (rest.length + 1) pre rest ch [ch] (by omega)
  unfold scanIdent
  simp only [hloop]
  split_ifs
  · exact ⟨_, _, rfl, rfl, by simp, hsound, htext, hle, hstrict⟩
  · exact ⟨_, _, rfl, (id_or_kw_kind _ _).1, (id_or_kw_kind _ _).2.1, hsound, htext, hle, hstrict⟩

/-- The string loop on a sound stream: a result is returned, of kind `SCONST`
or `ERR`, and the stream stays sound and reads the same text. -/
theorem stringLoop_frame (fuel : Nat) :
    ∀ (s : IStream) (lexeme : List Char) (linenum : Int),
      s.sound = true → s.post.length < fuel →
      ∃ (tok : LexItem) (s' : IStream),
        stringLoop fuel s lexeme linenum = some (tok, s') ∧
        tok.linenum = linenum ∧ (tok.token = Token.SCONST ∨ tok.token = Token.ERR) ∧
        s'.sound = true ∧ s'.text = s.text ∧ s'.post.length ≤ s.post.length := by
  induction fuel with
  | zero => intro s lexeme linenum _ h; omega
  | succ n ih =>
    intro s lexeme linenum hs hlen
    rw [stringLoop]
    rcases get_cases s with ⟨s1, hget, -⟩ | ⟨ch, rest, hsform, hget⟩
    · obtain ⟨h1, h2, h3, -⟩ := get_none_sound s hs s1 hget
      simp only [hget]
      refine ⟨_, _, rfl, rfl, Or.inr rfl, ?_, ?_, ?_⟩
      · simp [IStream.sound, h2]
      · simp [IStream.text, h1, h2, h3]
      · simp [h2]
    · have hpost : s.post = ch :: rest := by rw [hsform]
      have htext : s.text = s.pre.reverse ++ ch :: rest := by rw [IStream.text, hpost]
      simp only [hget]
      split_ifs
      · refine ⟨_, _, rfl, rfl, Or.inl rfl, sound_good _ _, ?_, ?_⟩
        · rw [htext]; simp [IStream.text]
        · rw [hpost]; simp
      · refine ⟨_, _, rfl, rfl, Or.inr rfl, sound_good _ _, ?_, ?_⟩
        · rw [htext]; simp [IStream.text]
        · rw [hpost]; simp
      · obtain ⟨tok, s', hloop, hl, hk, hsound, ht, hle⟩ :=
          ih ⟨ch :: s.pre, rest, false, false⟩ (lexeme ++ [ch]) linenum (sound_good _ _)
            (by rw [hpost] at hlen; simp at hlen ⊢; omega)
        refine ⟨tok, s', hloop, hl, hk, hsound, ?_, ?_⟩
        · rw [ht, htext]; simp [IStream.text]
        · rw [hpost]; simp only [List.length_cons] at hle ⊢; omega

/-- The character loop on a sound stream: a result is returned and the stream
stays sound and reads the same text. -/
theorem charLoop_frame (fuel : Nat) :
    ∀ (s : IStream) (nextCh : Char) (errorContent : List Char),
      s.sound = true → s.post.length < fuel →
      ∃ (s' : IStream) (nextCh' : Char) (errorContent' : List Char),
        charLoop fuel s nextCh errorContent = some (s', nextCh', errorContent') ∧
        s'.sound = true ∧ s'.text = s.text ∧ s'.post.length ≤ s.post.length := by
  induction fuel with
  | zero => intro s nextCh errorContent _ h; omega
  | succ n ih =>
    intro s nextCh errorContent hs hlen
    rw [charLoop]
    rcases get_cases s with ⟨s1, hget, -⟩ | ⟨ch, rest, hsform, hget⟩
    · obtain ⟨h1, h2, h3, -⟩ := get_none_sound s hs s1 hget
      simp only [hget]
      refine ⟨_, _, _, rfl, ?_, ?_, ?_⟩
      · simp [IStream.sound, h2]
      · simp [IStream.text, h1, h2, h3]
      · simp [h2]
    · have hpost : s.post = ch :: rest := by rw [hsform]
      have htext : s.text = s.pre.reverse ++ ch :: rest := by rw [IStream.text, hpost]
      simp only [hget]
      split_ifs
      · obtain ⟨s', nc, ec, hloop, hsound, ht, hle⟩ :=
          ih ⟨ch :: s.pre, rest, false, false⟩ ch (errorContent ++ [ch] ++ [ch]) (sound_good _ _)
            (by rw [hpost] at hlen; simp at hlen ⊢; omega)
        refine ⟨s', nc, ec, hloop, hsound, ?_, ?_⟩
        · rw [ht, htext]; simp [IStream.text]
        · rw [hpost]; simp only [List.length_cons] at hle ⊢; omega
      · obtain ⟨s', nc, ec, hloop, hsound, ht, hle⟩ :=
          ih ⟨ch :: s.pre, rest, false, false⟩ ch (errorContent ++ [ch]) (sound_good _ _)
            (by rw [hpost] at hlen; simp at hlen ⊢; omega)
        refine ⟨s', nc, ec, hloop, hsound, ?_, ?_⟩
        · rw [ht, htext]; simp [IStream.text]
        · rw [hpost]; simp only [List.length_cons] at hle ⊢; omega
      · refine ⟨_, _, _, rfl, sound_good _ _, ?_, ?_⟩
        · rw [htext]; simp [IStream.text]
        · rw [hpost]; simp

/-- The character-literal path on a sound stream: a result is returned, of kind
`CCONST` or `ERR`, and the stream stays sound and reads the same text. -/
theorem scanChar_frame (uninit : Char) (s : IStream) (linenum : Int) (hs : s.sound = true) :
    ∃ (tok : LexItem) (s' : IStream),
      scanChar uninit s linenum = some (tok, s') ∧
      tok.linenum = linenum ∧ (tok.token = Token.CCONST ∨ tok.token = Token.ERR) ∧
      s'.sound = true ∧ s'.text = s.text ∧ s'.post.length ≤ s.post.length := by
  unfold scanChar
  rcases get_cases s with ⟨s1, hget, -⟩ | ⟨ch, rest, hsform, hget⟩
  · obtain ⟨h1, h2, h3, -⟩ := get_none_sound s hs s1 hget
    simp only [hget]
    refine ⟨_, _, rfl, rfl, Or.inr rfl, ?_, ?_, ?_⟩
    · simp [IStream.sound, h2]
    · simp [IStream.text, h1, h2, h3]
    · simp [h2]
  · have hpost : s.post = ch :: rest := by rw [hsform]
    have htext : s.text = s.pre.reverse ++ ch :: rest := by rw [IStream.text, hpost]
    simp only [hget]
    split_ifs
    · refine ⟨_, _, rfl, rfl, Or.inr rfl, sound_good _ _, ?_, ?_⟩
      · rw [htext]; simp [IStream.text]
      · rw [hpost]; simp
    · refine ⟨_, _, rfl, rfl, Or.inr rfl, sound_good _ _, ?_, ?_⟩
      · rw [htext]; simp [IStream.text]
      · rw [hpost]; simp
    · obtain ⟨s', nc, ec, hloop, hsound, ht, hle⟩ :=
        charLoop_frame (rest.length + 1) ⟨ch :: s.pre, rest, false, false⟩ uninit [ch]
          (sound_good _ _) (by simp)
      have ht' : s'.text = s.text := by rw [ht, htext]; simp [IStream.text]
      have hle' : s'.post.length ≤ s.post.length := by
        rw [hpost]; simp only [List.length_cons] at hle ⊢; omega
      simp only [hloop]
      split_ifs
      all_goals first
        | exact ⟨_, _, rfl, rfl, Or.inl rfl, hsound, ht', hle'⟩
        | exact ⟨_, _, rfl, rfl, Or.inr rfl, hsound, ht', hle'⟩

/-- The numeric loop leaves a sound stream sound. -/
theorem numberLoop_sound (fuel : Nat) :
    ∀ (s : IStream) (lexeme : List Char) (hasDot hasExponent : Bool) (linenum : Int)
      (tok : LexItem) (s' : IStream),
      s.sound = true →
      numberLoop fuel s lexeme hasDot hasExponent linenum = some (tok, s') → s'.sound = true := by
  induction fuel with
  | zero => intro s lexeme hasDot hasExponent linenum tok s' _ h; simp [numberLoop] at h
  | succ n ih =>
    intro s lexeme hasDot hasExponent linenum tok s' hs h
    rw [numberLoop] at h
    rcases get_cases s with ⟨s1, hget, -⟩ | ⟨ch, rest, -, hget⟩
    · obtain ⟨-, h2, -, -⟩ := get_none_sound s hs s1 hget
      simp only [hget, Option.some.injEq, Prod.mk.injEq] at h
      rw [← h.2]
      simp [IStream.sound, h2]
    · simp only [hget] at h
      rcases numberBody_cases ch s.pre rest lexeme hasDot hasExponent linenum with
        hb | ⟨-, -, hb⟩ | ⟨k, rest2, e, hasDot2, hasExponent2, hb, -, he, -⟩
      · rw [hb] at h
        simp only [Option.some.injEq, Prod.mk.injEq] at h
        rw [← h.2]
        exact sound_good _ _
      · rw [hb] at h
        simp only [Option.some.injEq, Prod.mk.injEq] at h
        rw [← h.2]
        cases rest <;> simp [IStream.sound, IStream.good]
      · rw [hb] at h
        refine ih _ _ _ _ _ _ _ ?_ h
        cases e with
        | false => exact sound_good _ _
        | true => rw [he rfl]; exact sound_end _ _ _

/-- A two-character operator on a good stream: the stream stays sound, reads
the same text and loses at most one more character. -/
theorem twoCharOp_frame (pre rest : List Char) (first second : Char) (both single : Token)
    (linenum : Int) (hb : both ≠ Token.DONE) (hsg : single ≠ Token.DONE) :
    (twoCharOp ⟨pre, rest, false, false⟩ first second both single linenum).1.linenum = linenum ∧
    (twoCharOp ⟨pre, rest, false, false⟩ first second both single linenum).1.token ≠ Token.DONE ∧
    (twoCharOp ⟨pre, rest, false, false⟩ first second both single linenum).2.sound = true ∧
    (twoCharOp ⟨pre, rest, false, false⟩ first second both single linenum).2.text =
      pre.reverse ++ rest ∧
    (twoCharOp ⟨pre, rest, false, false⟩ first second both single linenum).2.post.length ≤
      rest.length := by
  cases rest with
  | nil =>
    rw [twoCharOp_nil]
    exact ⟨rfl, hsg, sound_end _ _ _, by simp [IStream.text], by simp⟩
  | cons x r =>
    rw [twoCharOp_cons]
    split_ifs with hx
    · subst hx
      exact ⟨rfl, hb, sound_good _ _, by simp [IStream.text], by simp⟩
    · exact ⟨rfl, hsg, sound_good _ _, by simp [IStream.text], by simp⟩

/-- The two shapes of what the `switch` returns: a token for the character
alone with the stream untouched, or the result of a two-character lookahead. -/
theorem scanOperator_shape (ch : Char) (s : IStream) (linenum : Int) :
    (∃ (kind : Token) (lexeme : List Char), kind ≠ Token.DONE ∧
      scanOperator ch s linenum = (⟨kind, lexeme, linenum⟩, s)) ∨
    (∃ (first second : Char) (both single : Token), both ≠ Token.DONE ∧ single ≠ Token.DONE ∧
      scanOperator ch s linenum = twoCharOp s first second both single linenum) := by
  by_cases h1 : ch = '-'
  · subst h1
    exact Or.inl ⟨Token.MINUS, ['-'], by simp, by simp [scanOperator]⟩
  by_cases h2 : ch = '+'
  · subst h2
    exact Or.inl ⟨Token.PLUS, ['+'], by simp, by simp [scanOperator]⟩
  by_cases h3 : ch = '='
  · subst h3
    exact Or.inl ⟨Token.EQ, ['='], by simp, by simp [scanOperator]⟩
  by_cases h4 : ch = '%'
  · subst h4
    exact Or.inl ⟨Token.MOD, ['%'], by simp, by simp [scanOperator]⟩
  by_cases h5 : ch = ','
  · subst h5
    exact Or.inl ⟨Token.COMMA, [','], by simp, by simp [scanOperator]⟩
  by_cases h6 : ch = ';'
  · subst h6
    exact Or.inl ⟨Token.SEMICOL, [';'], by simp, by simp [scanOperator]⟩
  by_cases h7 : ch = '('
  · subst h7
    exact Or.inl ⟨Token.LPAREN, ['('], by simp, by simp [scanOperator]⟩
  by_cases h8 : ch = ')'
  · subst h8
    exact Or.inl ⟨Token.RPAREN, [')'], by simp, by simp [scanOperator]⟩
  by_cases h9 : ch = '*'
  · subst h9
    exact Or.inr ⟨'*', '*', Token.EXP, Token.MULT, by simp, by simp,
      by simp [scanOperator]⟩
  by_cases h10 : ch = '|'
  · subst h10
    exact Or.inr ⟨'|', '|', Token.OR, Token.ERR, by simp, by simp,
      by simp [scanOperator]⟩
  by_cases h11 : ch = '/'
  · subst h11
    exact Or.inr ⟨'/', '=', Token.NEQ, Token.DIV, by simp, by simp,
      by simp [scanOperator]⟩
  by_cases h12 : ch = '!'
  · subst h12
    exact Or.inr ⟨'!', '=', Token.NEQ, Token.ERR, by simp, by simp,
      by simp [scanOperator]⟩
  by_cases h13 : ch = '>'
  · subst h13
    exact Or.inr ⟨'>', '=', Token.GTE, Token.GTHAN, by simp, by simp,
      by simp [scanOperator]⟩
  by_cases h14 : ch = '<'
  · subst h14
    exact Or.inr ⟨'<', '=', Token.LTE, Token.LTHAN, by simp, by simp,
      by simp [scanOperator]⟩
  by_cases h15 : ch = '&'
  · subst h15
    exact Or.inr ⟨'&', '&', Token.AND, Token.CONCAT, by simp, by simp,
      by simp [scanOperator]⟩
  by_cases h16 : ch = ':'
  · subst h16
    exact Or.inr ⟨':', '=', Token.ASSOP, Token.COLON, by simp, by simp,
      by simp [scanOperator]⟩
  by_cases h17 : ch = '.'
  · subst h17
    exact Or.inr ⟨'.', '.', Token.CONCAT, Token.DOT, by simp, by simp,
      by simp [scanOperator]⟩
  exact Or.inl ⟨Token.ERR, [ch], by simp, by simp [scanOperator, h1, h2, h3, h4, h5, h6, h7, h8, h9, h10, h11, h12, h13, h14, h15, h16, h17]⟩

/-- The `switch` on a good stream: the kind is never `DONE`, the stream stays
sound, reads the same text and loses at most one more character. -/
theorem scanOperator_frame (ch : Char) (pre rest : List Char) (linenum : Int) :
    (scanOperator ch ⟨pre, rest, false, false⟩ linenum).1.linenum = linenum ∧
    (scanOperator ch ⟨pre, rest, false, false⟩ linenum).1.token ≠ Token.DONE ∧
    (scanOperator ch ⟨pre, rest, false, false⟩ linenum).2.sound = true ∧
    (scanOperator ch ⟨pre, rest, false, false⟩ linenum).2.text = pre.reverse ++ rest ∧
    (scanOperator ch ⟨pre, rest, false, false⟩ linenum).2.post.length ≤ rest.length := by
  rcases scanOperator_shape ch ⟨pre, rest, false, false⟩ linenum with
    ⟨kind, lexeme, hk, h⟩ | ⟨first, second, both, single, hb, hsg, h⟩
  · rw [h]
    exact ⟨rfl, hk, sound_good _ _, by simp [IStream.text], by simp⟩
  · rw [h]
    exact twoCharOp_frame pre rest first second both single linenum hb hsg

/-- What `in.ignore` up to a newline does on a good stream: the stream stays
sound and reads the same text, what is left is a suffix of what was there, and
a text inside a comment is blank exactly when what is left after the comment
is blank. -/
theorem ignore_frame (post : List Char) :
    ∀ pre : List Char,
      (IStream.ignore ⟨pre, post, false, false⟩ '\n').sound = true ∧
      (IStream.ignore ⟨pre, post, false, false⟩ '\n').text = pre.reverse ++ post ∧
      (IStream.ignore ⟨pre, post, false, false⟩ '\n').post <:+ post ∧
      (IStream.ignore ⟨pre, post, false, false⟩ '\n').fail = false ∧
      blankOnly true post = blankOnly false (IStream.ignore ⟨pre, post, false, false⟩ '\n').post := by
  induction post with
  | nil =>
    intro pre
    simp [IStream.ignore, IStream.good, IStream.dropThrough, IStream.sound, IStream.text,
      blankOnly]
  | cons c rest ih =>
    intro pre
    obtain ⟨h1, h2, h3, h4, h5⟩ := ih (c :: pre)
    have hstep : IStream.ignore ⟨pre, c :: rest, false, false⟩ '\n' =
        if c = '\n' then ⟨c :: pre, rest, false, false⟩
        else IStream.ignore ⟨c :: pre, rest, false, false⟩ '\n' := by
      simp only [IStream.ignore, IStream.good, Bool.not_false, Bool.and_self, if_true,
        IStream.dropThrough, beq_iff_eq]
      split_ifs <;> rfl
    rw [hstep]
    by_cases hc : c = '\n'
    · rw [if_pos hc]
      refine ⟨sound_good _ _, by simp [IStream.text], List.suffix_cons _ _, rfl, ?_⟩
      subst hc
      simp [blankOnly]
    · rw [if_neg hc]
      have hne : (c != '\n') = true := by simpa using hc
      refine ⟨h1, by rw [h2]; simp, h3.trans (List.suffix_cons _ _), h4, ?_⟩
      rw [← h5]
      simp only [blankOnly, hne]

/-- The body of the outer loop after the comment and white-space tests, on the
stream left by reading `ch` (with `eofbit` set by the lookahead when a lone `-`
ends the input): a token is returned, on the current line and never `DONE`;
the stream stays sound, reads the same text, and is left behind `ch` unless
`ch` and the next character are both underscores. -/
theorem scanToken_frame (uninit ch : Char) (pre rest : List Char) (linenum : Int) :
    ∃ (tok : LexItem) (s' : IStream),
      scanToken uninit ch ⟨ch :: pre, rest, ch == '-' && rest.isEmpty, false⟩ linenum =
        some (tok, s') ∧
      tok.linenum = linenum ∧ tok.token ≠ Token.DONE ∧
      s'.sound = true ∧ s'.text = pre.reverse ++ ch :: rest ∧
      (s'.post.length ≤ rest.length ∨ (ch = '_' ∧ rest.head? = some '_')) ∧
      s'.post.length ≤ rest.length + 1 := by
  by_cases hm : ch = '-'
  · subst hm
    refine ⟨⟨Token.MINUS, ['-'], linenum⟩, ⟨'-' :: pre, rest, rest.isEmpty, false⟩, ?_, rfl,
      by simp, ?_, by simp [IStream.text], Or.inl (Nat.le_refl _), Nat.le_succ _⟩
    · simp [scanToken, isalpha, isdigit, scanOperator]
    · cases rest <;> simp [IStream.sound, IStream.good]
  have hflag : (ch == '-' && rest.isEmpty) = false := by simp [hm]
  rw [hflag]
  unfold scanToken
  split_ifs with h1 h2 h3 h4
  · obtain ⟨tok, s', h, hl, hk, hs, ht, hle, hstrict⟩ := scanIdent_frame ch pre rest linenum
    exact ⟨tok, s', h, hl, hk, hs, ht, hstrict, hle⟩
  · obtain ⟨tok, s', mid, hloop, -, hline, hpost, hpre, hkind⟩ :=
      numberLoop_spec (rest.length + 1) ⟨ch :: pre, rest, false, false⟩ [ch] false false linenum
        (by simp)
    have hsound := numberLoop_sound _ _ _ _ _ _ _ _ (sound_good _ _) hloop
    simp only at hpost hpre
    have hlen : s'.post.length ≤ rest.length := by
      rw [← hpost, List.length_append]; omega
    refine ⟨tok, s', hloop, hline, ?_, hsound, ?_, Or.inl hlen, Nat.le_succ_of_le hlen⟩
    · rcases hkind with ⟨hk, -⟩ | ⟨hk, -⟩ | ⟨hk, -⟩ <;> rw [hk] <;> simp
    · rw [IStream.text, hpre, ← hpost]; simp
  · obtain ⟨tok, s', hloop, hline, hk, hsound, ht, hle⟩ :=
      stringLoop_frame (rest.length + 1) ⟨ch :: pre, rest, false, false⟩ [] linenum
        (sound_good _ _) (by simp)
    refine ⟨tok, s', hloop, hline, ?_, hsound, by rw [ht]; simp [IStream.text], Or.inl hle,
      Nat.le_succ_of_le hle⟩
    rcases hk with hk | hk <;> rw [hk] <;> simp
  · obtain ⟨tok, s', hloop, hline, hk, hsound, ht, hle⟩ :=
      scanChar_frame uninit ⟨ch :: pre, rest, false, false⟩ linenum (sound_good _ _)
    refine ⟨tok, s', hloop, hline, ?_, hsound, by rw [ht]; simp [IStream.text], Or.inl hle,
      Nat.le_succ_of_le hle⟩
    rcases hk with hk | hk <;> rw [hk] <;> simp
  · obtain ⟨hl, hk, hsound, ht, hle⟩ := scanOperator_frame ch (ch :: pre) rest linenum
    refine ⟨(scanOperator ch ⟨ch :: pre, rest, false, false⟩ linenum).1,
      (scanOperator ch ⟨ch :: pre, rest, false, false⟩ linenum).2, rfl, hl, hk, hsound, ?_,
      Or.inl hle, Nat.le_succ_of_le hle⟩
    rw [ht]; simp

theorem blankOnly_skip (c : Char) (rest : List Char) (hc : isspace c = true)
    (hcom : ¬ (c = '-' ∧ rest.head? = some '-')) :
    blankOnly false (c :: rest) = blankOnly false rest := by
  cases rest with
  | nil => simp [blankOnly, hc]
  | cons d r =>
    have : (c == '-' && d == '-') = false := by
      by_cases h1 : c = '-'
      · have h2 : d ≠ '-' := fun h => hcom ⟨h1, by simp [h]⟩
        simp [h2]
      · simp [h1]
    simp only [blankOnly, this, Bool.false_eq_true, if_false, hc, Bool.true_and]

theorem blankOnly_token (c : Char) (rest : List Char) (hc : isspace c = false)
    (hcom : ¬ (c = '-' ∧ rest.head? = some '-')) :
    blankOnly false (c :: rest) = false := by
  cases rest with
  | nil => simp [blankOnly, hc]
  | cons d r =>
    have : (c == '-' && d == '-') = false := by
      by_cases h1 : c = '-'
      · have h2 : d ≠ '-' := fun h => hcom ⟨h1, by simp [h]⟩
        simp [h2]
      · simp [h1]
    simp only [blankOnly, this, Bool.false_eq_true, if_false, hc, Bool.false_and]

theorem suffix_of_append_eq {a b c d : List Char} (h : a ++ b = c ++ d)
    (hlen : b.length ≤ d.length) : b <:+ d := by
  rcases List.append_eq_append_iff.mp h with ⟨e, -, rfl⟩ | ⟨e, -, rfl⟩
  · simp only [List.length_append] at hlen
    have he : e = [] := List.eq_nil_of_length_eq_zero (by omega)
    subst he
    exact List.suffix_refl _
  · exact List.suffix_append e b

/-- Every call of `getNextToken` on a sound stream returns a token, and:
the line counter has been incremented `k` times, at most once for each
character that the stream has passed, and is the line of the token; the stream
stays sound, reads the same text and has moved forward or not at all; the
token is `DONE` exactly when only white space and comments were left, and then
the stream is at its end and failed; a token other than `DONE` leaves the
stream strictly further unless two adjacent underscores are ahead. -/
theorem getNextToken_frame (uninit : Char) (n : Nat) :
    ∀ (s : IStream) (linenum : Int), s.post.length ≤ n → s.sound = true →
      ∃ (tok : LexItem) (s' : IStream) (linenum' : Int),
        getNextToken uninit s linenum = some (tok, s', linenum') ∧
        (∃ k : Nat, k + s'.post.length ≤ s.post.length ∧
          linenum' = Nat.iterate incrLine k linenum) ∧
        tok.linenum = linenum' ∧
        s'.sound = true ∧ s'.text = s.text ∧ s'.post <:+ s.post ∧
        (tok.token = Token.DONE ↔ blankOnly false s.post = true) ∧
        (tok.token = Token.DONE → tok.lexeme = [] ∧ s'.post = [] ∧ s'.fail = true) ∧
        (tok.token ≠ Token.DONE →
          s'.post.length < s.post.length ∨ ['_', '_'] <:+: s.post) := by
  induction n with
  | zero =>
    intro s linenum hlen hs
    have hpost : s.post = [] := List.eq_nil_of_length_eq_zero (Nat.le_zero.mp hlen)
    rcases get_cases s with ⟨s1, hget, -⟩ | ⟨ch, rest, hsform, -⟩
    · obtain ⟨-, h2, h3, h4⟩ := get_none_sound s hs s1 hget
      refine ⟨⟨Token.DONE, [], linenum⟩, s1, linenum, ?_, ⟨0, by simp [h2], rfl⟩, rfl, ?_, ?_,
        ?_, ?_, fun _ => ⟨rfl, h2, h4⟩, fun h => absurd rfl h⟩
      · rw [getNextToken, getNextTokenLoop]; simp only [hget]
      · simp [IStream.sound, h2]
      · simp [IStream.text, hpost, h2, h3]
      · rw [hpost, h2]
      · simp [hpost, blankOnly]
    · rw [hsform] at hpost; simp at hpost
  | succ m ih =>
    intro s linenum hlen hs
    rcases get_cases s with ⟨s1, hget, -⟩ | ⟨ch, rest, hsform, -⟩
    · obtain ⟨hpost, h2, h3, h4⟩ := get_none_sound s hs s1 hget
      refine ⟨⟨Token.DONE, [], linenum⟩, s1, linenum, ?_, ⟨0, by simp [h2], rfl⟩, rfl, ?_, ?_,
        ?_, ?_, fun _ => ⟨rfl, h2, h4⟩, fun h => absurd rfl h⟩
      · rw [getNextToken, getNextTokenLoop]; simp only [hget]
      · simp [IStream.sound, h2]
      · simp [IStream.text, hpost, h2, h3]
      · rw [hpost, h2]
      · simp [hpost, blankOnly]
    · obtain ⟨pre, post, e, f⟩ := s
      simp only [IStream.mk.injEq, true_and] at hsform
      obtain ⟨rfl, rfl, rfl⟩ := hsform
      have htext : (IStream.mk pre (ch :: rest) false false).text = pre.reverse ++ ch :: rest :=
        rfl
      simp only [List.length_cons] at hlen
      rw [getNextToken_step]
      simp only
      by_cases hcom : ch = '-' ∧ rest.head? = some '-'
      · rw [if_pos hcom]
        obtain ⟨hch, hhead⟩ := hcom
        obtain ⟨r2, rfl⟩ : ∃ r2, rest = '-' :: r2 := by
          cases rest with
          | nil => simp at hhead
          | cons d r => simp at hhead; exact ⟨r, by rw [hhead]⟩
        subst hch
        obtain ⟨g1, g2, g3, -, g5⟩ := ignore_frame r2 ('-' :: '-' :: pre)
        simp only [List.tail_cons]
        obtain ⟨tok, s', ln', hcall, ⟨k, hk, hlk⟩, hline, hsound, ht, hsuf, hdone, hend, hprog⟩ :=
          ih (IStream.ignore ⟨'-' :: '-' :: pre, r2, false, false⟩ '\n') (incrLine linenum)
            (by have := g3.length_le; simp only [List.length_cons] at hlen; omega) g1
        refine ⟨tok, s', ln', hcall, ⟨k + 1, ?_, by rw [hlk]; rfl⟩, hline, hsound, ?_, ?_, ?_,
          hend, ?_⟩
        · have := g3.length_le
          show k + 1 + s'.post.length ≤ ('-' :: '-' :: r2).length
          simp only [List.length_cons]
          omega
        · rw [ht, g2, htext]; simp
        · exact hsuf.trans (g3.trans ((List.suffix_cons _ _).trans (List.suffix_cons _ _)))
        · rw [hdone, ← g5]; simp [blankOnly]
        · intro hne
          rcases hprog hne with h | h
          · left
            have := g3.length_le
            simp only [List.length_cons]
            omega
          · right
            exact h.trans (g3.trans ((List.suffix_cons _ _).trans (List.suffix_cons _ _))).isInfix
      · rw [if_neg hcom]
        by_cases hnl : ch = '\n'
        · rw [if_pos hnl]
          obtain ⟨tok, s', ln', hcall, ⟨k, hk, hlk⟩, hline, hsound, ht, hsuf, hdone, hend,
              hprog⟩ :=
            ih ⟨ch :: pre, rest, false, false⟩ (incrLine linenum) (by simp only; omega)
              (sound_good _ _)
          have hsp : isspace ch = true := by rw [hnl]; decide
          refine ⟨tok, s', ln', hcall, ⟨k + 1, ?_, by rw [hlk]; rfl⟩, hline, hsound, ?_, ?_, ?_,
            hend, ?_⟩
          · show k + 1 + s'.post.length ≤ (ch :: rest).length
            simp only [List.length_cons] at hk ⊢
            omega
          · rw [ht, htext]; simp [IStream.text]
          · exact hsuf.trans (List.suffix_cons _ _)
          · rw [hdone, blankOnly_skip ch rest hsp hcom]
          · intro hne
            rcases hprog hne with h | h
            · left; simp only [List.length_cons] at h ⊢; omega
            · right; exact h.trans (List.suffix_cons _ _).isInfix
        · rw [if_neg hnl]
          by_cases hsp : isspace ch = true
          · rw [if_pos hsp]
            obtain ⟨tok, s', ln', hcall, ⟨k, hk, hlk⟩, hline, hsound, ht, hsuf, hdone, hend,
                hprog⟩ :=
              ih ⟨ch :: pre, rest, false, false⟩ linenum (by simp only; omega)
                (sound_good _ _)
            refine ⟨tok, s', ln', hcall, ⟨k, ?_, hlk⟩, hline, hsound, ?_, ?_, ?_, hend, ?_⟩
            · show k + s'.post.length ≤ (ch :: rest).length
              simp only [List.length_cons] at hk ⊢
              omega
            · rw [ht, htext]; simp [IStream.text]
            · exact hsuf.trans (List.suffix_cons _ _)
            · rw [hdone, blankOnly_skip ch rest hsp hcom]
            · intro hne
              rcases hprog hne with h | h
              · left; simp only [List.length_cons] at h ⊢; omega
              · right; exact h.trans (List.suffix_cons _ _).isInfix
          · rw [if_neg hsp]
            have hsp' : isspace ch = false := by simpa using hsp
            obtain ⟨tok, s', hscan, hline, hk, hsound, ht, hstrict, hle⟩ :=
              scanToken_frame uninit ch pre rest linenum
            refine ⟨tok, s', linenum, ?_, ⟨0, by simpa using hle, rfl⟩, hline, hsound, ?_, ?_, ?_,
              fun h => absurd h hk, ?_⟩
            · rw [hscan]; rfl
            · rw [ht, htext]
            · exact suffix_of_append_eq (by rw [← IStream.text, ht]) (by simpa using hle)
            · rw [blankOnly_token ch rest hsp' hcom]
              simp [hk]
            · intro _
              rcases hstrict with h | ⟨h1, h2⟩
              · left; simp only [List.length_cons]; omega
              · right
                cases rest with
                | nil => simp at h2
                | cons d r =>
                  have hd : d = '_' := by simpa using h2
                  subst h1 hd
                  exact ⟨[], r, by simp⟩

/-! ## Sequences of calls -/

/-- Every call of a sequence on a sound stream returns a token; the stream
stays sound and reads the same text, the line counter has been incremented `k`
times, at most once for each character that the stream has passed, and is the
line of the token, and a `DONE` token comes with the stream failed at its
end. -/
theorem nthCall_frame (uninit : Char) (n : Nat) :
    ∀ (s : IStream) (linenum : Int), s.sound = true →
      ∃ (tok : LexItem) (s' : IStream) (linenum' : Int),
        nthCall uninit n s linenum = some (tok, s', linenum') ∧
        s'.sound = true ∧ s'.text = s.text ∧
        (∃ k : Nat, k + s'.post.length ≤ s.post.length ∧
          linenum' = Nat.iterate incrLine k linenum) ∧
        tok.linenum = linenum' ∧
        (tok.token = Token.DONE → tok.lexeme = [] ∧ s'.post = [] ∧ s'.fail = true) := by
  induction n with
  | zero =>
    intro s linenum hs
    obtain ⟨tok, s', ln', hcall, hle, hline, hsound, ht, -, -, hend, -⟩ :=
      getNextToken_frame uninit s.post.length s linenum (Nat.le_refl _) hs
    exact ⟨tok, s', ln', hcall, hsound, ht, hle, hline, hend⟩
  | succ n ih =>
    intro s linenum hs
    obtain ⟨tok1, s1, ln1, hcall1, hsound1, ht1, ⟨k1, hk1, hl1⟩, -, -⟩ := ih s linenum hs
    obtain ⟨tok, s', ln', hcall, ⟨k2, hk2, hl2⟩, hline, hsound, ht, -, -, hend, -⟩ :=
      getNextToken_frame uninit s1.post.length s1 ln1 (Nat.le_refl _) hsound1
    refine ⟨tok, s', ln', ?_, hsound, ht.trans ht1, ⟨k2 + k1, by omega, ?_⟩, hline, hend⟩
    · rw [nthCall, hcall1]
      exact hcall
    · rw [hl2, hl1, Function.iterate_add_apply]

/-! ## C13: `DONE` exactly at exhaustion -/

/-- C13: on a sound stream (every stream that the calls on an input reach is
one) `getNextToken` returns `DONE`, with empty lexeme, if and only if the
remaining input consists solely of white space and `--` comments; the stream
afterwards reads the same text and is sound again; and whenever a call of a
sequence returns `DONE`, the stream is at its end and the characters consumed
are exactly the whole text of the stream. -/
theorem done_at_exhaustion (uninit : Char) (s : IStream) (linenum : Int)
    (hs : s.sound = true) :
    (∃ (tok : LexItem) (s' : IStream) (linenum' : Int),
      getNextToken uninit s linenum = some (tok, s', linenum') ∧
      s'.sound = true ∧ s'.text = s.text ∧
      (tok.token = Token.DONE ↔ blankOnly false s.post = true) ∧
      (tok.token = Token.DONE → tok.lexeme = [])) ∧
    (∀ n : Nat, ∃ (tok : LexItem) (s' : IStream) (linenum' : Int),
      nthCall uninit n s linenum = some (tok, s', linenum') ∧
      (tok.token = Token.DONE → s'.post = [] ∧ s'.pre.reverse = s.text)) := by
  constructor
  · obtain ⟨tok, s', ln', hcall, -, -, hsound, ht, -, hdone, hend, -⟩ :=
      getNextToken_frame uninit s.post.length s linenum (Nat.le_refl _) hs
    exact ⟨tok, s', ln', hcall, hsound, ht, hdone, fun h => (hend h).1⟩
  · intro n
    obtain ⟨tok, s', ln', hcall, -, ht, -, -, hend⟩ := nthCall_frame uninit n s linenum hs
    refine ⟨tok, s', ln', hcall, fun h => ⟨(hend h).2.1, ?_⟩⟩
    rw [← ht, IStream.text, (hend h).2.1, List.append_nil]

theorem done_at_exhaustion_witness :
    (IStream.ofList " \n-- c\n\t --".data).sound = true ∧
    (∃ (tok : LexItem) (s' : IStream) (linenum' : Int),
      getNextToken 'x' (IStream.ofList " \n-- c\n\t --".data) 1 = some (tok, s', linenum') ∧
      s'.sound = true ∧ s'.text = (IStream.ofList " \n-- c\n\t --".data).text ∧
      (tok.token = Token.DONE ↔ blankOnly false (IStream.ofList " \n-- c\n\t --".data).post = true) ∧
      (tok.token = Token.DONE → tok.lexeme = [])) ∧
    (∀ n : Nat, ∃ (tok : LexItem) (s' : IStream) (linenum' : Int),
      nthCall 'x' n (IStream.ofList " \n-- c\n\t --".data) 1 = some (tok, s', linenum') ∧
      (tok.token = Token.DONE →
        s'.post = [] ∧ s'.pre.reverse = (IStream.ofList " \n-- c\n\t --".data).text)) :=
  ⟨by decide, done_at_exhaustion 'x' (IStream.ofList " \n-- c\n\t --".data) 1 (by decide)⟩

/-! ## C14: `DONE` is terminal -/

/-- C14: when call number `n` of a sequence on a sound stream returns `DONE`,
every later call returns the same `DONE` token (same line) and leaves the
stream and the line counter as they were. -/
theorem done_terminal (uninit : Char) (s : IStream) (linenum : Int) (n k : Nat)
    (tok : LexItem) (s' : IStream) (linenum' : Int) (hs : s.sound = true)
    (hcall : nthCall uninit n s linenum = some (tok, s', linenum'))
    (hdone : tok.token = Token.DONE) :
    nthCall uninit (n + 1 + k) s linenum = some (tok, s', linenum') ∧
    tok = ⟨Token.DONE, [], linenum'⟩ := by
  obtain ⟨tok0, s0, ln0, hcall0, -, -, -, hline, hend⟩ := nthCall_frame uninit n s linenum hs
  rw [hcall] at hcall0
  simp only [Option.some.injEq, Prod.mk.injEq] at hcall0
  obtain ⟨rfl, rfl, rfl⟩ := hcall0
  obtain ⟨hlex, -, hfail⟩ := hend hdone
  have htok : tok = ⟨Token.DONE, [], linenum'⟩ := by
    obtain ⟨t, l, m⟩ := tok
    simp only at hdone hlex hline
    rw [hdone, hlex, hline]
  have hnext : getNextToken uninit s' linenum' = some (tok, s', linenum') := by
    obtain ⟨pre, post, e, f⟩ := s'
    simp only at hfail
    subst hfail
    rw [htok]
    exact getNextToken_failed uninit pre post e linenum'
  refine ⟨?_, htok⟩
  induction k with
  | zero => rw [Nat.add_zero, nthCall, hcall]; exact hnext
  | succ k ih => rw [← Nat.add_assoc, nthCall, ih]; exact hnext

theorem done_terminal_witness :
    ((IStream.ofList "x".data).sound = true ∧
      nthCall 'x' 1 (IStream.ofList "x".data) 1 =
        some (⟨Token.DONE, [], 1⟩, ⟨['x'], [], false, true⟩, 1) ∧
      (⟨Token.DONE, [], 1⟩ : LexItem).token = Token.DONE) ∧
    nthCall 'x' (1 + 1 + 3) (IStream.ofList "x".data) 1 =
      some (⟨Token.DONE, [], 1⟩, ⟨['x'], [], false, true⟩, 1) ∧
    (⟨Token.DONE, [], 1⟩ : LexItem) = ⟨Token.DONE, [], 1⟩ :=
  ⟨⟨by decide, by decide, rfl⟩,
    done_terminal 'x' (IStream.ofList "x".data) 1 1 3 ⟨Token.DONE, [], 1⟩
      ⟨['x'], [], false, true⟩ 1 (by decide) (by decide) rfl⟩

/-! ## C20: line monotonicity -/

/-- C12 (the code at the failing inputs): on the input `"a` newline `x`, started
at line 1, the first call returns `ERR` and consumes the newline while the line
counter stays 1, so the second call returns `IDENT "x"` with line 1 although
`x` stands on line 2; and on the input `x --c`, which has no newline at all,
the second call returns `DONE` with the line counter raised to 2. -/
theorem line_counter_miscounts (uninit : Char) :
    getNextToken uninit (IStream.ofList ['"', 'a', '\n', 'x']) 1 =
      some (⟨Token.ERR, " Invalid string constant \"a".data, 1⟩,
        ⟨['\n', 'a', '"'], ['x'], false, false⟩, 1) ∧
    getNextToken uninit ⟨['\n', 'a', '"'], ['x'], false, false⟩ 1 =
      some (⟨Token.IDENT, ['x'], 1⟩, ⟨['x', '\n', 'a', '"'], [], false, true⟩, 1) ∧
    getNextToken uninit (IStream.ofList "x --c".data) 1 =
      some (⟨Token.IDENT, ['x'], 1⟩, ⟨['x'], " --c".data, false, false⟩, 1) ∧
    getNextToken uninit ⟨['x'], " --c".data, false, false⟩ 1 =
      some (⟨Token.DONE, [], 2⟩, ⟨"x --c".data.reverse, [], true, true⟩, 2) :=
  ⟨rfl, rfl, rfl, rfl⟩

/-! ## C15: an `ERR` that consumes nothing -/

/-- C15 (the code at the failing input): on the input `__` every call of the
sequence returns `ERR "_"` and leaves the stream exactly where it was, with
both underscores still to be read. -/
theorem err_without_progress (uninit : Char) (n : Nat) :
    nthCall uninit n (IStream.ofList ['_', '_']) 1 =
      some (⟨Token.ERR, ['_'], 1⟩, IStream.ofList ['_', '_'], 1) := by
  induction n with
  | zero => rfl
  | succ n ih => rw [nthCall, ih]; rfl

/-! ## C16: consecutive underscores -/

/-- C16 (the code at the failing input): on the input `a__b` the first call
returns `IDENT "a_"` but leaves the stream at `__b` (both underscores are put
back), and every later call returns `ERR "_"` and leaves the stream at `__b`;
`ERR "_b"` and `DONE` are never returned. -/
theorem double_underscore_put_back (uninit : Char) (n : Nat) :
    nthCall uninit 0 (IStream.ofList "a__b".data) 1 =
      some (⟨Token.IDENT, "a_".data, 1⟩, ⟨['a'], "__b".data, false, false⟩, 1) ∧
    nthCall uninit (n + 1) (IStream.ofList "a__b".data) 1 =
      some (⟨Token.ERR, "_".data, 1⟩, ⟨['a'], "__b".data, false, false⟩, 1) := by
  refine ⟨rfl, ?_⟩
  induction n with
  | zero => rfl
  | succ n ih => rw [nthCall, ih]; rfl

/-! ## C18: rendering of the kinds that are not keywords -/

/-- C18: for every lexeme `L` and line `n`, `operator<<` writes
`ERR: In line n, Error Message {L}` for `ERR`, `ICONST: (L)`, `FCONST: (L)`,
`BCONST: (L)`, `SCONST: "L"`, `CCONST: 'L'` and `IDENT: <L>` for those kinds,
and for each operator or punctuation kind the mnemonic that is the name of the
kind, each followed by exactly one line break. -/
theorem render_formats (code : Token → Int) (L : List Char) (n : Int) :
    render code ⟨Token.ERR, L, n⟩ =
      "ERR: In line ".data ++ showInt n ++ ", Error Message \x7b".data ++ L ++ "\x7d".data ++
        ['\n'] ∧
    render code ⟨Token.ICONST, L, n⟩ = "ICONST: (".data ++ L ++ ")".data ++ ['\n'] ∧
    render code ⟨Token.FCONST, L, n⟩ = "FCONST: (".data ++ L ++ ")".data ++ ['\n'] ∧
    render code ⟨Token.BCONST, L, n⟩ = "BCONST: (".data ++ L ++ ")".data ++ ['\n'] ∧
    render code ⟨Token.SCONST, L, n⟩ = "SCONST: \"".data ++ L ++ "\"".data ++ ['\n'] ∧
    render code ⟨Token.CCONST, L, n⟩ = "CCONST: '".data ++ L ++ "'".data ++ ['\n'] ∧
    render code ⟨Token.IDENT, L, n⟩ = "IDENT: <".data ++ L ++ ">".data ++ ['\n'] ∧
    (∀ p ∈ specMnemonics, render code ⟨p.1, L, n⟩ = p.2 ++ ['\n']) ∧
    showInt 12 = "12".data := by
  refine ⟨rfl, rfl, rfl, rfl, rfl, rfl, rfl, ?_, rfl⟩
  intro p hp
  simp only [specMnemonics, List.mem_cons, List.mem_singleton, List.not_mem_nil, or_false] at hp
  rcases hp with h | h | h | h | h | h | h | h | h | h | h | h | h | h | h | h | h | h | h <;>
    (subst h; rfl)

/-! ## C19: rendering of the keyword kinds -/

/-- C19 (the code at the failing input): a token of kind `PUTLN`, whatever its
lexeme and line, is written as `PUTLINE` and a line break, because the entry
`PUTLINE` comes before `PUTLN` in the key order of the table; that is also what
is written for the tokens that scanning `PutLine` and `putln` returns. A token
of kind `CONST` is written as `CONST`. -/
theorem render_PUTLN (code : Token → Int) (uninit : Char) (L : List Char) (n : Int) :
    render code ⟨Token.PUTLN, L, n⟩ = "PUTLINE".data ++ ['\n'] ∧
    render code ⟨Token.CONST, L, n⟩ = "CONST".data ++ ['\n'] ∧
    (getNextToken uninit (IStream.ofList "PutLine".data) 1).map (fun r => render code r.1) =
      some ("PUTLINE".data ++ ['\n']) ∧
    (getNextToken uninit (IStream.ofList "putln".data) 1).map (fun r => render code r.1) =
      some ("PUTLINE".data ++ ['\n']) :=
  ⟨rfl, rfl, rfl, rfl⟩

/-! ## Where the token of a call starts -/

/-- The two outcomes of `in.ignore` up to a newline on a good stream: the
newline is found and everything through it is gone, or the end is reached. -/
theorem ignore_cases (post : List Char) :
    ∀ pre : List Char,
      (∃ t r : List Char, post = t ++ '\n' :: r ∧ (∀ x ∈ t, x ≠ '\n') ∧
        IStream.ignore ⟨pre, post, false, false⟩ '\n' =
          ⟨'\n' :: (t.reverse ++ pre), r, false, false⟩) ∨
      (IStream.ignore ⟨pre, post, false, false⟩ '\n').post = [] := by
  induction post with
  | nil =>
    intro pre
    right
    simp [IStream.ignore, IStream.good, IStream.dropThrough]
  | cons c rest ih =>
    intro pre
    have hstep : IStream.ignore ⟨pre, c :: rest, false, false⟩ '\n' =
        if c = '\n' then ⟨c :: pre, rest, false, false⟩
        else IStream.ignore ⟨c :: pre, rest, false, false⟩ '\n' := by
      simp only [IStream.ignore, IStream.good, Bool.not_false, Bool.and_self, if_true,
        IStream.dropThrough, beq_iff_eq]
      split_ifs <;> rfl
    rw [hstep]
    by_cases hc : c = '\n'
    · left
      subst hc
      exact ⟨[], rest, rfl, by simp, by simp⟩
    · rw [if_neg hc]
      rcases ih (c :: pre) with ⟨t, r, hpost, ht, hign⟩ | hend
      · left
        refine ⟨c :: t, r, by rw [hpost]; rfl, ?_, by rw [hign]; simp⟩
        intro x hx
        rcases List.mem_cons.mp hx with rfl | h
        · exact hc
        · exact ht x h
      · right; exact hend

theorem closedBlank_comment (t : List Char) (ht : ∀ x ∈ t, x ≠ '\n') (rest : List Char) :
    closedBlank true (t ++ '\n' :: rest) = closedBlank false rest := by
  induction t with
  | nil => simp [closedBlank]
  | cons x t ih =>
    have hx : (x != '\n') = true := by simpa using ht x (List.mem_cons_self _ _)
    rw [List.cons_append, closedBlank, hx]
    exact ih (fun y hy => ht y (List.mem_cons_of_mem _ hy))

theorem closedBlank_skip (c : Char) (rest : List Char) (hc : isspace c = true) :
    closedBlank false (c :: rest) = closedBlank false rest := by
  have hm : (c == '-') = false := by
    by_cases h : c = '-'
    · subst h; exact absurd hc (by decide)
    · simpa using h
  cases rest with
  | nil => simp [closedBlank, hc]
  | cons d r => simp only [closedBlank, hm, Bool.false_and, Bool.false_eq_true, if_false, hc,
      Bool.true_and]

/-- Where the token of a call starts: when a call on a sound stream returns a
token other than `DONE`, the remaining text of the stream is white space and
complete comments (`skipped`), then the character `ch` that starts the token;
the line counter has been incremented once for each newline in `skipped`, and
the token and the stream afterwards are those of the token scan started at
`ch`. -/
theorem getNextToken_token_start (uninit : Char) (n : Nat) :
    ∀ (s : IStream) (linenum : Int), s.post.length ≤ n → s.sound = true →
      ∀ (tok : LexItem) (s' : IStream) (linenum' : Int),
        getNextToken uninit s linenum = some (tok, s', linenum') → tok.token ≠ Token.DONE →
        ∃ (skipped : List Char) (ch : Char) (rest : List Char),
          s.post = skipped ++ ch :: rest ∧ closedBlank false skipped = true ∧
          isspace ch = false ∧ ¬ (ch = '-' ∧ rest.head? = some '-') ∧
          linenum' = Nat.iterate incrLine (skipped.count '\n') linenum ∧
          scanToken uninit ch
            ⟨ch :: (skipped.reverse ++ s.pre), rest, ch == '-' && rest.isEmpty, false⟩ linenum' =
            some (tok, s') := by
  induction n with
  | zero =>
    intro s linenum hlen hs tok s' linenum' hcall hne
    exfalso
    rcases get_cases s with ⟨s1, hget, -⟩ | ⟨ch, rest, hsform, -⟩
    · rw [getNextToken, getNextTokenLoop] at hcall
      simp only [hget, Option.some.injEq, Prod.mk.injEq] at hcall
      exact hne (by rw [← hcall.1])
    · have hpost : s.post = ch :: rest := by rw [hsform]
      rw [hpost] at hlen
      simp at hlen
  | succ m ih =>
    intro s linenum hlen hs tok s' linenum' hcall hne
    rcases get_cases s with ⟨s1, hget, -⟩ | ⟨ch, rest, hsform, -⟩
    · exfalso
      rw [getNextToken, getNextTokenLoop] at hcall
      simp only [hget, Option.some.injEq, Prod.mk.injEq] at hcall
      exact hne (by rw [← hcall.1])
    · obtain ⟨pre, post, e, f⟩ := s
      simp only [IStream.mk.injEq, true_and] at hsform
      obtain ⟨rfl, rfl, rfl⟩ := hsform
      simp only [List.length_cons] at hlen
      rw [getNextToken_step] at hcall
      simp only
      by_cases hcom : ch = '-' ∧ rest.head? = some '-'
      · rw [if_pos hcom] at hcall
        obtain ⟨hch, hhead⟩ := hcom
        obtain ⟨r2, rfl⟩ : ∃ r2, rest = '-' :: r2 := by
          cases rest with
          | nil => simp at hhead
          | cons d r => simp at hhead; exact ⟨r, by rw [hhead]⟩
        subst hch
        simp only [List.tail_cons] at hcall
        rcases ignore_cases r2 ('-' :: '-' :: pre) with ⟨t, r3, hr2, ht, hign⟩ | hend
        · rw [hign] at hcall
          obtain ⟨skipped, ch, rest, hpost, hblank, hsp, hcom', hline, hscan⟩ :=
            ih ⟨'\n' :: (t.reverse ++ '-' :: '-' :: pre), r3, false, false⟩ (incrLine linenum)
              (by
                simp only
                have : r2.length = t.length + (r3.length + 1) := by rw [hr2]; simp
                simp only [List.length_cons] at hlen
                omega)
              (sound_good _ _) tok s' linenum' hcall hne
          simp only at hpost hscan
          refine ⟨'-' :: '-' :: (t ++ '\n' :: skipped), ch, rest, ?_, ?_, hsp, hcom', ?_, ?_⟩
          · rw [hr2, hpost]; simp
          · simp only [closedBlank, beq_self_eq_true, Bool.and_self, if_true]
            rw [closedBlank_comment t ht]
            exact hblank
          · have hcount : ('-' :: '-' :: (t ++ '\n' :: skipped)).count '\n' =
                skipped.count '\n' + 1 := by
              have h0 : t.count '\n' = 0 :=
                List.count_eq_zero.mpr (fun h => ht '\n' h rfl)
              simp [List.count_cons, List.count_append, h0]
            rw [hline, hcount]
            rfl
          · have hpre : ('-' :: '-' :: (t ++ '\n' :: skipped)).reverse ++ pre =
                skipped.reverse ++ '\n' :: (t.reverse ++ '-' :: '-' :: pre) := by simp
            rw [hpre]
            exact hscan
        · exfalso
          have hg := ignore_frame r2 ('-' :: '-' :: pre)
          obtain ⟨tok0, s0, ln0, hcall0, -, -, -, -, -, hdone, -, -⟩ :=
            getNextToken_frame uninit 0 (IStream.ignore ⟨'-' :: '-' :: pre, r2, false, false⟩ '\n')
              (incrLine linenum) (by rw [hend]; simp) hg.1
          rw [hcall] at hcall0
          simp only [Option.some.injEq, Prod.mk.injEq] at hcall0
          obtain ⟨rfl, -, -⟩ := hcall0
          exact hne (hdone.mpr (by rw [hend]; rfl))
      · rw [if_neg hcom] at hcall
        by_cases hnl : ch = '\n'
        · rw [if_pos hnl] at hcall
          obtain ⟨skipped, ch2, rest2, hpost, hblank, hsp, hcom', hline, hscan⟩ :=
            ih ⟨ch :: pre, rest, false, false⟩ (incrLine linenum) (by simp only; omega)
              (sound_good _ _) tok s' linenum' hcall hne
          simp only at hpost hscan
          have hspc : isspace ch = true := by rw [hnl]; decide
          refine ⟨ch :: skipped, ch2, rest2, by rw [hpost]; rfl, ?_, hsp, hcom', ?_, ?_⟩
          · rw [closedBlank_skip ch skipped hspc]; exact hblank
          · rw [hline, hnl, List.count_cons_self]
            rfl
          · simpa using hscan
        · rw [if_neg hnl] at hcall
          by_cases hspc : isspace ch = true
          · rw [if_pos hspc] at hcall
            obtain ⟨skipped, ch2, rest2, hpost, hblank, hsp, hcom', hline, hscan⟩ :=
              ih ⟨ch :: pre, rest, false, false⟩ linenum (by simp only; omega)
                (sound_good _ _) tok s' linenum' hcall hne
            simp only at hpost hscan
            refine ⟨ch :: skipped, ch2, rest2, by rw [hpost]; rfl, ?_, hsp, hcom', ?_, ?_⟩
            · rw [closedBlank_skip ch skipped hspc]; exact hblank
            · have : (ch :: skipped).count '\n' = skipped.count '\n' := by
                rw [List.count_cons_of_ne (Ne.symm hnl)]
              rw [hline, this]
            · simpa using hscan
          · rw [if_neg hspc] at hcall
            have hspc' : isspace ch = false := by simpa using hspc
            cases hscan : scanToken uninit ch
                ⟨ch :: pre, rest, ch == '-' && rest.isEmpty, false⟩ linenum with
            | none => rw [hscan] at hcall; simp at hcall
            | some r =>
              rw [hscan] at hcall
              simp only [Option.map_some', Option.some.injEq, Prod.mk.injEq] at hcall
              obtain ⟨h1, h2, h3⟩ := hcall
              refine ⟨[], ch, rest, rfl, rfl, hspc', hcom, by rw [← h3]; rfl, ?_⟩
              rw [← h3]
              simp only [List.reverse_nil, List.nil_append]
              rw [hscan, ← h1, ← h2]

/-! ## The shape of identifier lexemes -/

theorem identChar_ne_newline {c : Char} (h : (isalnum c || c == '_') = true) : c ≠ '\n' := by
  rintro rfl
  revert h
  decide

/-- What `identRun` says in terms of the characters of the text. -/
theorem identRun_chars (l : List Char) :
    ∀ prev : Bool, identRun prev l = true →
      (∀ x ∈ l, isalnum x = true ∨ x = '_') ∧ ¬ ['_', '_'] <:+: l ∧
      (prev = true → l.head? ≠ some '_') := by
  induction l with
  | nil =>
    intro prev _
    refine ⟨by simp, ?_, by simp⟩
    intro h
    have := h.length_le
    simp at this
  | cons c rest ih =>
    intro prev h
    simp only [identRun, Bool.and_eq_true, Bool.or_eq_true, beq_iff_eq, Bool.not_eq_true',
      Bool.and_eq_false_iff, beq_eq_false_iff_ne, ne_eq] at h
    obtain ⟨⟨hc, hp⟩, hrest⟩ := h
    obtain ⟨h1, h2, h3⟩ := ih (c == '_') hrest
    refine ⟨?_, ?_, ?_⟩
    · intro x hx
      rcases List.mem_cons.mp hx with rfl | hx
      · exact hc
      · exact h1 x hx
    · intro hin
      rcases List.infix_cons_iff.mp hin with hpre | hin
      · obtain ⟨t, ht⟩ := hpre
        simp only [List.cons_append, List.nil_append, List.cons.injEq] at ht
        obtain ⟨hc', hr⟩ := ht
        exact h3 (by simp [← hc']) (by rw [← hr]; rfl)
      · exact h2 hin
    · intro hprev hhead
      simp only [List.head?_cons, Option.some.injEq] at hhead
      rcases hp with hp | hp
      · rw [hprev] at hp; exact Bool.noConfusion hp
      · exact hp hhead

/-- The identifier loop followed by the `putback` after it, on the stream left
by reading a first character `ch` that is not a newline: whenever it returns,
the lexeme has been extended by a run of identifier characters in which no
underscore follows an underscore, and the stream has passed no newline. -/
theorem identLoop_shape (fuel : Nat) :
    ∀ (pre rest : List Char) (ch : Char) (lexeme : List Char) (s1 : IStream) (ch1 : Char)
      (lexeme1 : List Char), ch ≠ '\n' →
      identLoop fuel ⟨ch :: pre, rest, false, false⟩ ch (ch == '_') lexeme =
        some (s1, ch1, lexeme1) →
      (∃ ext : List Char, lexeme1 = lexeme ++ ext ∧ identRun (ch == '_') ext = true) ∧
      (s1.putback ch1).pre.count '\n' = pre.count '\n' := by
  induction fuel with
  | zero =>
    intro pre rest ch lexeme s1 ch1 lexeme1 _ h
    simp [identLoop] at h
  | succ n ih =>
    intro pre rest ch lexeme s1 ch1 lexeme1 hch h
    have hcount : (ch :: pre).count '\n' = pre.count '\n' :=
      List.count_cons_of_ne (Ne.symm hch) pre
    cases rest with
    | nil =>
      rw [identLoop] at h
      simp only [get_good_nil, Option.some.injEq, Prod.mk.injEq] at h
      obtain ⟨rfl, rfl, rfl⟩ := h
      refine ⟨⟨[], by simp, rfl⟩, ?_⟩
      simp only [IStream.putback, if_true]
      exact hcount
    | cons c r =>
      rw [identLoop] at h
      simp only [get_good_cons] at h
      by_cases hc : (isalnum c || c == '_') = true
      · simp only [hc, if_true] at h
        by_cases hb : ((ch == '_') && c == '_') = true
        · simp only [hb, if_true, Option.some.injEq, Prod.mk.injEq] at h
          obtain ⟨rfl, rfl, rfl⟩ := h
          refine ⟨⟨[], by simp, rfl⟩, ?_⟩
          simp [IStream.putback]
        · simp only [hb, Bool.false_eq_true, if_false] at h
          obtain ⟨⟨ext, hext, hrun⟩, hpre⟩ :=
            ih (ch :: pre) r c (lexeme ++ [c]) s1 ch1 lexeme1 (identChar_ne_newline hc) h
          refine ⟨⟨c :: ext, by rw [hext]; simp, ?_⟩, by rw [hpre, hcount]⟩
          have hb' : ((ch == '_') && c == '_') = false := by simpa using hb
          simp only [identRun, hc, hb', hrun, Bool.not_false, Bool.and_self]
      · simp only [hc, Bool.false_eq_true, if_false, Option.some.injEq, Prod.mk.injEq] at h
        obtain ⟨rfl, rfl, rfl⟩ := h
        refine ⟨⟨[], by simp, rfl⟩, ?_⟩
        simp only [IStream.putback, Bool.false_eq_true, if_false]
        exact hcount

/-- The identifier path on the stream left by reading its first character, a
letter or an underscore: a token other than `ERR` is the classification by
`id_or_kw` of a lexeme of the identifier shape, and no newline was passed. -/
theorem scanIdent_shape (ch : Char) (pre rest : List Char) (linenum : Int) (tok : LexItem)
    (s' : IStream) (hch : (isalpha ch || ch == '_') = true)
    (h : scanIdent ch ⟨ch :: pre, rest, false, false⟩ linenum = some (tok, s')) :
    s'.pre.count '\n' = pre.count '\n' ∧
    (tok.token ≠ Token.ERR → tok = id_or_kw tok.lexeme linenum ∧ identifierShape tok.lexeme) := by
  have hnl : ch ≠ '\n' := by
    rintro rfl
    revert hch
    decide
  unfold scanIdent at h
  cases hloop : identLoop (rest.length + 1) ⟨ch :: pre, rest, false, false⟩ ch (ch == '_') [ch] with
  | none => simp [hloop] at h
  | some r =>
    obtain ⟨s1, ch1, lexeme1⟩ := r
    obtain ⟨⟨ext, hext, hrun⟩, hpre⟩ :=
      identLoop_shape _ pre rest ch [ch] s1 ch1 lexeme1 hnl hloop
    simp only [hloop] at h
    subst hext
    simp only [List.singleton_append, List.head?_cons, Option.some.injEq] at h
    by_cases hu : ch = '_'
    · simp only [hu, if_true, Option.some.injEq, Prod.mk.injEq] at h
      obtain ⟨rfl, rfl⟩ := h
      exact ⟨hpre, fun hne => absurd rfl hne⟩
    · simp only [hu, if_false, Option.some.injEq, Prod.mk.injEq] at h
      obtain ⟨rfl, rfl⟩ := h
      refine ⟨hpre, fun _ => ?_⟩
      have hlex : (id_or_kw (ch :: ext) linenum).lexeme = ch :: ext := by
        unfold id_or_kw
        simp only
        split_ifs
        · rfl
        · cases keywordsFind ((ch :: ext).map toupper) with
          | none => rfl
          | some kind => simp only; split_ifs <;> rfl
      rw [hlex]
      refine ⟨rfl, ?_⟩
      have halpha : isalpha ch = true := by
        simp only [Bool.or_eq_true, beq_iff_eq] at hch
        rcases hch with h | h
        · exact h
        · exact absurd h hu
      have hrun' : identRun false (ch :: ext) = true := by
        simp only [identRun, isalnum, halpha, Bool.true_or, Bool.false_and, Bool.not_false,
          Bool.true_and, hrun]
      obtain ⟨h1, h2, -⟩ := identRun_chars (ch :: ext) false hrun'
      refine ⟨by simp, ?_, h1, h2⟩
      intro c hc
      simp only [List.head?_cons, Option.mem_def, Option.some.injEq] at hc
      rw [← hc]
      exact halpha

/-- An `IDENT` from `id_or_kw`: the fold of the lexeme is not `CONSTANT` and
is not found in the keyword table. -/
theorem id_or_kw_IDENT (lexeme : List Char) (linenum : Int)
    (h : (id_or_kw lexeme linenum).token = Token.IDENT) :
    lexeme.map toupper ≠ "CONSTANT".data ∧ keywordsFind (lexeme.map toupper) = none := by
  unfold id_or_kw at h
  simp only at h
  split_ifs at h with hc
  refine ⟨hc, ?_⟩
  cases hk : keywordsFind (lexeme.map toupper) with
  | none => rfl
  | some kind =>
    exfalso
    rw [hk] at h
    simp only at h
    have hm := lookup_some_mem _ _ _ hk
    split_ifs at h
    simp only at h
    subst h
    simp [keywords] at hm

/-! ## Newlines passed by the numeric, string and character paths -/

theorem count_newline_cons {c : Char} (h : c ≠ '\n') (l : List Char) :
    (c :: l).count '\n' = l.count '\n' :=
  List.count_cons_of_ne (Ne.symm h) l

/-- One turn of the numeric loop passes no newline: whether it leaves or goes
on, the stream stands behind as many newlines as before the character `ch` of
the turn was read. -/
theorem numberBody_newline (ch : Char) (pre rest lexeme : List Char) (hasDot hasExponent : Bool)
    (linenum : Int) :
    (∃ r : LexItem × IStream,
      numberBody ch ⟨ch :: pre, rest, false, false⟩ lexeme hasDot hasExponent linenum = .leave r ∧
      r.2.pre.count '\n' = pre.count '\n') ∨
    (∃ (s2 : IStream) (lexeme2 : List Char) (hasDot2 hasExponent2 : Bool),
      numberBody ch ⟨ch :: pre, rest, false, false⟩ lexeme hasDot hasExponent linenum =
        .next s2 lexeme2 hasDot2 hasExponent2 ∧
      s2.pre.count '\n' = pre.count '\n') := by
  by_cases hdig : isdigit ch = true
  · right
    have hnl : ch ≠ '\n' := isdigit_ne hdig (by decide)
    exact ⟨_, _, _, _, numberBody_digit ch _ lexeme hasDot hasExponent linenum hdig,
      count_newline_cons hnl pre⟩
  have hdig : isdigit ch = false := by simpa using hdig
  by_cases hdot : ch = '.'
  · subst hdot
    have hnl : '.' ≠ '\n' := by decide
    by_cases hr : rest.head? = some '.'
    · left
      obtain ⟨r, rfl⟩ : ∃ r, rest = '.' :: r := by
        cases rest with
        | nil => simp at hr
        | cons x r => simp at hr; exact ⟨r, by rw [hr]⟩
      exact ⟨_, numberBody_dotdot pre r lexeme hasDot hasExponent linenum, rfl⟩
    · rw [numberBody_dot pre rest lexeme hasDot hasExponent linenum hr]
      cases hasDot with
      | true => left; exact ⟨_, rfl, count_newline_cons hnl pre⟩
      | false =>
        cases hasExponent with
        | true => left; exact ⟨_, rfl, rfl⟩
        | false => right; exact ⟨_, _, _, _, rfl, count_newline_cons hnl pre⟩
  by_cases hexp : (ch = 'E' ∨ ch = 'e') ∧ hasExponent = false
  · obtain ⟨he, hfalse⟩ := hexp
    subst hfalse
    have hnl : ch ≠ '\n' := by rcases he with rfl | rfl <;> decide
    by_cases hf : exponentFollows rest = true
    · right
      rcases exponentFollows_true hf with ⟨x, r, rfl, hx⟩ | ⟨x, y, r, rfl, hs, hy⟩
      · exact ⟨_, _, _, _, numberBody_exp_digit ch x pre r lexeme hasDot linenum he hx,
          count_newline_cons hnl pre⟩
      · have hxn : x ≠ '\n' := by rcases hs with rfl | rfl <;> decide
        refine ⟨_, _, _, _, numberBody_exp_sign ch x y pre r lexeme hasDot linenum he hs hy, ?_⟩
        simp only
        rw [count_newline_cons hxn, count_newline_cons hnl]
    · left
      exact ⟨_, numberBody_exp_invalid ch pre rest lexeme hasDot linenum he (by simpa using hf),
        rfl⟩
  · left
    refine ⟨_, numberBody_stop ch _ lexeme hasDot hasExponent linenum hdot hdig ?_, ?_⟩
    · by_cases h : hasExponent = true
      · exact Or.inr h
      · left
        constructor
        · intro hE; exact hexp ⟨Or.inl hE, by simpa using h⟩
        · intro hE; exact hexp ⟨Or.inr hE, by simpa using h⟩
    · rw [putback_good]

/-- The numeric loop passes no newline. -/
theorem numberLoop_newline (fuel : Nat) :
    ∀ (s : IStream) (lexeme : List Char) (hasDot hasExponent : Bool) (linenum : Int)
      (tok : LexItem) (s' : IStream),
      numberLoop fuel s lexeme hasDot hasExponent linenum = some (tok, s') →
      s'.pre.count '\n' = s.pre.count '\n' := by
  induction fuel with
  | zero =>
    intro s lexeme hasDot hasExponent linenum tok s' h
    simp [numberLoop] at h
  | succ n ih =>
    intro s lexeme hasDot hasExponent linenum tok s' h
    rw [numberLoop] at h
    rcases get_cases s with ⟨s1, hget, hpre, -, -⟩ | ⟨ch, rest, hsform, hget⟩
    · simp only [hget, Option.some.injEq, Prod.mk.injEq] at h
      rw [← h.2, hpre]
    · simp only [hget] at h
      rcases numberBody_newline ch s.pre rest lexeme hasDot hasExponent linenum with
        ⟨r, hbody, hcount⟩ | ⟨s2, lexeme2, hasDot2, hasExponent2, hbody, hcount⟩
      · simp only [hbody, Option.some.injEq] at h
        rw [h] at hcount
        exact hcount
      · simp only [hbody] at h
        rw [ih s2 lexeme2 hasDot2 hasExponent2 linenum tok s' h, hcount]

/-- The string loop that returns `SCONST` has passed no newline. -/
theorem stringLoop_newline (fuel : Nat) :
    ∀ (s : IStream) (lexeme : List Char) (linenum : Int) (tok : LexItem) (s' : IStream),
      stringLoop fuel s lexeme linenum = some (tok, s') → tok.token ≠ Token.ERR →
      s'.pre.count '\n' = s.pre.count '\n' := by
  induction fuel with
  | zero =>
    intro s lexeme linenum tok s' h
    simp [stringLoop] at h
  | succ n ih =>
    intro s lexeme linenum tok s' h hne
    rw [stringLoop] at h
    rcases get_cases s with ⟨s1, hget, hpre, -, -⟩ | ⟨ch, rest, hsform, hget⟩
    · simp only [hget, Option.some.injEq, Prod.mk.injEq] at h
      exact absurd (by rw [← h.1]) hne
    · simp only [hget] at h
      by_cases hq : ch = '"'
      · simp only [hq, beq_self_eq_true, if_true, Option.some.injEq, Prod.mk.injEq] at h
        rw [← h.2]
        simp only
        exact count_newline_cons (by decide) s.pre
      · have hq' : (ch == '"') = false := by simpa using hq
        simp only [hq', Bool.false_eq_true, if_false] at h
        by_cases hn : ch = '\n'
        · simp only [hn, beq_self_eq_true, if_true, Option.some.injEq, Prod.mk.injEq] at h
          exact absurd (by rw [← h.1]) hne
        · have hn' : (ch == '\n') = false := by simpa using hn
          simp only [hn', Bool.false_eq_true, if_false] at h
          rw [ih _ _ _ tok s' h hne]
          exact count_newline_cons hn s.pre

/-- The loop of the character path that is not left with a newline in `nextCh`
(nor entered with one) has passed no newline. -/
theorem charLoop_newline (fuel : Nat) :
    ∀ (s : IStream) (nextCh : Char) (errorContent : List Char) (s' : IStream) (nextCh' : Char)
      (errorContent' : List Char),
      charLoop fuel s nextCh errorContent = some (s', nextCh', errorContent') →
      nextCh' ≠ '\n' → s'.pre.count '\n' = s.pre.count '\n' := by
  induction fuel with
  | zero =>
    intro s nextCh errorContent s' nextCh' errorContent' h
    simp [charLoop] at h
  | succ n ih =>
    intro s nextCh errorContent s' nextCh' errorContent' h hne
    rw [charLoop] at h
    rcases get_cases s with ⟨s1, hget, hpre, -, -⟩ | ⟨c, rest, hsform, hget⟩
    · simp only [hget, Option.some.injEq, Prod.mk.injEq] at h
      rw [← h.1, hpre]
    · simp only [hget] at h
      by_cases hc : (c != '\'' && c != '\n') = true
      · simp only [hc, if_true] at h
        have hcn : c ≠ '\n' := by
          simp only [Bool.and_eq_true, bne_iff_ne, ne_eq] at hc
          exact hc.2
        rw [ih _ _ _ s' nextCh' errorContent' h hne]
        exact count_newline_cons hcn s.pre
      · simp only [hc, Bool.false_eq_true, if_false, Option.some.injEq, Prod.mk.injEq] at h
        obtain ⟨h1, h2, -⟩ := h
        rw [← h1]
        simp only
        exact count_newline_cons (by rw [h2]; exact hne) s.pre

/-- The character path that returns `CCONST` has passed no newline. -/
theorem scanChar_newline (uninit : Char) (s : IStream) (linenum : Int) (tok : LexItem)
    (s' : IStream) (h : scanChar uninit s linenum = some (tok, s'))
    (hne : tok.token ≠ Token.ERR) : s'.pre.count '\n' = s.pre.count '\n' := by
  unfold scanChar at h
  rcases get_cases s with ⟨s1, hget, hpre, -, -⟩ | ⟨ch, rest, hsform, hget⟩
  · simp only [hget, Option.some.injEq, Prod.mk.injEq] at h
    exact absurd (by rw [← h.1]) hne
  · simp only [hget] at h
    by_cases hn : ch = '\n'
    · simp only [hn, beq_self_eq_true, if_true, Option.some.injEq, Prod.mk.injEq] at h
      exact absurd (by rw [← h.1]) hne
    · have hn' : (ch == '\n') = false := by simpa using hn
      simp only [hn', Bool.false_eq_true, if_false] at h
      by_cases hq : ch = '\''
      · simp only [hq, beq_self_eq_true, if_true, Option.some.injEq, Prod.mk.injEq] at h
        exact absurd (by rw [← h.1]) hne
      · have hq' : (ch == '\'') = false := by simpa using hq
        simp only [hq', Bool.false_eq_true, if_false] at h
        cases hloop : charLoop (rest.length + 1) ⟨ch :: s.pre, rest, false, false⟩ uninit [ch] with
        | none => simp [hloop] at h
        | some r =>
          obtain ⟨s2, nextCh, errorContent⟩ := r
          simp only [hloop] at h
          by_cases hok : (nextCh == '\'' && errorContent.length == 1) = true
          · simp only [hok, if_true, Option.some.injEq, Prod.mk.injEq] at h
            have hnc : nextCh ≠ '\n' := by
              simp only [Bool.and_eq_true, beq_iff_eq] at hok
              rw [hok.1]
              decide
            rw [← h.2, charLoop_newline _ _ _ _ s2 nextCh errorContent hloop hnc]
            exact count_newline_cons hn s.pre
          · simp only [hok, Bool.false_eq_true, if_false] at h
            split_ifs at h <;>
              · simp only [Option.some.injEq, Prod.mk.injEq] at h
                exact absurd (by rw [← h.1]) hne

/-! ## The paths of the token scan -/

/-- The two shapes of what the `switch` returns, with what they say about
kinds and newlines: the kinds are none of `identifierKinds`, a kind shared
with a keyword comes with the spelling of the operator, and the second
character of a two-character operator is not a newline. -/
theorem scanOperator_cases (ch : Char) (s : IStream) (linenum : Int) :
    (∃ (kind : Token) (lexeme : List Char), kind ∉ identifierKinds ∧
      (sharedKind kind → operatorSpelling lexeme) ∧
      scanOperator ch s linenum = (⟨kind, lexeme, linenum⟩, s)) ∨
    (∃ (first second : Char) (both single : Token), both ∉ identifierKinds ∧
      single ∉ identifierKinds ∧ second ≠ '\n' ∧
      (sharedKind both → operatorSpelling [first, second]) ∧ ¬ sharedKind single ∧
      scanOperator ch s linenum = twoCharOp s first second both single linenum) := by
  by_cases h1 : ch = '-'
  · subst h1
    exact Or.inl ⟨Token.MINUS, ['-'], by decide, by unfold sharedKind operatorSpelling; decide,
      by simp [scanOperator]⟩
  by_cases h2 : ch = '+'
  · subst h2
    exact Or.inl ⟨Token.PLUS, ['+'], by decide, by unfold sharedKind operatorSpelling; decide,
      by simp [scanOperator]⟩
  by_cases h3 : ch = '='
  · subst h3
    exact Or.inl ⟨Token.EQ, ['='], by decide, by unfold sharedKind operatorSpelling; decide,
      by simp [scanOperator]⟩
  by_cases h4 : ch = '%'
  · subst h4
    exact Or.inl ⟨Token.MOD, ['%'], by decide, by unfold sharedKind operatorSpelling; decide,
      by simp [scanOperator]⟩
  by_cases h5 : ch = ','
  · subst h5
    exact Or.inl ⟨Token.COMMA, [','], by decide, by unfold sharedKind operatorSpelling; decide,
      by simp [scanOperator]⟩
  by_cases h6 : ch = ';'
  · subst h6
    exact Or.inl ⟨Token.SEMICOL, [';'], by decide, by unfold sharedKind operatorSpelling; decide,
      by simp [scanOperator]⟩
  by_cases h7 : ch = '('
  · subst h7
    exact Or.inl ⟨Token.LPAREN, ['('], by decide, by unfold sharedKind operatorSpelling; decide,
      by simp [scanOperator]⟩
  by_cases h8 : ch = ')'
  · subst h8
    exact Or.inl ⟨Token.RPAREN, [')'], by decide, by unfold sharedKind operatorSpelling; decide,
      by simp [scanOperator]⟩
  by_cases h9 : ch = '*'
  · subst h9
    exact Or.inr ⟨'*', '*', Token.EXP, Token.MULT, by decide, by decide, by decide,
      by unfold sharedKind operatorSpelling; decide, by unfold sharedKind; decide,
      by simp [scanOperator]⟩
  by_cases h10 : ch = '|'
  · subst h10
    exact Or.inr ⟨'|', '|', Token.OR, Token.ERR, by decide, by decide, by decide,
      by unfold sharedKind operatorSpelling; decide, by unfold sharedKind; decide,
      by simp [scanOperator]⟩
  by_cases h11 : ch = '/'
  · subst h11
    exact Or.inr ⟨'/', '=', Token.NEQ, Token.DIV, by decide, by decide, by decide,
      by unfold sharedKind operatorSpelling; decide, by unfold sharedKind; decide,
      by simp [scanOperator]⟩
  by_cases h12 : ch = '!'
  · subst h12
    exact Or.inr ⟨'!', '=', Token.NEQ, Token.ERR, by decide, by decide, by decide,
      by unfold sharedKind operatorSpelling; decide, by unfold sharedKind; decide,
      by simp [scanOperator]⟩
  by_cases h13 : ch = '>'
  · subst h13
    exact Or.inr ⟨'>', '=', Token.GTE, Token.GTHAN, by decide, by decide, by decide,
      by unfold sharedKind operatorSpelling; decide, by unfold sharedKind; decide,
      by simp [scanOperator]⟩
  by_cases h14 : ch = '<'
  · subst h14
    exact Or.inr ⟨'<', '=', Token.LTE, Token.LTHAN, by decide, by decide, by decide,
      by unfold sharedKind operatorSpelling; decide, by unfold sharedKind; decide,
      by simp [scanOperator]⟩
  by_cases h15 : ch = '&'
  · subst h15
    exact Or.inr ⟨'&', '&', Token.AND, Token.CONCAT, by decide, by decide, by decide,
      by unfold sharedKind operatorSpelling; decide, by unfold sharedKind; decide,
      by simp [scanOperator]⟩
  by_cases h16 : ch = ':'
  · subst h16
    exact Or.inr ⟨':', '=', Token.ASSOP, Token.COLON, by decide, by decide, by decide,
      by unfold sharedKind operatorSpelling; decide, by unfold sharedKind; decide,
      by simp [scanOperator]⟩
  by_cases h17 : ch = '.'
  · subst h17
    exact Or.inr ⟨'.', '.', Token.CONCAT, Token.DOT, by decide, by decide, by decide,
      by unfold sharedKind operatorSpelling; decide, by unfold sharedKind; decide,
      by simp [scanOperator]⟩
  exact Or.inl ⟨Token.ERR, [ch], by decide, fun h => absurd h (by unfold sharedKind; decide),
    by simp [scanOperator, h1, h2, h3, h4, h5, h6, h7, h8, h9, h10, h11, h12, h13, h14, h15, h16, h17]⟩

/-- Where a two-character lookahead on a good stream leaves the stream: where
it was, or behind the second character when the kind is `both`. -/
theorem twoCharOp_pre (pre rest : List Char) (first second : Char) (both single : Token)
    (linenum : Int) :
    (twoCharOp ⟨pre, rest, false, false⟩ first second both single linenum).2.pre = pre ∨
    (twoCharOp ⟨pre, rest, false, false⟩ first second both single linenum).2.pre =
      second :: pre := by
  cases rest with
  | nil => rw [twoCharOp_nil]; exact Or.inl rfl
  | cons x r =>
    rw [twoCharOp_cons]
    split_ifs with hx
    · subst hx; exact Or.inr rfl
    · exact Or.inl rfl

theorem twoCharOp_result (s : IStream) (first second : Char) (both single : Token)
    (linenum : Int) :
    (twoCharOp s first second both single linenum).1 = ⟨both, [first, second], linenum⟩ ∨
    (twoCharOp s first second both single linenum).1 = ⟨single, [first], linenum⟩ := by
  unfold twoCharOp
  simp only
  split_ifs
  · exact Or.inl rfl
  · exact Or.inr rfl

theorem literal_kind {kind : Token}
    (h : kind = Token.ICONST ∨ kind = Token.FCONST ∨ kind = Token.SCONST ∨
      kind = Token.CCONST ∨ kind = Token.ERR) :
    kind ∉ identifierKinds ∧ ¬ sharedKind kind := by
  unfold sharedKind
  rcases h with rfl | rfl | rfl | rfl | rfl <;> decide

/-- The token scan started at a character `ch` that is not white space, on
the stream left by reading `ch`: a token other than `ERR` is returned with no
newline passed; and the token comes from the identifier path, or its kind is
none of the `identifierKinds` and, when a keyword has the same kind, the
lexeme is the spelling of the operator. -/
theorem scanToken_paths (uninit ch : Char) (pre rest : List Char) (linenum : Int)
    (tok : LexItem) (s' : IStream) (hsp : isspace ch = false)
    (h : scanToken uninit ch ⟨ch :: pre, rest, ch == '-' && rest.isEmpty, false⟩ linenum =
      some (tok, s')) :
    (tok.token ≠ Token.ERR → s'.pre.count '\n' = pre.count '\n') ∧
    (((isalpha ch || ch == '_') = true ∧
        scanIdent ch ⟨ch :: pre, rest, false, false⟩ linenum = some (tok, s')) ∨
      (tok.token ∉ identifierKinds ∧ (sharedKind tok.token → operatorSpelling tok.lexeme))) := by
  have hnl : ch ≠ '\n' := isspace_newline_false hsp
  have hcount : (ch :: pre).count '\n' = pre.count '\n' := count_newline_cons hnl pre
  unfold scanToken at h
  by_cases hid : (isalpha ch || ch == '_') = true
  · have hm : (ch == '-') = false := by
      by_cases hc : ch = '-'
      · subst hc; exact absurd hid (by decide)
      · simpa using hc
    simp only [hid, if_true, hm, Bool.false_and] at h
    exact ⟨fun _ => (scanIdent_shape ch pre rest linenum tok s' hid h).1, Or.inl ⟨hid, h⟩⟩
  simp only [hid, Bool.false_eq_true, if_false] at h
  by_cases hdig : isdigit ch = true
  · have hm : (ch == '-') = false := by
      have := isdigit_ne hdig (show isdigit '-' = false by decide)
      simpa using this
    simp only [hdig, if_true, hm, Bool.false_and] at h
    constructor
    · intro _
      rw [numberLoop_newline _ _ _ _ _ _ tok s' h]
      exact hcount
    · right
      obtain ⟨tok0, s0, mid, hloop, -, -, -, -, hkind⟩ :=
        numberLoop_spec (rest.length + 1) ⟨ch :: pre, rest, false, false⟩ [ch] false false linenum
          (by simp)
      rw [h] at hloop
      simp only [Option.some.injEq, Prod.mk.injEq] at hloop
      obtain ⟨rfl, -⟩ := hloop
      have hk : tok.token = Token.ICONST ∨ tok.token = Token.FCONST ∨ tok.token = Token.SCONST ∨
          tok.token = Token.CCONST ∨ tok.token = Token.ERR := by
        rcases hkind with ⟨hk', -⟩ | ⟨hk', -⟩ | ⟨hk', -⟩
        · exact Or.inl hk'
        · exact Or.inr (Or.inl hk')
        · exact Or.inr (Or.inr (Or.inr (Or.inr hk')))
      exact ⟨(literal_kind hk).1, fun hsh => absurd hsh (literal_kind hk).2⟩
  simp only [hdig, Bool.false_eq_true, if_false] at h
  by_cases hq : ch = '"'
  · subst hq
    simp only [beq_self_eq_true, if_true] at h
    have hflag : (('"' : Char) == '-' && rest.isEmpty) = false := by
      have : (('"' : Char) == '-') = false := by decide
      rw [this]; rfl
    rw [hflag] at h
    constructor
    · intro hne
      rw [stringLoop_newline _ _ _ _ tok s' h hne]
      exact hcount
    · right
      obtain ⟨tok0, s0, hloop, -, hkind, -⟩ :=
        stringLoop_frame (rest.length + 1) ⟨'"' :: pre, rest, false, false⟩ [] linenum
          (sound_good _ _) (by simp)
      rw [h] at hloop
      simp only [Option.some.injEq, Prod.mk.injEq] at hloop
      obtain ⟨rfl, -⟩ := hloop
      have hk : tok.token = Token.ICONST ∨ tok.token = Token.FCONST ∨ tok.token = Token.SCONST ∨
          tok.token = Token.CCONST ∨ tok.token = Token.ERR := by
        rcases hkind with hk' | hk'
        · exact Or.inr (Or.inr (Or.inl hk'))
        · exact Or.inr (Or.inr (Or.inr (Or.inr hk')))
      exact ⟨(literal_kind hk).1, fun hsh => absurd hsh (literal_kind hk).2⟩
  have hq' : (ch == '"') = false := by simpa using hq
  simp only [hq', Bool.false_eq_true, if_false] at h
  by_cases ha : ch = '\''
  · subst ha
    simp only [beq_self_eq_true, if_true] at h
    have hflag : (('\'' : Char) == '-' && rest.isEmpty) = false := by
      have : (('\'' : Char) == '-') = false := by decide
      rw [this]; rfl
    rw [hflag] at h
    constructor
    · intro hne
      rw [scanChar_newline uninit _ linenum tok s' h hne]
      exact hcount
    · right
      obtain ⟨tok0, s0, hloop, -, hkind, -⟩ :=
        scanChar_frame uninit ⟨'\'' :: pre, rest, false, false⟩ linenum (sound_good _ _)
      rw [h] at hloop
      simp only [Option.some.injEq, Prod.mk.injEq] at hloop
      obtain ⟨rfl, -⟩ := hloop
      have hk : tok.token = Token.ICONST ∨ tok.token = Token.FCONST ∨ tok.token = Token.SCONST ∨
          tok.token = Token.CCONST ∨ tok.token = Token.ERR := by
        rcases hkind with hk' | hk'
        · exact Or.inr (Or.inr (Or.inr (Or.inl hk')))
        · exact Or.inr (Or.inr (Or.inr (Or.inr hk')))
      exact ⟨(literal_kind hk).1, fun hsh => absurd hsh (literal_kind hk).2⟩
  have ha' : (ch == '\'') = false := by simpa using ha
  simp only [ha', Bool.false_eq_true, if_false, Option.some.injEq] at h
  rcases scanOperator_cases ch ⟨ch :: pre, rest, ch == '-' && rest.isEmpty, false⟩ linenum with
    ⟨kind, lexeme, hk, hshk, hop⟩ | ⟨first, second, both, single, hb, hsg, hsec, hshb, hshs, hop⟩
  · rw [hop] at h
    simp only [Prod.mk.injEq] at h
    obtain ⟨rfl, rfl⟩ := h
    exact ⟨fun _ => hcount, Or.inr ⟨hk, hshk⟩⟩
  · by_cases hm : ch = '-'
    · subst hm
      have hop2 : scanOperator '-' ⟨'-' :: pre, rest, ('-' : Char) == '-' && rest.isEmpty, false⟩
          linenum = (⟨Token.MINUS, ['-'], linenum⟩,
            ⟨'-' :: pre, rest, ('-' : Char) == '-' && rest.isEmpty, false⟩) := by
        simp [scanOperator]
      rw [hop2] at h
      simp only [Prod.mk.injEq] at h
      obtain ⟨rfl, rfl⟩ := h
      refine ⟨fun _ => hcount, Or.inr ⟨by show Token.MINUS ∉ identifierKinds; decide, ?_⟩⟩
      intro hsh
      exact absurd hsh (by show ¬ sharedKind Token.MINUS; unfold sharedKind; decide)
    · have hflag : (ch == '-' && rest.isEmpty) = false := by
        have : (ch == '-') = false := by simpa using hm
        rw [this]; rfl
      rw [hflag] at hop h
      rw [hop] at h
      have hres := twoCharOp_result ⟨ch :: pre, rest, false, false⟩ first second both single linenum
      have hpre := twoCharOp_pre (ch :: pre) rest first second both single linenum
      rw [h] at hres hpre
      simp only at hres hpre
      constructor
      · intro _
        rcases hpre with hp | hp
        · rw [hp]; exact hcount
        · rw [hp, count_newline_cons hsec]; exact hcount
      · right
        rcases hres with hr | hr
        · rw [hr]; exact ⟨hb, hshb⟩
        · rw [hr]; exact ⟨hsg, fun hsh => absurd hsh hshs⟩

/-! ## The line of a token -/

/-- One call on a sound stream that returns a token other than `DONE`: where
the token starts, the line it gets, and, unless it is `ERR`, the number of
newlines that the stream has passed afterwards. -/
theorem getNextToken_line (uninit : Char) (s : IStream) (linenum : Int) (hs : s.sound = true)
    (tok : LexItem) (s' : IStream) (linenum' : Int)
    (hcall : getNextToken uninit s linenum = some (tok, s', linenum'))
    (hne : tok.token ≠ Token.DONE) :
    ∃ (skipped : List Char) (ch : Char) (rest : List Char),
      s.post = skipped ++ ch :: rest ∧ closedBlank false skipped = true ∧
      isspace ch = false ∧ ¬ (ch = '-' ∧ rest.head? = some '-') ∧
      scanToken uninit ch
        ⟨ch :: (skipped.reverse ++ s.pre), rest, ch == '-' && rest.isEmpty, false⟩ tok.linenum =
        some (tok, s') ∧
      tok.linenum = Nat.iterate incrLine (skipped.count '\n') linenum ∧
      linenum' = tok.linenum ∧
      (tok.token ≠ Token.ERR → s'.pre.count '\n' = skipped.count '\n' + s.pre.count '\n') := by
  obtain ⟨skipped, ch, rest, hpost, hblank, hsp, hcom, hline, hscan⟩ :=
    getNextToken_token_start uninit s.post.length s linenum (Nat.le_refl _) hs tok s' linenum'
      hcall hne
  obtain ⟨tok0, s0, ln0, hcall0, -, htl, -⟩ :=
    getNextToken_frame uninit s.post.length s linenum (Nat.le_refl _) hs
  rw [hcall] at hcall0
  simp only [Option.some.injEq, Prod.mk.injEq] at hcall0
  obtain ⟨rfl, rfl, rfl⟩ := hcall0
  rw [← htl] at hscan
  refine ⟨skipped, ch, rest, hpost, hblank, hsp, hcom, hscan, by rw [htl, hline], htl.symm, ?_⟩
  intro hnerr
  have h := (scanToken_paths uninit ch (skipped.reverse ++ s.pre) rest tok.linenum tok s' hsp
    hscan).1 hnerr
  rw [h, List.count_append, List.count_reverse]

/-! ## C21: the shape of identifiers -/

/-- C21: for every token that a call of `getNextToken` on a sound stream
returns: when its kind is `IDENT`, `BCONST` or a keyword kind that no operator
shares, the lexeme is not empty, starts with a letter, consists of letters,
digits and underscores and has no two consecutive underscores; when its kind
is `AND`, `OR` or `MOD`, the lexeme has that shape or is the operator `&&`,
`||` or `%`; and when its kind is `IDENT`, the upper-case fold of the lexeme is
not `CONSTANT` and is not a key of the keyword table. Moreover every token
other than `ERR` that the identifier path returns has a lexeme of that
shape. -/
theorem identifier_shape (uninit : Char) (s : IStream) (linenum : Int) (tok : LexItem)
    (s' : IStream) (linenum' : Int) (hs : s.sound = true)
    (hcall : getNextToken uninit s linenum = some (tok, s', linenum')) :
    (tok.token ∈ identifierKinds → identifierShape tok.lexeme) ∧
    (sharedKind tok.token → identifierShape tok.lexeme ∨ operatorSpelling tok.lexeme) ∧
    (tok.token = Token.IDENT →
      tok.lexeme.map toupper ≠ "CONSTANT".data ∧
      keywordsFind (tok.lexeme.map toupper) = none) ∧
    (∀ (ch : Char) (pre rest : List Char) (line : Int) (t : LexItem) (st : IStream),
      (isalpha ch || ch == '_') = true →
      scanIdent ch ⟨ch :: pre, rest, false, false⟩ line = some (t, st) →
      t.token ≠ Token.ERR → identifierShape t.lexeme) := by
  have hpath : ∀ (ch : Char) (pre rest : List Char) (line : Int) (t : LexItem) (st : IStream),
      (isalpha ch || ch == '_') = true →
      scanIdent ch ⟨ch :: pre, rest, false, false⟩ line = some (t, st) →
      t.token ≠ Token.ERR → identifierShape t.lexeme :=
    fun ch pre rest line t st hch h hne => ((scanIdent_shape ch pre rest line t st hch h).2 hne).2
  by_cases hd : tok.token = Token.DONE
  · refine ⟨?_, ?_, ?_, hpath⟩
    · intro h; rw [hd] at h; exact absurd h (by decide)
    · intro h; rw [hd] at h; exact absurd h (by unfold sharedKind; decide)
    · intro h; rw [hd] at h; exact absurd h (by decide)
  · obtain ⟨skipped, ch, rest, -, -, hsp, -, hscan, -, -, -⟩ :=
      getNextToken_line uninit s linenum hs tok s' linenum' hcall hd
    rcases (scanToken_paths uninit ch _ rest tok.linenum tok s' hsp hscan).2 with
      ⟨hch, hident⟩ | ⟨hnot, hop⟩
    · have hshape := (scanIdent_shape ch _ rest tok.linenum tok s' hch hident).2
      refine ⟨?_, ?_, ?_, hpath⟩
      · intro h
        have hne : tok.token ≠ Token.ERR := by
          intro he; rw [he] at h; exact absurd h (by decide)
        exact (hshape hne).2
      · intro h
        have hne : tok.token ≠ Token.ERR := by
          intro he; rw [he] at h; exact absurd h (by unfold sharedKind; decide)
        exact Or.inl (hshape hne).2
      · intro h
        have hne : tok.token ≠ Token.ERR := by
          intro he; rw [he] at h; exact absurd h (by decide)
        have heq := (hshape hne).1
        have hk : (id_or_kw tok.lexeme tok.linenum).token = Token.IDENT := by
          rw [← heq]; exact h
        exact id_or_kw_IDENT tok.lexeme tok.linenum hk
    · refine ⟨fun h => absurd h hnot, fun h => Or.inr (hop h), ?_, hpath⟩
      intro h
      rw [h] at hnot
      exact absurd (by decide) hnot

theorem identifier_shape_witness :
    ((IStream.ofList " -- c\n ab_1 x".data).sound = true ∧
      getNextToken 'x' (IStream.ofList " -- c\n ab_1 x".data) 1 =
        some (⟨Token.IDENT, "ab_1".data, 2⟩, ⟨"1_ba \nc -- ".data, " x".data, false, false⟩, 2)) ∧
    ((⟨Token.IDENT, "ab_1".data, 2⟩ : LexItem).token ∈ identifierKinds →
      identifierShape (⟨Token.IDENT, "ab_1".data, 2⟩ : LexItem).lexeme) ∧
    (sharedKind (⟨Token.IDENT, "ab_1".data, 2⟩ : LexItem).token →
      identifierShape (⟨Token.IDENT, "ab_1".data, 2⟩ : LexItem).lexeme ∨
      operatorSpelling (⟨Token.IDENT, "ab_1".data, 2⟩ : LexItem).lexeme) ∧
    ((⟨Token.IDENT, "ab_1".data, 2⟩ : LexItem).token = Token.IDENT →
      (⟨Token.IDENT, "ab_1".data, 2⟩ : LexItem).lexeme.map toupper ≠ "CONSTANT".data ∧
      keywordsFind ((⟨Token.IDENT, "ab_1".data, 2⟩ : LexItem).lexeme.map toupper) = none) ∧
    (∀ (ch : Char) (pre rest : List Char) (line : Int) (t : LexItem) (st : IStream),
      (isalpha ch || ch == '_') = true →
      scanIdent ch ⟨ch :: pre, rest, false, false⟩ line = some (t, st) →
      t.token ≠ Token.ERR → identifierShape t.lexeme) :=
  ⟨⟨by decide, rfl⟩,
    identifier_shape 'x' (IStream.ofList " -- c\n ab_1 x".data) 1 ⟨Token.IDENT, "ab_1".data, 2⟩
      ⟨"1_ba \nc -- ".data, " x".data, false, false⟩ 2 (by decide) rfl⟩

/-! ## The line counter along a sequence of calls -/

/-- After a `DONE` every later call of the sequence returns `DONE`. -/
theorem nthCall_done_stays (uninit : Char) (s : IStream) (linenum : Int) (hs : s.sound = true)
    (i : Nat) (tok : LexItem) (s' : IStream) (linenum' : Int)
    (hcall : nthCall uninit i s linenum = some (tok, s', linenum'))
    (hdone : tok.token = Token.DONE) :
    ∀ k : Nat, ∃ (tok2 : LexItem) (s2 : IStream) (line2 : Int),
      nthCall uninit (i + k) s linenum = some (tok2, s2, line2) ∧ tok2.token = Token.DONE := by
  intro k
  induction k with
  | zero => exact ⟨tok, s', linenum', hcall, hdone⟩
  | succ k ih =>
    obtain ⟨tok2, s2, line2, hcall2, hdone2⟩ := ih
    obtain ⟨tok0, s0, ln0, hcall0, -, -, -, -, hend⟩ := nthCall_frame uninit (i + k) s linenum hs
    rw [hcall2] at hcall0
    simp only [Option.some.injEq, Prod.mk.injEq] at hcall0
    obtain ⟨rfl, rfl, rfl⟩ := hcall0
    obtain ⟨-, -, hfail⟩ := hend hdone2
    obtain ⟨pre, post, e, f⟩ := s2
    simp only at hfail
    subst hfail
    refine ⟨⟨Token.DONE, [], line2⟩, ⟨pre, post, e, true⟩, line2, ?_, rfl⟩
    rw [← Nat.add_assoc, nthCall, hcall2]
    exact getNextToken_failed uninit pre post e line2

/-- Before a call that returns a token other than `DONE`, no call of the
sequence has returned `DONE`. -/
theorem nthCall_not_done_before (uninit : Char) (s : IStream) (linenum : Int)
    (hs : s.sound = true) (n : Nat) (tok : LexItem) (s' : IStream) (linenum' : Int)
    (hcall : nthCall uninit n s linenum = some (tok, s', linenum'))
    (hne : tok.token ≠ Token.DONE) (i : Nat) (hi : i < n) (t : LexItem) (s1 : IStream)
    (line1 : Int) (hcalli : nthCall uninit i s linenum = some (t, s1, line1)) :
    t.token ≠ Token.DONE := by
  intro hdone
  obtain ⟨tok2, s2, line2, hcall2, hdone2⟩ :=
    nthCall_done_stays uninit s linenum hs i t s1 line1 hcalli hdone (n - i)
  have hn : i + (n - i) = n := by omega
  rw [hn, hcall] at hcall2
  simp only [Option.some.injEq, Prod.mk.injEq] at hcall2
  exact hne (by rw [hcall2.1]; exact hdone2)

/-- While no call has returned `ERR` or `DONE`, the line counter is the
counter 1 of the start incremented once for each newline that the stream has
passed. -/
theorem line_invariant (uninit : Char) (input : List Char) (n : Nat) :
    (∀ i : Nat, i ≤ n → ∃ (t : LexItem) (s : IStream) (l : Int),
      nthCall uninit i (IStream.ofList input) 1 = some (t, s, l) ∧
      t.token ≠ Token.ERR ∧ t.token ≠ Token.DONE) →
    ∃ (t : LexItem) (s : IStream) (l : Int),
      nthCall uninit n (IStream.ofList input) 1 = some (t, s, l) ∧
      s.sound = true ∧ s.text = input ∧ l = Nat.iterate incrLine (s.pre.count '\n') 1 := by
  induction n with
  | zero =>
    intro h
    obtain ⟨t, s, l, hcall, hnerr, hnd⟩ := h 0 (Nat.le_refl _)
    obtain ⟨t0, s0, l0, hcall0, hsound, htext, -⟩ :=
      nthCall_frame uninit 0 (IStream.ofList input) 1 (sound_good _ _)
    rw [hcall] at hcall0
    simp only [Option.some.injEq, Prod.mk.injEq] at hcall0
    obtain ⟨rfl, rfl, rfl⟩ := hcall0
    obtain ⟨skipped, ch, rest, -, -, -, -, -, hline, hl, hcount⟩ :=
      getNextToken_line uninit (IStream.ofList input) 1 (sound_good _ _) t s l hcall hnd
    refine ⟨t, s, l, hcall, hsound, htext, ?_⟩
    have hc := hcount hnerr
    simp only [IStream.ofList, List.count_nil, Nat.add_zero] at hc
    rw [hl, hline, hc]
  | succ m ih =>
    intro h
    obtain ⟨tm, sm, lm, hcallm, hsoundm, -, hlm⟩ :=
      ih (fun i hi => h i (Nat.le_succ_of_le hi))
    obtain ⟨t, s, l, hcall, hnerr, hnd⟩ := h (m + 1) (Nat.le_refl _)
    obtain ⟨t0, s0, l0, hcall0, hsound, htext, -⟩ :=
      nthCall_frame uninit (m + 1) (IStream.ofList input) 1 (sound_good _ _)
    rw [hcall] at hcall0
    simp only [Option.some.injEq, Prod.mk.injEq] at hcall0
    obtain ⟨rfl, rfl, rfl⟩ := hcall0
    have hstep : getNextToken uninit sm lm = some (t, s, l) := by
      rw [nthCall, hcallm] at hcall
      exact hcall
    obtain ⟨skipped, ch, rest, -, -, -, -, -, hline, hl, hcount⟩ :=
      getNextToken_line uninit sm lm hsoundm t s l hstep hnd
    refine ⟨t, s, l, hcall, hsound, htext, ?_⟩
    rw [hl, hline, hlm, hcount hnerr, Function.iterate_add_apply]

/-- A call on newlines followed by more text: the newlines are passed and the
counter is incremented once for each of them. -/
theorem getNextToken_newlines (uninit : Char) (n : Nat) :
    ∀ (pre rest : List Char) (linenum : Int),
      getNextToken uninit ⟨pre, List.replicate n '\n' ++ rest, false, false⟩ linenum =
        getNextToken uninit ⟨List.replicate n '\n' ++ pre, rest, false, false⟩
          (Nat.iterate incrLine n linenum) := by
  induction n with
  | zero => intro pre rest linenum; rfl
  | succ n ih =>
    intro pre rest linenum
    have h1 : List.replicate (n + 1) '\n' ++ rest = '\n' :: (List.replicate n '\n' ++ rest) := rfl
    have h2 : List.replicate (n + 1) '\n' ++ pre = List.replicate n '\n' ++ '\n' :: pre := by
      rw [List.replicate_succ', List.append_assoc]
      rfl
    have hm : ¬ (('\n' : Char) = '-' ∧ (List.replicate n '\n' ++ rest).head? = some '-') :=
      fun h => absurd h.1 (by decide)
    rw [h1, h2, getNextToken_step, if_neg hm, if_pos rfl, ih ('\n' :: pre) rest (incrLine linenum)]
    rfl

/-- A call on a stream that holds only `x`. -/
theorem getNextToken_single_x (uninit : Char) (pre : List Char) (linenum : Int) :
    getNextToken uninit ⟨pre, ['x'], false, false⟩ linenum =
      some (⟨Token.IDENT, ['x'], linenum⟩, ⟨'x' :: pre, [], false, true⟩, linenum) := by
  rw [getNextToken_ident_end uninit 'x' [] pre linenum (by decide) (by decide)]
  rfl

/-! ## C22: line accuracy up to the first error -/

/-- C22 (counterexample): on the input of 2147483647 newlines followed by `x`,
scanned from line counter 1, the first call returns `IDENT "x"` with line
-2147483648, while 1 plus the number of newlines before `x` is 2147483648:
the 2147483647th increment of the `int` counter wraps around. -/
theorem line_accuracy_counterexample :
    nthCall 'x' 0 (IStream.ofList (List.replicate 2147483647 '\n' ++ ['x'])) 1 =
      some (⟨Token.IDENT, ['x'], -2147483648⟩,
        ⟨'x' :: List.replicate 2147483647 '\n', [], false, true⟩, -2147483648) ∧
    (-2147483648 : Int) ≠ 1 + ((List.replicate 2147483647 '\n').count '\n' : Nat) := by
  have hline : Nat.iterate incrLine 2147483647 1 = -2147483648 := by
    rw [iterate_incrLine_wrap 2147483646 1]
    decide
  constructor
  · rw [nthCall, IStream.ofList, getNextToken_newlines 'x' 2147483647 [] ['x'] 1, hline,
      List.append_nil]
    exact getNextToken_single_x 'x' _ _
  · rw [List.count_replicate_self]
    decide

/-- C22 (amended): scanning an input from line counter 1, take a call of the
sequence before which no call has returned `ERR`, and which returns a token
other than `DONE` (the token may be the first `ERR`). The stream on which the
call is made has consumed a part of the input; what is left starts with white
space and complete comments `skipped`, followed by the character `ch` at which
the token is scanned. The line of the token is the counter 1 incremented once
for each newline of the input before `ch`; when there are fewer than
2147483647 such newlines, so that the `int` counter has not wrapped around,
the line of the token is 1 plus the number of newlines of the input before
`ch`. -/
theorem line_accuracy (uninit : Char) (input : List Char) (n : Nat) (tok : LexItem)
    (s' : IStream) (linenum' : Int)
    (hprev : ∀ i : Nat, i < n → ∃ (t : LexItem) (s : IStream) (l : Int),
      nthCall uninit i (IStream.ofList input) 1 = some (t, s, l) ∧ t.token ≠ Token.ERR)
    (hcall : nthCall uninit n (IStream.ofList input) 1 = some (tok, s', linenum'))
    (hne : tok.token ≠ Token.DONE) :
    ∃ (before : IStream) (line : Int) (skipped : List Char) (ch : Char) (rest : List Char),
      stateBefore uninit n (IStream.ofList input) 1 = some (before, line) ∧
      before.post = skipped ++ ch :: rest ∧
      input = (before.pre.reverse ++ skipped) ++ ch :: rest ∧
      closedBlank false skipped = true ∧ isspace ch = false ∧
      ¬ (ch = '-' ∧ rest.head? = some '-') ∧
      scanToken uninit ch
        ⟨ch :: (skipped.reverse ++ before.pre), rest, ch == '-' && rest.isEmpty, false⟩
        tok.linenum = some (tok, s') ∧
      tok.linenum = Nat.iterate incrLine ((before.pre.reverse ++ skipped).count '\n') 1 ∧
      ((before.pre.reverse ++ skipped).count '\n' < 2147483647 →
        tok.linenum = 1 + ((before.pre.reverse ++ skipped).count '\n' : Nat)) := by
  have hexact : ∀ (k : Nat) (l : Int), l = Nat.iterate incrLine k 1 → k < 2147483647 →
      l = 1 + (k : Nat) := by
    intro k l hl hk
    rw [hl]
    exact iterate_incrLine_of_le k 1 (by decide) (by omega)
  cases n with
  | zero =>
    rw [nthCall] at hcall
    obtain ⟨skipped, ch, rest, hpost, hblank, hsp, hcom, hscan, hline, -, -⟩ :=
      getNextToken_line uninit (IStream.ofList input) 1 (sound_good _ _) tok s' linenum' hcall hne
    have hl : tok.linenum =
        Nat.iterate incrLine (((IStream.ofList input).pre.reverse ++ skipped).count '\n') 1 := by
      rw [hline]
      simp [IStream.ofList]
    refine ⟨IStream.ofList input, 1, skipped, ch, rest, rfl, hpost, ?_, hblank, hsp, hcom, hscan,
      hl, hexact _ _ hl⟩
    simp only [IStream.ofList] at hpost
    simp [IStream.ofList, hpost]
  | succ m =>
    have hs0 : (IStream.ofList input).sound = true := sound_good _ _
    obtain ⟨tm, sm, lm, hcallm, hsoundm, htextm, hlm⟩ :=
      line_invariant uninit input m (by
        intro i hi
        obtain ⟨t, s, l, hci, hnerr⟩ := hprev i (by omega)
        exact ⟨t, s, l, hci, hnerr,
          nthCall_not_done_before uninit _ 1 hs0 (m + 1) tok s' linenum' hcall hne i (by omega)
            t s l hci⟩)
    have hstep : getNextToken uninit sm lm = some (tok, s', linenum') := by
      rw [nthCall, hcallm] at hcall
      exact hcall
    obtain ⟨skipped, ch, rest, hpost, hblank, hsp, hcom, hscan, hline, -, -⟩ :=
      getNextToken_line uninit sm lm hsoundm tok s' linenum' hstep hne
    have hl : tok.linenum = Nat.iterate incrLine ((sm.pre.reverse ++ skipped).count '\n') 1 := by
      rw [hline, hlm, List.count_append, List.count_reverse, Nat.add_comm,
        Function.iterate_add_apply]
    refine ⟨sm, lm, skipped, ch, rest, ?_, hpost, ?_, hblank, hsp, hcom, hscan, hl,
      hexact _ _ hl⟩
    · rw [stateBefore, hcallm]; rfl
    · rw [← htextm, IStream.text, hpost, List.append_assoc]

theorem line_accuracy_witness :
    ((∀ i : Nat, i < 2 → ∃ (t : LexItem) (s : IStream) (l : Int),
        nthCall 'x' i (IStream.ofList "a -- c\n b\n \"x".data) 1 = some (t, s, l) ∧
        t.token ≠ Token.ERR) ∧
      nthCall 'x' 2 (IStream.ofList "a -- c\n b\n \"x".data) 1 =
        some (⟨Token.ERR, invalidString ++ "x".data, 3⟩,
          ⟨"x\" \nb \nc -- a".data, [], true, true⟩, 3) ∧
      (⟨Token.ERR, invalidString ++ "x".data, 3⟩ : LexItem).token ≠ Token.DONE) ∧
    ∃ (before : IStream) (line : Int) (skipped : List Char) (ch : Char) (rest : List Char),
      stateBefore 'x' 2 (IStream.ofList "a -- c\n b\n \"x".data) 1 = some (before, line) ∧
      before.post = skipped ++ ch :: rest ∧
      "a -- c\n b\n \"x".data = (before.pre.reverse ++ skipped) ++ ch :: rest ∧
      closedBlank false skipped = true ∧ isspace ch = false ∧
      ¬ (ch = '-' ∧ rest.head? = some '-') ∧
      scanToken 'x' ch
        ⟨ch :: (skipped.reverse ++ before.pre), rest, ch == '-' && rest.isEmpty, false⟩
        (⟨Token.ERR, invalidString ++ "x".data, 3⟩ : LexItem).linenum =
        some (⟨Token.ERR, invalidString ++ "x".data, 3⟩,
          ⟨"x\" \nb \nc -- a".data, [], true, true⟩) ∧
      (⟨Token.ERR, invalidString ++ "x".data, 3⟩ : LexItem).linenum =
        Nat.iterate incrLine ((before.pre.reverse ++ skipped).count '\n') 1 ∧
      ((before.pre.reverse ++ skipped).count '\n' < 2147483647 →
        (⟨Token.ERR, invalidString ++ "x".data, 3⟩ : LexItem).linenum =
          1 + ((before.pre.reverse ++ skipped).count '\n' : Nat)) :=
  ⟨⟨fun i hi =>
      match i, hi with
      | 0, _ => ⟨_, _, _, rfl, by decide⟩
      | 1, _ => ⟨_, _, _, rfl, by decide⟩
      | k + 2, h => absurd h (by omega),
    rfl, by decide⟩,
    line_accuracy 'x' "a -- c\n b\n \"x".data 2 ⟨Token.ERR, invalidString ++ "x".data, 3⟩
      ⟨"x\" \nb \nc -- a".data, [], true, true⟩ 3
      (fun i hi =>
        match i, hi with
        | 0, _ => ⟨_, _, _, rfl, by decide⟩
        | 1, _ => ⟨_, _, _, rfl, by decide⟩
        | k + 2, h => absurd h (by omega))
      rfl (by decide)⟩

/-! ## Termination of a sequence of calls -/

/-- A sequence of calls, seen from its first call: call number `n + 1` on a
stream is call number `n` on the stream that the first call leaves. -/
theorem nthCall_succ_front (uninit : Char) (n : Nat) :
    ∀ (s : IStream) (linenum : Int),
      nthCall uninit (n + 1) s linenum =
        match getNextToken uninit s linenum with
        | some (_, s', linenum') => nthCall uninit n s' linenum'
        | none => none := by
  induction n with
  | zero =>
    intro s linenum
    rw [nthCall, nthCall]
    cases h : getNextToken uninit s linenum with
    | none => rfl
    | some r => obtain ⟨t, s', l'⟩ := r; rfl
  | succ n ih =>
    intro s linenum
    rw [nthCall, ih s linenum]
    cases h : getNextToken uninit s linenum with
    | none => rfl
    | some r => obtain ⟨t, s', l'⟩ := r; simp only; rw [nthCall]

/-- Every call of a sequence on a sound stream returns, and leaves a sound
stream whose remaining text is a suffix of the remaining text at the start. -/
theorem nthCall_suffix (uninit : Char) (n : Nat) :
    ∀ (s : IStream) (linenum : Int), s.sound = true →
      ∃ (tok : LexItem) (s' : IStream) (linenum' : Int),
        nthCall uninit n s linenum = some (tok, s', linenum') ∧
        s'.sound = true ∧ s'.post <:+ s.post := by
  induction n with
  | zero =>
    intro s linenum hs
    obtain ⟨tok, s', ln', hcall, -, -, hsound, -, hsuf, -⟩ :=
      getNextToken_frame uninit s.post.length s linenum (Nat.le_refl _) hs
    exact ⟨tok, s', ln', hcall, hsound, hsuf⟩
  | succ n ih =>
    intro s linenum hs
    obtain ⟨tok1, s1, ln1, hcall1, hsound1, hsuf1⟩ := ih s linenum hs
    obtain ⟨tok, s', ln', hcall, -, -, hsound, -, hsuf, -⟩ :=
      getNextToken_frame uninit s1.post.length s1 ln1 (Nat.le_refl _) hsound1
    refine ⟨tok, s', ln', ?_, hsound, hsuf.trans hsuf1⟩
    rw [nthCall, hcall1]
    exact hcall

/-- On a sound stream whose remaining text has no two adjacent underscores,
the calls reach `DONE` after at most as many other tokens as characters are
left. -/
theorem calls_reach_done (uninit : Char) (m : Nat) :
    ∀ (s : IStream) (linenum : Int), s.sound = true → s.post.length ≤ m →
      ¬ ['_', '_'] <:+: s.post →
      ∃ n : Nat, n ≤ m ∧
        (∃ (s' : IStream) (linenum' : Int),
          nthCall uninit n s linenum = some (⟨Token.DONE, [], linenum'⟩, s', linenum')) ∧
        (∀ i : Nat, i < n → ∃ (tok : LexItem) (s1 : IStream) (line1 : Int),
          nthCall uninit i s linenum = some (tok, s1, line1) ∧ tok.token ≠ Token.DONE) := by
  induction m with
  | zero =>
    intro s linenum hs hlen hno
    obtain ⟨tok, s', ln', hcall, -, hline, -, -, -, -, hend, hprog⟩ :=
      getNextToken_frame uninit s.post.length s linenum (Nat.le_refl _) hs
    have hdone : tok.token = Token.DONE := by
      by_contra hne
      rcases hprog hne with h | h
      · omega
      · exact hno h
    refine ⟨0, Nat.le_refl _, ⟨s', ln', ?_⟩, fun i hi => absurd hi (Nat.not_lt_zero i)⟩
    obtain ⟨t, l, k⟩ := tok
    simp only at hdone hline
    have hl := (hend hdone).1
    simp only at hl
    rw [nthCall, hcall, hdone, hl, hline]
  | succ m ih =>
    intro s linenum hs hlen hno
    obtain ⟨tok, s', ln', hcall, -, hline, hsound, -, hsuf, -, hend, hprog⟩ :=
      getNextToken_frame uninit s.post.length s linenum (Nat.le_refl _) hs
    by_cases hdone : tok.token = Token.DONE
    · refine ⟨0, Nat.zero_le _, ⟨s', ln', ?_⟩, fun i hi => absurd hi (Nat.not_lt_zero i)⟩
      obtain ⟨t, l, k⟩ := tok
      simp only at hdone hline
      have hl := (hend hdone).1
      simp only at hl
      rw [nthCall, hcall, hdone, hl, hline]
    · have hshort : s'.post.length < s.post.length := by
        rcases hprog hdone with h | h
        · exact h
        · exact absurd h hno
      have hno' : ¬ ['_', '_'] <:+: s'.post := fun h => hno (h.trans hsuf.isInfix)
      obtain ⟨n, hn, ⟨s2, ln2, hfin⟩, hbefore⟩ := ih s' ln' hsound (by omega) hno'
      refine ⟨n + 1, by omega, ⟨s2, ln2, ?_⟩, ?_⟩
      · rw [nthCall_succ_front, hcall]
        exact hfin
      · intro i hi
        cases i with
        | zero => exact ⟨tok, s', ln', hcall, hdone⟩
        | succ j =>
          obtain ⟨t, s1, l1, hj, hne⟩ := hbefore j (by omega)
          refine ⟨t, s1, l1, ?_, hne⟩
          rw [nthCall_succ_front, hcall]
          exact hj

/-! ## C23: progress and termination -/

/-- C23: for an input without two adjacent underscores: every call of the
sequence returns and leaves a sound stream placed at a suffix of the input; a
call on such a stream that returns a token other than `DONE` leaves a strictly
shorter suffix of the stream it was given; and the calls return `DONE` after
at most as many other tokens as the input has characters. Moreover a single
call returns on every input, with or without adjacent underscores. -/
theorem progress_and_termination (uninit : Char) (input : List Char) (linenum : Int)
    (hno : ¬ ['_', '_'] <:+: input) :
    (∀ n : Nat, ∃ (tok : LexItem) (s : IStream) (line : Int),
      nthCall uninit n (IStream.ofList input) linenum = some (tok, s, line) ∧
      s.sound = true ∧ s.post <:+ input) ∧
    (∀ (s : IStream) (line : Int), s.sound = true → s.post <:+ input →
      ∃ (tok : LexItem) (s' : IStream) (line' : Int),
        getNextToken uninit s line = some (tok, s', line') ∧
        (tok.token ≠ Token.DONE → s'.post <:+ s.post ∧ s'.post.length < s.post.length)) ∧
    (∃ n : Nat, n ≤ input.length ∧
      (∃ (s' : IStream) (line' : Int),
        nthCall uninit n (IStream.ofList input) linenum =
          some (⟨Token.DONE, [], line'⟩, s', line')) ∧
      (∀ i : Nat, i < n → ∃ (tok : LexItem) (s1 : IStream) (line1 : Int),
        nthCall uninit i (IStream.ofList input) linenum = some (tok, s1, line1) ∧
        tok.token ≠ Token.DONE)) ∧
    (∀ (text : List Char) (line : Int), ∃ r : LexItem × IStream × Int,
      getNextToken uninit (IStream.ofList text) line = some r) := by
  refine ⟨?_, ?_, ?_, ?_⟩
  · intro n
    exact nthCall_suffix uninit n (IStream.ofList input) linenum (sound_good _ _)
  · intro s line hs hsuf
    obtain ⟨tok, s', ln', hcall, -, -, -, -, hsuf', -, -, hprog⟩ :=
      getNextToken_frame uninit s.post.length s line (Nat.le_refl _) hs
    refine ⟨tok, s', ln', hcall, fun hne => ⟨hsuf', ?_⟩⟩
    rcases hprog hne with h | h
    · exact h
    · exact absurd (h.trans hsuf.isInfix) hno
  · exact calls_reach_done uninit input.length (IStream.ofList input) linenum (sound_good _ _)
      (Nat.le_refl _) hno
  · intro text line
    obtain ⟨tok, s', ln', hcall, -⟩ :=
      getNextToken_frame uninit text.length (IStream.ofList text) line (Nat.le_refl _)
        (sound_good _ _)
    exact ⟨_, hcall⟩

theorem progress_and_termination_witness :
    ¬ ['_', '_'] <:+: "a_b := 1".data ∧
    ((∀ n : Nat, ∃ (tok : LexItem) (s : IStream) (line : Int),
      nthCall 'x' n (IStream.ofList "a_b := 1".data) 1 = some (tok, s, line) ∧
      s.sound = true ∧ s.post <:+ "a_b := 1".data) ∧
    (∀ (s : IStream) (line : Int), s.sound = true → s.post <:+ "a_b := 1".data →
      ∃ (tok : LexItem) (s' : IStream) (line' : Int),
        getNextToken 'x' s line = some (tok, s', line') ∧
        (tok.token ≠ Token.DONE → s'.post <:+ s.post ∧ s'.post.length < s.post.length)) ∧
    (∃ n : Nat, n ≤ "a_b := 1".data.length ∧
      (∃ (s' : IStream) (line' : Int),
        nthCall 'x' n (IStream.ofList "a_b := 1".data) 1 =
          some (⟨Token.DONE, [], line'⟩, s', line')) ∧
      (∀ i : Nat, i < n → ∃ (tok : LexItem) (s1 : IStream) (line1 : Int),
        nthCall 'x' i (IStream.ofList "a_b := 1".data) 1 = some (tok, s1, line1) ∧
        tok.token ≠ Token.DONE)) ∧
    (∀ (text : List Char) (line : Int), ∃ r : LexItem × IStream × Int,
      getNextToken 'x' (IStream.ofList text) line = some r)) :=
  ⟨by decide, progress_and_termination 'x' "a_b := 1".data 1 (by decide)⟩

end LexicalAnalyzer
